import Mathlib

/-!
Verification of the correlate package of the argus repository.

The development shallowly embeds the Go package `internal/correlate`
(signal collection, temporal clustering, severity scoring and propagation
detection) together with the parts of the Go standard library its
observable behaviour depends on.

Modelling conventions:
* Go strings are byte lists (`GoStr := List Nat`, each entry a byte value);
  `len` and slicing on Go strings are byte based, which this model keeps.
* `time.Time` and `time.Duration` are modelled as integer nanosecond counts
  (Go stores both as 64-bit nanosecond values; overflow of the 64-bit
  representation is not modelled, it is unreachable for realistic inputs).
* `float64` values (scores, average delays, durations in milliseconds) are
  modelled as rationals.  All comparisons appearing in the claims use values
  on which rational and double arithmetic agree.
* `sort.Slice` of the Go standard library is embedded faithfully below
  (namespace `gosort`): it is pdqsort (Go 1.19 and later), falling back to
  insertion sort on ranges of at most 12 elements.  `sort.Slice` is
  documented as not stable.
* Go map iteration order is unspecified and randomized between runs; loops
  ranging over a map are therefore parameterized by the iteration order
  (a permutation of the deterministic map content).
-/

/-- A Go string: a list of byte values. -/
abbrev GoStr : Type := List Nat

namespace gosort

variable {α : Type} [Inhabited α]

/-- `data.Swap(i, j)` on a slice modelled as a list.  The bounds guard only
regularizes out-of-range calls (which the Go sort never performs). -/
def aswap (l : List α) (i j : Nat) : List α :=
  if i < l.length ∧ j < l.length then
    (l.set i (l.getD j default)).set j (l.getD i default)
  else l

/-- Inner loop of `insertionSort_func`: bubble the element at index `j`
down towards `a` while it is strictly less than its left neighbour
(structural recursion on the index, which strictly decreases). -/
def insInner (less : α → α → Bool) (a : Nat) (l : List α) : Nat → List α
  | 0 => l
  | j + 1 =>
    if a < j + 1 ∧ less (l.getD (j + 1) default) (l.getD j default) = true then
      insInner less a (aswap l (j + 1) j) j
    else l

/-- Outer loop of `insertionSort_func`, inserting indices `i, i+1, ..., b-1`;
the last argument counts the remaining iterations `b - i`, which the guard
`i < b` makes exact. -/
def insOuter (less : α → α → Bool) (a b : Nat) : List α → Nat → Nat → List α
  | l, _, 0 => l
  | l, i, n + 1 =>
    if i < b then insOuter less a b (insInner less a l i) (i + 1) n else l

/-- Go `insertionSort_func(data, a, b)`. -/
def insertionSortA (less : α → α → Bool) (a b : Nat) (l : List α) : List α :=
  insOuter less a b l (a + 1) (b - (a + 1))

/-- Child selection inside `siftDown_func`: take the right child when it
exists and compares greater. -/
def siftChild (less : α → α → Bool) (first hi : Nat) (l : List α) (child0 : Nat) : Nat :=
  if child0 + 1 < hi ∧
      less (l.getD (first + child0) default) (l.getD (first + child0 + 1) default) = true
  then child0 + 1 else child0

/-- Go `siftDown_func(data, lo, hi, first)`; `fuel` bounds the walk down the
heap (the root index strictly increases, so `hi` steps always suffice). -/
def siftDownA (less : α → α → Bool) (first hi : Nat) (l : List α) (root fuel : Nat) : List α :=
  match fuel with
  | 0 => l
  | fuel + 1 =>
    if 2 * root + 1 ≥ hi then l
    else
      if less (l.getD (first + root) default)
          (l.getD (first + siftChild less first hi l (2 * root + 1)) default) = true then
        siftDownA less first hi
          (aswap l (first + root) (first + siftChild less first hi l (2 * root + 1)))
          (siftChild less first hi l (2 * root + 1)) fuel
      else l

/-- Heap construction loop of `heapSort_func`: sift roots `c-1, c-2, ..., 0`. -/
def heapInitA (less : α → α → Bool) (first hi : Nat) (l : List α) : Nat → List α
  | 0 => l
  | c + 1 => heapInitA less first hi (siftDownA less first hi l c hi) c

/-- Extraction loop of `heapSort_func`: for `i = hi-1, ..., 1`, swap the root
with index `i` and restore the heap on the shortened prefix. -/
def heapExtractA (less : α → α → Bool) (first : Nat) : List α → Nat → List α
  | l, 0 => l
  | l, i + 1 =>
    heapExtractA less first
      (siftDownA less first (i + 1) (aswap l first (first + (i + 1))) 0 (i + 1)) i

/-- Go `heapSort_func(data, a, b)`. -/
def heapSortA (less : α → α → Bool) (a b : Nat) (l : List α) : List α :=
  let hi := b - a
  heapExtractA less a (heapInitA less a hi l ((hi - 1) / 2 + 1)) (hi - 1)

/-- Exchange loop of `reverseRange_func`; the fuel `j - i` bounds the
number of exchanges, and the guard `i < j` makes the count exact. -/
def reverseRangeF : List α → Nat → Nat → Nat → List α
  | l, _, _, 0 => l
  | l, i, j, n + 1 => if i < j then reverseRangeF (aswap l i j) (i + 1) (j - 1) n else l

/-- Go `reverseRange_func(data, a, b)` (called here with `i = a`, `j = b-1`). -/
def reverseRangeA (l : List α) (i j : Nat) : List α := reverseRangeF l i j (j - i)

/-- One step of the 64-bit xorshift generator used by `breakPatterns_func`. -/
def xorshiftNext (r : Nat) : Nat :=
  let m := 18446744073709551616
  let r1 := (r ^^^ ((r <<< 13) % m)) % m
  let r2 := (r1 ^^^ (r1 >>> 7)) % m
  (r2 ^^^ ((r2 <<< 17) % m)) % m

/-- Go `bits.Len(uint(n))`. -/
def bitsLen (n : Nat) : Nat := if n = 0 then 0 else Nat.log2 n + 1

/-- One iteration of the loop in `breakPatterns_func`. -/
def bpStep (l : List α) (idx a length modulus r i : Nat) : List α × Nat :=
  let r1 := xorshiftNext r
  let other0 := r1 &&& (modulus - 1)
  let other := if other0 ≥ length then other0 - length else other0
  (aswap l (idx - 1 + i) (a + other), r1)

/-- Go `breakPatterns_func(data, a, b)`: swap three pseudo-random elements
around the quarter point (only on ranges of length at least 8). -/
def breakPatternsA (l : List α) (a b : Nat) : List α :=
  let length := b - a
  if length ≥ 8 then
    let modulus := 1 <<< bitsLen length
    let idx := a + length / 4 * 2 - 1
    let s0 := bpStep l idx a length modulus length 0
    let s1 := bpStep s0.1 idx a length modulus s0.2 1
    (bpStep s1.1 idx a length modulus s1.2 2).1
  else l

/-- Go `order2_func`: order two indices by the pointed-to values, counting
performed exchanges (indices only, the data is not written). -/
def order2A (less : α → α → Bool) (l : List α) (a b swaps : Nat) : Nat × Nat × Nat :=
  if less (l.getD b default) (l.getD a default) = true then (b, a, swaps + 1)
  else (a, b, swaps)

/-- Go `median_func`: index of the median of three pointed-to values. -/
def medianA (less : α → α → Bool) (l : List α) (a b c swaps : Nat) : Nat × Nat :=
  let o1 := order2A less l a b swaps
  let o2 := order2A less l o1.2.1 c o1.2.2
  let o3 := order2A less l o1.1 o2.1 o2.2.2
  (o3.2.1, o3.2.2)

/-- Go `medianAdjacent_func`: median of `a-1, a, a+1`. -/
def medianAdjacentA (less : α → α → Bool) (l : List α) (a swaps : Nat) : Nat × Nat :=
  medianA less l (a - 1) a (a + 1) swaps

/-- The hint returned by `choosePivot_func`. -/
inductive SortedHint
  | increasing
  | decreasing
  | unknown
deriving DecidableEq, Repr

/-- Translate the exchange counter into a `SortedHint` (`maxSwaps = 12`). -/
def hintOf (swaps : Nat) : SortedHint :=
  if swaps = 0 then .increasing else if swaps = 12 then .decreasing else .unknown

/-- Go `choosePivot_func(data, a, b)` (ninther only from length 50). -/
def choosePivotA (less : α → α → Bool) (l : List α) (a b : Nat) : Nat × SortedHint :=
  let len := b - a
  let i0 := a + len / 4 * 1
  let j0 := a + len / 4 * 2
  let k0 := a + len / 4 * 3
  if len ≥ 8 then
    if len ≥ 50 then
      let m1 := medianAdjacentA less l i0 0
      let m2 := medianAdjacentA less l j0 m1.2
      let m3 := medianAdjacentA less l k0 m2.2
      let m4 := medianA less l m1.1 m2.1 m3.1 m3.2
      (m4.1, hintOf m4.2)
    else
      let m4 := medianA less l i0 j0 k0 0
      (m4.1, hintOf m4.2)
  else (j0, hintOf 0)

/-- Fueled scan of `partialInsertionSort_func` looking for the first
adjacent out-of-order pair at or after index `i` (fuel `b - i` is exact
thanks to the `i < b` guard). -/
def advanceF (less : α → α → Bool) (l : List α) (b : Nat) : Nat → Nat → Nat
  | i, 0 => i
  | i, n + 1 =>
    if i < b ∧ less (l.getD i default) (l.getD (i - 1) default) = false then
      advanceF less l b (i + 1) n
    else i

/-- The scan of `partialInsertionSort_func` looking for the first adjacent
out-of-order pair at or after index `i`. -/
def advanceWhileSorted (less : α → α → Bool) (l : List α) (b : Nat) (i : Nat) : Nat :=
  advanceF less l b i (b - i)

/-- Left shift loop of `partialInsertionSort_func` (Go iterates on the
absolute index down to 1; structural recursion on the index). -/
def shiftLeftA (less : α → α → Bool) : List α → Nat → List α
  | l, 0 => l
  | l, j + 1 =>
    if less (l.getD (j + 1) default) (l.getD j default) = true then
      shiftLeftA less (aswap l (j + 1) j) j
    else l

/-- Fueled right shift loop of `partialInsertionSort_func` (fuel `b - j`
is exact thanks to the `j < b` guard). -/
def shiftRightF (less : α → α → Bool) (b : Nat) : List α → Nat → Nat → List α
  | l, _, 0 => l
  | l, j, n + 1 =>
    if j < b ∧ less (l.getD j default) (l.getD (j - 1) default) = true then
      shiftRightF less b (aswap l j (j - 1)) (j + 1) n
    else l

/-- Right shift loop of `partialInsertionSort_func`. -/
def shiftRightA (less : α → α → Bool) (b : Nat) (l : List α) (j : Nat) : List α :=
  shiftRightF less b l j (b - j)

/-- Main loop of `partialInsertionSort_func` (`maxSteps = 5`,
`shortestShifting = 50`); returns the data and whether it is fully sorted. -/
def almostSortLoop (less : α → α → Bool) (a b : Nat) : List α → Nat → Nat → List α × Bool
  | l, _, 0 => (l, false)
  | l, i, steps + 1 =>
    let i1 := advanceWhileSorted less l b i
    if i1 = b then (l, true)
    else if b - a < 50 then (l, false)
    else
      let l1 := aswap l i1 (i1 - 1)
      let l2 := if i1 - a ≥ 2 then shiftLeftA less l1 (i1 - 1) else l1
      let l3 := if b - i1 ≥ 2 then shiftRightA less b l2 (i1 + 1) else l2
      almostSortLoop less a b l3 i1 steps

/-- Go `partialInsertionSort_func(data, a, b)`. -/
def almostSortA (less : α → α → Bool) (a b : Nat) (l : List α) : List α × Bool :=
  almostSortLoop less a b l (a + 1) 5

/-- Fueled advance of `for i <= j && data.Less(i, a) { i++ }` of
`partition_func` (fuel `j + 1 - i` is exact thanks to the `i <= j` guard). -/
def partAdvF (less : α → α → Bool) (l : List α) (a j : Nat) : Nat → Nat → Nat
  | i, 0 => i
  | i, n + 1 =>
    if i ≤ j ∧ less (l.getD i default) (l.getD a default) = true then
      partAdvF less l a j (i + 1) n
    else i

/-- `for i <= j && data.Less(i, a) { i++ }` of `partition_func`. -/
def partAdvI (less : α → α → Bool) (l : List α) (a j i : Nat) : Nat :=
  partAdvF less l a j i (j + 1 - i)

/-- `for i <= j && !data.Less(j, a) { j-- }` of `partition_func` (the Go
loop always runs with `i ≥ 1`, so stopping at `j = 0` is faithful). -/
def partRetJ (less : α → α → Bool) (l : List α) (a i : Nat) : Nat → Nat
  | 0 => 0
  | j + 1 =>
    if i ≤ j + 1 ∧ less (l.getD (j + 1) default) (l.getD a default) = false then
      partRetJ less l a i j
    else j + 1

/-- Exchange loop of `partition_func`; `fuel` bounds the number of crossing
exchanges (each one strictly shrinks `j - i`, so `b` steps suffice). -/
def partLoopA (less : α → α → Bool) (a : Nat) : List α → Nat → Nat → Nat → List α × Nat
  | l, _, j, 0 => (l, j)
  | l, i, j, fuel + 1 =>
    let i1 := partAdvI less l a j i
    let j1 := partRetJ less l a i1 j
    if i1 > j1 then (l, j1)
    else partLoopA less a (aswap l i1 j1) (i1 + 1) (j1 - 1) fuel

/-- Go `partition_func(data, a, b, pivot)`: Hoare partition, returning the
final pivot position and whether the range was already partitioned. -/
def partitionA (less : α → α → Bool) (l : List α) (a b pivot : Nat) :
    List α × Nat × Bool :=
  let l0 := aswap l a pivot
  let i0 := partAdvI less l0 a (b - 1) (a + 1)
  let j0 := partRetJ less l0 a i0 (b - 1)
  if i0 > j0 then (aswap l0 j0 a, j0, true)
  else
    let l1 := aswap l0 i0 j0
    let r := partLoopA less a l1 (i0 + 1) (j0 - 1) b
    (aswap r.1 r.2 a, r.2, false)

/-- Fueled advance of `for i <= j && !data.Less(a, i) { i++ }` of
`partitionEqual_func`. -/
def peqAdvF (less : α → α → Bool) (l : List α) (a j : Nat) : Nat → Nat → Nat
  | i, 0 => i
  | i, n + 1 =>
    if i ≤ j ∧ less (l.getD a default) (l.getD i default) = false then
      peqAdvF less l a j (i + 1) n
    else i

/-- `for i <= j && !data.Less(a, i) { i++ }` of `partitionEqual_func`. -/
def peqAdvI (less : α → α → Bool) (l : List α) (a j i : Nat) : Nat :=
  peqAdvF less l a j i (j + 1 - i)

/-- `for i <= j && data.Less(a, j) { j-- }` of `partitionEqual_func`. -/
def peqRetJ (less : α → α → Bool) (l : List α) (a i : Nat) : Nat → Nat
  | 0 => 0
  | j + 1 =>
    if i ≤ j + 1 ∧ less (l.getD a default) (l.getD (j + 1) default) = true then
      peqRetJ less l a i j
    else j + 1

/-- Exchange loop of `partitionEqual_func`. -/
def peqLoopA (less : α → α → Bool) (a : Nat) : List α → Nat → Nat → Nat → List α × Nat
  | l, i, _, 0 => (l, i)
  | l, i, j, fuel + 1 =>
    let i1 := peqAdvI less l a j i
    let j1 := peqRetJ less l a i1 j
    if i1 > j1 then (l, i1)
    else peqLoopA less a (aswap l i1 j1) (i1 + 1) (j1 - 1) fuel

/-- Go `partitionEqual_func(data, a, b, pivot)`: move elements equal to the
pivot to the front, returning the first index past them. -/
def partitionEqualA (less : α → α → Bool) (l : List α) (a b pivot : Nat) :
    List α × Nat :=
  let l0 := aswap l a pivot
  peqLoopA less a l0 (a + 1) (b - 1) b

/-- Step 3 of one `pdqsort_func` loop iteration: `breakPatterns` and a
limit decrement when the last partitioning was unbalanced. -/
def pdqBreak (l : List α) (a b limit : Nat) (wasBalanced : Bool) : List α × Nat :=
  if wasBalanced = false then (breakPatternsA l a b, limit - 1) else (l, limit)

/-- Steps 4 and 5 of one `pdqsort_func` loop iteration: pivot choice and
the reversal of a detected decreasing range.  Returns the data, the pivot
index and the (possibly rewritten) hint. -/
def pdqPivot (less : α → α → Bool) (l1 : List α) (a b : Nat) : List α × Nat × SortedHint :=
  if (choosePivotA less l1 a b).2 = SortedHint.decreasing then
    (reverseRangeA l1 a (b - 1), b - 1 - ((choosePivotA less l1 a b).1 - a),
      SortedHint.increasing)
  else (l1, (choosePivotA less l1 a b).1, (choosePivotA less l1 a b).2)

/-- Steps 3 to 5 of one `pdqsort_func` loop iteration combined: the data,
the remaining limit, the pivot index and the hint. -/
def pdqPrologue (less : α → α → Bool) (l : List α) (a b limit : Nat) (wasBalanced : Bool) :
    List α × Nat × Nat × SortedHint :=
  ((pdqPivot less (pdqBreak l a b limit wasBalanced).1 a b).1,
   (pdqBreak l a b limit wasBalanced).2,
   (pdqPivot less (pdqBreak l a b limit wasBalanced).1 a b).2)

/-- Go `pdqsort_func(data, a, b, limit)`.  The outer `for` loop and the
recursive calls both strictly shrink the range, so a fuel of `b - a + 1`
faithfully reproduces every terminating Go execution; recursive calls reset
`wasBalanced` and `wasPartitioned` to `true` exactly as a fresh Go call does. -/
def pdqsortA (less : α → α → Bool) :
    List α → Nat → Nat → Nat → Bool → Bool → Nat → List α
  | l, _, _, _, _, _, 0 => l
  | l, a, b, limit, wasBalanced, wasPartitioned, fuel + 1 =>
    let length := b - a
    if length ≤ 12 then insertionSortA less a b l
    else if limit = 0 then heapSortA less a b l
    else
      let pro := pdqPrologue less l a b limit wasBalanced
      let limit1 := pro.2.1
      let pivot := pro.2.2.1
      let pr :=
        if wasBalanced = true ∧ wasPartitioned = true ∧ pro.2.2.2 = SortedHint.increasing then
          almostSortA less a b pro.1
        else (pro.1, false)
      if pr.2 = true then pr.1
      else
        if 0 < a ∧ less (pr.1.getD (a - 1) default) (pr.1.getD pivot default) = false then
          let pe := partitionEqualA less pr.1 a b pivot
          pdqsortA less pe.1 pe.2 b limit1 wasBalanced wasPartitioned fuel
        else
          let pt := partitionA less pr.1 a b pivot
          let mid := pt.2.1
          let wasBal2 := decide (min (mid - a) (b - mid) ≥ length / 8)
          if mid - a < b - mid then
            let l5 := pdqsortA less pt.1 a mid limit1 true true fuel
            pdqsortA less l5 (mid + 1) b limit1 wasBal2 pt.2.2 fuel
          else
            let l5 := pdqsortA less pt.1 (mid + 1) b limit1 true true fuel
            pdqsortA less l5 a mid limit1 wasBal2 pt.2.2 fuel

/-- Go `sort.Slice(x, less)`: pdqsort over the whole slice with depth limit
`bits.Len(uint(len(x)))`. -/
def goSortSlice (less : α → α → Bool) (l : List α) : List α :=
  pdqsortA less l 0 l.length (bitsLen l.length) true true (l.length + 1)

/-! ### The sort permutes its input -/

theorem getD_set_cons_perm {x : α} :
    ∀ (as : List α) (m : Nat), m < as.length →
      (as.getD m default :: as.set m x).Perm (x :: as) := by
  intro as
  induction as with
  | nil => intro m h; simp at h
  | cons a as ih =>
    intro m h
    cases m with
    | zero => simpa using List.Perm.swap x a as
    | succ n =>
      simp only [List.getD_cons_succ, List.set_cons_succ]
      exact (List.Perm.swap a _ _).trans
        (((ih n (by simpa using h)).cons a).trans (List.Perm.swap x a as))

theorem set_set_perm :
    ∀ (l : List α) (i j : Nat), i < l.length → j < l.length →
      ((l.set i (l.getD j default)).set j (l.getD i default)).Perm l := by
  intro l
  induction l with
  | nil => intro i j hi _; simp at hi
  | cons a as ih =>
    intro i j hi hj
    match i, j with
    | 0, 0 => simp
    | 0, m + 1 =>
      simp only [List.getD_cons_zero, List.getD_cons_succ, List.set_cons_zero,
        List.set_cons_succ]
      exact getD_set_cons_perm as m (by simpa using hj)
    | n + 1, 0 =>
      simp only [List.getD_cons_zero, List.getD_cons_succ, List.set_cons_zero,
        List.set_cons_succ]
      exact getD_set_cons_perm as n (by simpa using hi)
    | n + 1, m + 1 =>
      simp only [List.getD_cons_succ, List.set_cons_succ]
      exact (ih n m (by simpa using hi) (by simpa using hj)).cons a

theorem aswap_perm (l : List α) (i j : Nat) : (aswap l i j).Perm l := by
  unfold aswap
  split
  case isTrue h => exact set_set_perm l i j h.1 h.2
  case isFalse => exact .refl _

theorem insInner_perm (less : α → α → Bool) (a : Nat) :
    ∀ (j : Nat) (l : List α), (insInner less a l j).Perm l := by
  intro j
  induction j with
  | zero => intro l; exact .refl _
  | succ j ih =>
    intro l
    rw [insInner]
    split
    · exact (ih _).trans (aswap_perm l (j + 1) j)
    · exact .refl _

theorem insOuter_perm (less : α → α → Bool) (a b : Nat) :
    ∀ (n i : Nat) (l : List α), (insOuter less a b l i n).Perm l := by
  intro n
  induction n with
  | zero => intro i l; exact .refl _
  | succ n ih =>
    intro i l
    rw [insOuter]
    split
    · exact (ih (i + 1) _).trans (insInner_perm less a i l)
    · exact .refl _

theorem insertionSortA_perm (less : α → α → Bool) (a b : Nat) (l : List α) :
    (insertionSortA less a b l).Perm l :=
  insOuter_perm less a b (b - (a + 1)) (a + 1) l

theorem siftDownA_perm (less : α → α → Bool) (first hi : Nat) :
    ∀ (fuel root : Nat) (l : List α), (siftDownA less first hi l root fuel).Perm l := by
  intro fuel
  induction fuel with
  | zero => intro root l; exact .refl _
  | succ fuel ih =>
    intro root l
    rw [siftDownA]
    split
    · exact .refl _
    · split
      · exact (ih _ _).trans (aswap_perm _ _ _)
      · exact .refl _

theorem heapInitA_perm (less : α → α → Bool) (first hi : Nat) :
    ∀ (c : Nat) (l : List α), (heapInitA less first hi l c).Perm l := by
  intro c
  induction c with
  | zero => intro l; exact .refl _
  | succ c ih =>
    intro l
    exact (ih _).trans (siftDownA_perm less first hi hi c l)

theorem heapExtractA_perm (less : α → α → Bool) (first : Nat) :
    ∀ (i : Nat) (l : List α), (heapExtractA less first l i).Perm l := by
  intro i
  induction i with
  | zero => intro l; exact .refl _
  | succ i ih =>
    intro l
    exact ((ih _).trans (siftDownA_perm less first (i + 1) (i + 1) 0 _)).trans
      (aswap_perm _ _ _)

theorem heapSortA_perm (less : α → α → Bool) (a b : Nat) (l : List α) :
    (heapSortA less a b l).Perm l :=
  (heapExtractA_perm less a _ _).trans (heapInitA_perm less a (b - a) _ l)

theorem reverseRangeF_perm :
    ∀ (n i j : Nat) (l : List α), (reverseRangeF l i j n).Perm l := by
  intro n
  induction n with
  | zero => intro i j l; exact .refl _
  | succ n ih =>
    intro i j l
    rw [reverseRangeF]
    split
    · exact (ih (i + 1) (j - 1) _).trans (aswap_perm _ _ _)
    · exact .refl _

theorem reverseRangeA_perm (l : List α) (i j : Nat) : (reverseRangeA l i j).Perm l :=
  reverseRangeF_perm (j - i) i j l

theorem bpStep_perm (l : List α) (idx a length modulus r i : Nat) :
    ((bpStep l idx a length modulus r i).1).Perm l :=
  aswap_perm _ _ _

theorem breakPatternsA_perm (l : List α) (a b : Nat) :
    (breakPatternsA l a b).Perm l := by
  simp only [breakPatternsA]
  split
  · exact ((bpStep_perm _ _ _ _ _ _ _).trans (bpStep_perm _ _ _ _ _ _ _)).trans
      (bpStep_perm _ _ _ _ _ _ _)
  · exact .refl _

theorem shiftLeftA_perm (less : α → α → Bool) :
    ∀ (j : Nat) (l : List α), (shiftLeftA less l j).Perm l := by
  intro j
  induction j with
  | zero => intro l; exact .refl _
  | succ j ih =>
    intro l
    rw [shiftLeftA]
    split
    · exact (ih _).trans (aswap_perm _ _ _)
    · exact .refl _

theorem shiftRightF_perm (less : α → α → Bool) (b : Nat) :
    ∀ (n j : Nat) (l : List α), (shiftRightF less b l j n).Perm l := by
  intro n
  induction n with
  | zero => intro j l; exact .refl _
  | succ n ih =>
    intro j l
    rw [shiftRightF]
    split
    · exact (ih (j + 1) _).trans (aswap_perm _ _ _)
    · exact .refl _

theorem shiftRightA_perm (less : α → α → Bool) (b : Nat) (l : List α) (j : Nat) :
    (shiftRightA less b l j).Perm l :=
  shiftRightF_perm less b (b - j) j l

theorem almostSortLoop_perm (less : α → α → Bool) (a b : Nat) :
    ∀ (steps : Nat) (i : Nat) (l : List α), ((almostSortLoop less a b l i steps).1).Perm l := by
  intro steps
  induction steps with
  | zero => intro i l; exact .refl _
  | succ steps ih =>
    intro i l
    rw [almostSortLoop]
    split
    · exact .refl _
    · split
      · exact .refl _
      · refine (ih _ _).trans ?_
        split
        · refine (shiftRightA_perm _ _ _ _).trans ?_
          split
          · exact (shiftLeftA_perm _ _ _).trans (aswap_perm _ _ _)
          · exact aswap_perm _ _ _
        · split
          · exact (shiftLeftA_perm _ _ _).trans (aswap_perm _ _ _)
          · exact aswap_perm _ _ _

theorem almostSortA_perm (less : α → α → Bool) (a b : Nat) (l : List α) :
    ((almostSortA less a b l).1).Perm l :=
  almostSortLoop_perm less a b 5 (a + 1) l

theorem partLoopA_perm (less : α → α → Bool) (a : Nat) :
    ∀ (fuel : Nat) (i j : Nat) (l : List α), ((partLoopA less a l i j fuel).1).Perm l := by
  intro fuel
  induction fuel with
  | zero => intro i j l; exact .refl _
  | succ fuel ih =>
    intro i j l
    rw [partLoopA]
    split
    · exact .refl _
    · exact (ih _ _ _).trans (aswap_perm _ _ _)

theorem partitionA_perm (less : α → α → Bool) (l : List α) (a b pivot : Nat) :
    ((partitionA less l a b pivot).1).Perm l := by
  simp only [partitionA]
  split
  · exact (aswap_perm _ _ _).trans (aswap_perm _ _ _)
  · exact (aswap_perm _ _ _).trans ((partLoopA_perm _ _ _ _ _ _).trans
      ((aswap_perm _ _ _).trans (aswap_perm _ _ _)))

theorem peqLoopA_perm (less : α → α → Bool) (a : Nat) :
    ∀ (fuel : Nat) (i j : Nat) (l : List α), ((peqLoopA less a l i j fuel).1).Perm l := by
  intro fuel
  induction fuel with
  | zero => intro i j l; exact .refl _
  | succ fuel ih =>
    intro i j l
    rw [peqLoopA]
    split
    · exact .refl _
    · exact (ih _ _ _).trans (aswap_perm _ _ _)

theorem partitionEqualA_perm (less : α → α → Bool) (l : List α) (a b pivot : Nat) :
    ((partitionEqualA less l a b pivot).1).Perm l :=
  (peqLoopA_perm less a b (a + 1) (b - 1) _).trans (aswap_perm _ _ _)

theorem pdqBreak_perm (l : List α) (a b limit : Nat) (wb : Bool) :
    ((pdqBreak l a b limit wb).1).Perm l := by
  unfold pdqBreak
  split
  · exact breakPatternsA_perm _ _ _
  · exact .refl _

theorem pdqPivot_perm (less : α → α → Bool) (l1 : List α) (a b : Nat) :
    ((pdqPivot less l1 a b).1).Perm l1 := by
  unfold pdqPivot
  split
  · exact reverseRangeA_perm _ _ _
  · exact .refl _

theorem pdqPrologue_perm (less : α → α → Bool) (l : List α) (a b limit : Nat)
    (wb : Bool) : ((pdqPrologue less l a b limit wb).1).Perm l :=
  (pdqPivot_perm less _ a b).trans (pdqBreak_perm l a b limit wb)

theorem pdqsortA_perm (less : α → α → Bool) :
    ∀ (fuel : Nat) (l : List α) (a b limit : Nat) (wasBalanced wasPartitioned : Bool),
      (pdqsortA less l a b limit wasBalanced wasPartitioned fuel).Perm l := by
  intro fuel
  induction fuel with
  | zero => intro l a b limit wb wp; exact .refl _
  | succ fuel ih =>
    intro l a b limit wb wp
    simp only [pdqsortA]
    split
    · exact insertionSortA_perm _ _ _ _
    · split
      · exact heapSortA_perm _ _ _ _
      · have hpro : ((pdqPrologue less l a b limit wb).1).Perm l :=
          pdqPrologue_perm less l a b limit wb
        generalize hq : pdqPrologue less l a b limit wb = pro at *
        have hpr : ((if wb = true ∧ wp = true ∧ pro.2.2.2 = SortedHint.increasing then
            almostSortA less a b pro.1 else (pro.1, false)).1).Perm l := by
          split
          · exact (almostSortA_perm _ _ _ _).trans hpro
          · exact hpro
        generalize hq2 : (if wb = true ∧ wp = true ∧ pro.2.2.2 = SortedHint.increasing then
            almostSortA less a b pro.1 else (pro.1, false)) = pr at *
        split
        · exact hpr
        · split
          · exact (ih _ _ _ _ _ _).trans ((partitionEqualA_perm _ _ _ _ _).trans hpr)
          · split
            · exact (ih _ _ _ _ _ _).trans ((ih _ _ _ _ _ _).trans
                ((partitionA_perm _ _ _ _ _).trans hpr))
            · exact (ih _ _ _ _ _ _).trans ((ih _ _ _ _ _ _).trans
                ((partitionA_perm _ _ _ _ _).trans hpr))

theorem goSortSlice_perm (less : α → α → Bool) (l : List α) :
    (goSortSlice less l).Perm l :=
  pdqsortA_perm less (l.length + 1) l 0 l.length (bitsLen l.length) true true

/-! ### The insertion-sort regime (ranges of at most 12 elements)

On a whole slice of at most 12 elements `pdqsort_func` immediately runs
`insertionSort_func`, whose effect is the classical stable insertion sort:
every element is placed after all earlier elements it does not strictly
precede.  The list-level reading and the bridge to the index-level loops
are developed here for comparison functions of the shape
`less x y = decide (key y < key x)` (sort descending by a key), which is
the shape of the cluster-score comparison. -/

/-- Descending comparison by a key, the shape of the closures the
correlate package passes to `sort.Slice`. -/
def keyLess (key : α → Rat) (x y : α) : Bool := decide (key y < key x)

/-- Stable insertion of `x` into `m`: place `x` before the first element
it strictly precedes.  On a sorted prefix this is exactly where the
bubbling inner loop of `insertionSort_func` stops. -/
def goInsert (less : α → α → Bool) (x : α) : List α → List α
  | [] => [x]
  | y :: ys => if less x y = true then x :: y :: ys else y :: goInsert less x ys

/-- The list-level reading of `insertionSort_func(data, 0, n)`: fold the
elements left to right, stably inserting each into the sorted prefix. -/
def goStableSort (less : α → α → Bool) (l : List α) : List α :=
  l.foldl (fun acc x => goInsert less x acc) []

theorem goInsert_perm (less : α → α → Bool) (x : α) :
    ∀ m : List α, (goInsert less x m).Perm (x :: m) := by
  intro m
  induction m with
  | nil => exact .refl _
  | cons y ys ih =>
    rw [goInsert]
    split
    · exact .refl _
    · exact (ih.cons y).trans (List.Perm.swap x y ys)

theorem goInsert_length (less : α → α → Bool) (x : α) (m : List α) :
    (goInsert less x m).length = m.length + 1 := by
  simpa using (goInsert_perm less x m).length_eq

/-- Insertion past a last element that `x` strictly precedes commutes with
the append of that element. -/
theorem goInsert_append_last (less : α → α → Bool) (x y : α) (h : less x y = true) :
    ∀ m : List α, goInsert less x (m ++ [y]) = goInsert less x m ++ [y] := by
  intro m
  induction m with
  | nil => simp [goInsert, h]
  | cons z m ih =>
    simp only [List.cons_append, goInsert]
    split
    · rfl
    · simp only [List.append_eq]
      rw [ih]
      rfl

/-- An element preceded by nothing in `m` is inserted at the end. -/
theorem goInsert_of_none (less : α → α → Bool) (x : α)
    (m : List α) (h : ∀ z ∈ m, less x z = false) :
    goInsert less x m = m ++ [x] := by
  induction m with
  | nil => rfl
  | cons z m ih =>
    have hz := h z (List.mem_cons_self z m)
    rw [goInsert, if_neg (by simp [hz])]
    rw [ih fun w hw => h w (List.mem_cons_of_mem z hw)]
    rfl

theorem goInsert_sorted (key : α → Rat) (x : α) :
    ∀ m : List α, m.Pairwise (fun u v => key v ≤ key u) →
      (goInsert (keyLess key) x m).Pairwise (fun u v => key v ≤ key u) := by
  intro m
  induction m with
  | nil => intro _; simp [goInsert]
  | cons y ys ih =>
    intro hm
    rw [List.pairwise_cons] at hm
    rw [goInsert]
    split
    case isTrue h =>
      have hxy : key y ≤ key x := le_of_lt (by simpa [keyLess] using h)
      refine List.Pairwise.cons ?_ (List.Pairwise.cons hm.1 hm.2)
      intro z hz
      rcases List.mem_cons.1 hz with rfl | hz
      · exact hxy
      · exact le_trans (hm.1 z hz) hxy
    case isFalse h =>
      have hyx : key x ≤ key y := le_of_not_lt (by simpa [keyLess] using h)
      refine List.Pairwise.cons ?_ (ih hm.2)
      intro z hz
      have := (goInsert_perm (keyLess key) x ys).mem_iff.1 hz
      rcases List.mem_cons.1 this with rfl | hz2
      · exact hyx
      · exact hm.1 z hz2

theorem goStableSortAux_sorted (key : α → Rat) :
    ∀ (l acc : List α), acc.Pairwise (fun u v => key v ≤ key u) →
      (l.foldl (fun acc x => goInsert (keyLess key) x acc) acc).Pairwise
        (fun u v => key v ≤ key u) := by
  intro l
  induction l with
  | nil => intro acc h; exact h
  | cons x rest ih =>
    intro acc h
    exact ih _ (goInsert_sorted key x acc h)

theorem goStableSort_sorted (key : α → Rat) (l : List α) :
    (goStableSort (keyLess key) l).Pairwise (fun u v => key v ≤ key u) :=
  goStableSortAux_sorted key l [] (by simp)

theorem filter_goInsert_of_ne (key : α → Rat) (q : Rat) (x : α) (hx : ¬ key x = q) :
    ∀ m : List α,
      (goInsert (keyLess key) x m).filter (fun z => decide (key z = q)) =
        m.filter (fun z => decide (key z = q)) := by
  intro m
  induction m with
  | nil => simp [goInsert, hx]
  | cons y ys ih =>
    rw [goInsert]
    split
    · simp [hx]
    · simp only [List.filter_cons]
      split
      · rw [ih]
      · exact ih

theorem filter_goInsert_of_eq (key : α → Rat) (q : Rat) (x : α) (hx : key x = q) :
    ∀ m : List α, m.Pairwise (fun u v => key v ≤ key u) →
      (goInsert (keyLess key) x m).filter (fun z => decide (key z = q)) =
        m.filter (fun z => decide (key z = q)) ++ [x] := by
  intro m
  induction m with
  | nil => simp [goInsert, hx]
  | cons y ys ih =>
    intro hm
    rw [List.pairwise_cons] at hm
    rw [goInsert]
    split
    case isTrue h =>
      have hy : key y < q := by
        rw [← hx]; simpa [keyLess] using h
      have hys : (y :: ys).filter (fun z => decide (key z = q)) = [] := by
        refine List.filter_eq_nil_iff.mpr ?_
        intro z hz
        rcases List.mem_cons.1 hz with rfl | hz
        · simp [ne_of_lt hy]
        · have : key z ≤ key y := hm.1 z hz
          have : key z < q := lt_of_le_of_lt this hy
          simp [ne_of_lt this]
      rw [List.filter_cons, if_pos (by simp [hx]), hys]
      simp [hys]
    case isFalse h =>
      simp only [List.filter_cons]
      split
      · rw [ih hm.2]
        simp
      · exact ih hm.2

theorem goStableSortAux_filter (key : α → Rat) (q : Rat) :
    ∀ (l acc : List α), acc.Pairwise (fun u v => key v ≤ key u) →
      (l.foldl (fun acc x => goInsert (keyLess key) x acc) acc).filter
          (fun z => decide (key z = q)) =
        acc.filter (fun z => decide (key z = q)) ++
          l.filter (fun z => decide (key z = q)) := by
  intro l
  induction l with
  | nil => intro acc _; simp
  | cons x rest ih =>
    intro acc hacc
    rw [List.foldl_cons, ih _ (goInsert_sorted key x acc hacc), List.filter_cons]
    by_cases hx : key x = q
    · rw [filter_goInsert_of_eq key q x hx acc hacc, if_pos (by simp [hx])]
      simp
    · rw [filter_goInsert_of_ne key q x hx acc, if_neg (by simp [hx])]

/-- Stability of the list-level insertion sort: each equal-key class keeps
its input order. -/
theorem goStableSort_filter (key : α → Rat) (q : Rat) (l : List α) :
    (goStableSort (keyLess key) l).filter (fun z => decide (key z = q)) =
      l.filter (fun z => decide (key z = q)) :=
  by simpa using goStableSortAux_filter key q l [] (by simp)

/-! ### Bridge from the index-level insertion sort to the list level -/

theorem aswap_of_bounds (l : List α) (i j : Nat) (hi : i < l.length) (hj : j < l.length) :
    aswap l i j = (l.set i (l.getD j default)).set j (l.getD i default) := by
  rw [aswap, if_pos ⟨hi, hj⟩]

/-- Swapping the two elements around an append boundary. -/
theorem aswap_append_adj :
    ∀ (pp : List α) (u v : α) (ss : List α),
      aswap (pp ++ u :: v :: ss) (pp.length + 1) pp.length = pp ++ v :: u :: ss := by
  intro pp
  induction pp with
  | nil =>
    intro u v ss
    rw [aswap_of_bounds _ _ _ (by simp) (by simp)]
    simp [List.set]
  | cons p pp ih =>
    intro u v ss
    rw [aswap_of_bounds _ _ _
      (by simp only [List.cons_append, List.length_append, List.length_cons]; omega)
      (by simp only [List.cons_append, List.length_append, List.length_cons]; omega)]
    have hlen : pp.length + 1 < (pp ++ u :: v :: ss).length := by
      simp only [List.length_append, List.length_cons]; omega
    have hlen2 : pp.length < (pp ++ u :: v :: ss).length := by
      simp only [List.length_append, List.length_cons]; omega
    simp only [List.cons_append, List.length_cons, List.getD_cons_succ, List.set_cons_succ]
    rw [← aswap_of_bounds (pp ++ u :: v :: ss) _ _ hlen hlen2, ih]

theorem getD_append_mid (pre : List α) (x : α) (suf : List α) :
    (pre ++ x :: suf).getD pre.length default = x := by
  rw [List.getD_append_right _ _ _ _ le_rfl]
  simp

/-- Bubbling the element at the append boundary down a sorted prefix is the
stable insertion into that prefix. -/
theorem insInner_bridge (key : α → Rat) :
    ∀ (pre : List α), pre.Pairwise (fun u v => key v ≤ key u) →
      ∀ (x : α) (suf : List α),
        insInner (keyLess key) 0 (pre ++ x :: suf) pre.length =
          goInsert (keyLess key) x pre ++ suf := by
  intro pre
  induction pre using List.reverseRecOn with
  | nil =>
    intro _ x suf
    simp [insInner, goInsert]
  | append_singleton pre0 y ih =>
    intro hsorted x suf
    rw [List.pairwise_append] at hsorted
    have heq : (pre0 ++ [y]) ++ x :: suf = pre0 ++ y :: x :: suf := by simp
    have hj : (pre0 ++ [y]).length = pre0.length + 1 := by simp
    rw [hj, insInner]
    have hget1 : ((pre0 ++ [y]) ++ x :: suf).getD (pre0.length + 1) default = x := by
      have h0 := getD_append_mid (pre0 ++ [y]) x suf
      rwa [hj] at h0
    have hget2 : ((pre0 ++ [y]) ++ x :: suf).getD pre0.length default = y := by
      rw [heq]
      exact getD_append_mid pre0 y (x :: suf)
    rw [hget1, hget2]
    by_cases hxy : keyLess key x y = true
    · rw [if_pos ⟨by omega, hxy⟩]
      have hswap : aswap ((pre0 ++ [y]) ++ x :: suf) (pre0.length + 1) pre0.length =
          pre0 ++ x :: y :: suf := by
        rw [heq]
        simpa using aswap_append_adj pre0 y x suf
      rw [hswap, ih hsorted.1 x (y :: suf), goInsert_append_last (keyLess key) x y hxy]
      simp
    · rw [if_neg (by simp [hxy])]
      have hall : ∀ z ∈ pre0 ++ [y], keyLess key x z = false := by
        intro z hz
        have hxy2 : key x ≤ key y := le_of_not_lt (by simpa [keyLess] using hxy)
        rcases List.mem_append.1 hz with hz0 | hz1
        · have hzy : key y ≤ key z := hsorted.2.2 z hz0 y (by simp)
          simp [keyLess]
          exact le_trans hxy2 hzy
        · rcases List.mem_singleton.1 hz1 with rfl
          simp [keyLess]
          exact hxy2
      rw [goInsert_of_none (keyLess key) x _ hall]
      simp

/-- The outer insertion loop equals the fold of stable insertions. -/
theorem insOuter_bridge (key : α → Rat) :
    ∀ (rest sortedPre : List α), sortedPre.Pairwise (fun u v => key v ≤ key u) →
      insOuter (keyLess key) 0 (sortedPre ++ rest).length (sortedPre ++ rest)
          sortedPre.length rest.length =
        rest.foldl (fun acc z => goInsert (keyLess key) z acc) sortedPre := by
  intro rest
  induction rest with
  | nil =>
    intro sortedPre _
    simp [insOuter]
  | cons x rest ih =>
    intro sortedPre hsorted
    rw [show (x :: rest).length = rest.length + 1 from rfl, insOuter,
      if_pos (by simp only [List.length_append, List.length_cons]; omega)]
    rw [insInner_bridge key sortedPre hsorted x rest]
    have hlen : sortedPre.length + 1 = (goInsert (keyLess key) x sortedPre).length := by
      rw [goInsert_length]
    have hlen2 : (sortedPre ++ x :: rest).length =
        (goInsert (keyLess key) x sortedPre ++ rest).length := by
      simp only [List.length_append, List.length_cons, goInsert_length]
      omega
    rw [hlen, hlen2, ih _ (goInsert_sorted key x sortedPre hsorted)]
    rfl

/-- `insertionSort_func` over a whole slice is the stable insertion sort. -/
theorem insertionSortA_eq_goStableSort (key : α → Rat) (l : List α) :
    insertionSortA (keyLess key) 0 l.length l = goStableSort (keyLess key) l := by
  cases l with
  | nil => rfl
  | cons x rest =>
    have h := insOuter_bridge key rest [x] (by simp)
    simp only [List.singleton_append, List.length_singleton] at h
    rw [insertionSortA, show (x :: rest).length - (0 + 1) = rest.length from by simp]
    rw [h]
    rfl

/-- On a slice of at most 12 elements, `sort.Slice` is the stable insertion
sort (the first iteration of `pdqsort_func` takes the insertion branch). -/
theorem goSortSlice_small (key : α → Rat) (l : List α) (h : l.length ≤ 12) :
    goSortSlice (keyLess key) l = goStableSort (keyLess key) l := by
  rw [goSortSlice, pdqsortA, if_pos (by omega)]
  exact insertionSortA_eq_goStableSort key l


/-! ### Sortedness of the full pdqsort

The remaining development proves that `goSortSlice` with a key comparison
`keyLess key` returns a list sorted descending by the key on every input,
through all regimes of the algorithm: insertion sort, heap sort, and the
partitioning loop with its pattern breaker, pivot selection and partial
insertion sort.  Ranges of the working array are handled through the slice
extractor `seg` and index-wise invariants over `List.getD`. -/

/-- The slice `l[a:b]` of the working array. -/
def seg (l : List α) (a b : Nat) : List α := (l.drop a).take (b - a)

/-- The pairwise order of a list sorted descending by `key`. -/
def keyPW (key : α → Rat) (u v : α) : Prop := key v ≤ key u

/-- The list `l2` is obtained from `l1` by rearranging the range `[a, b)` only:
the lists are permutations and agree outside the range. -/
def rangeOp (l1 l2 : List α) (a b : Nat) : Prop :=
  l2.Perm l1 ∧ ∀ k, k < a ∨ b ≤ k → l2.getD k default = l1.getD k default

/-- Every element of the range `[a, b)` satisfies `P`. -/
def allOn (P : α → Prop) (l : List α) (a b : Nat) : Prop :=
  ∀ x ∈ seg l a b, P x

/-- Adjacent elements of the range `[a, b)` are in descending key order. -/
def adjOn (key : α → Rat) (l : List α) (a b : Nat) : Prop :=
  ∀ k, a < k → k < b → key (l.getD k default) ≤ key (l.getD (k - 1) default)

theorem keyLess_false_iff (key : α → Rat) (x y : α) :
    keyLess key x y = false ↔ key x ≤ key y := by
  simp [keyLess]

theorem keyLess_true_iff (key : α → Rat) (x y : α) :
    keyLess key x y = true ↔ key y < key x := by
  simp [keyLess]

theorem getD_eq_getElem (l : List α) (i : Nat) (h : i < l.length) :
    l.getD i default = l[i] := by
  simp [List.getD_eq_getElem?_getD, List.getElem?_eq_getElem h]

theorem ext_getD (l1 l2 : List α) (hlen : l1.length = l2.length)
    (h : ∀ k, k < l1.length → l1.getD k default = l2.getD k default) : l1 = l2 := by
  apply List.ext_getElem hlen
  intro i h1 h2
  have h3 := h i h1
  rwa [getD_eq_getElem _ _ h1, getD_eq_getElem _ _ h2] at h3

theorem getD_set_ne (x : α) :
    ∀ (l : List α) (m k : Nat), m ≠ k →
      (l.set m x).getD k default = l.getD k default := by
  intro l
  induction l with
  | nil => intro m k _; simp
  | cons a as ih =>
    intro m k hmk
    cases m with
    | zero =>
      cases k with
      | zero => exact absurd rfl hmk
      | succ k => simp
    | succ m =>
      cases k with
      | zero => simp
      | succ k =>
        simp only [List.set_cons_succ, List.getD_cons_succ]
        exact ih m k (by omega)

theorem getD_set_self (x : α) :
    ∀ (l : List α) (m : Nat), m < l.length →
      (l.set m x).getD m default = x := by
  intro l
  induction l with
  | nil => intro m h; simp at h
  | cons a as ih =>
    intro m h
    cases m with
    | zero => simp
    | succ m =>
      simp only [List.set_cons_succ, List.getD_cons_succ]
      exact ih m (by simpa using h)

theorem aswap_length (l : List α) (i j : Nat) : (aswap l i j).length = l.length :=
  (aswap_perm l i j).length_eq

theorem aswap_getD_fst (l : List α) (i j : Nat) (hi : i < l.length) (hj : j < l.length) :
    (aswap l i j).getD i default = l.getD j default := by
  rw [aswap, if_pos ⟨hi, hj⟩]
  by_cases hij : i = j
  · subst hij
    rw [getD_set_self _ _ _ (by simpa using hi)]
  · rw [getD_set_ne _ _ _ _ (by omega), getD_set_self _ _ _ hi]

theorem aswap_getD_snd (l : List α) (i j : Nat) (hi : i < l.length) (hj : j < l.length) :
    (aswap l i j).getD j default = l.getD i default := by
  rw [aswap, if_pos ⟨hi, hj⟩]
  rw [getD_set_self _ _ _ (by simpa using hj)]

theorem aswap_getD_other (l : List α) (i j k : Nat) (hki : k ≠ i) (hkj : k ≠ j) :
    (aswap l i j).getD k default = l.getD k default := by
  rw [aswap]
  split
  · rw [getD_set_ne _ _ _ _ (by omega), getD_set_ne _ _ _ _ (by omega)]
  · rfl

theorem seg_length (l : List α) (a b : Nat) (hb : b ≤ l.length) :
    (seg l a b).length = b - a := by
  simp only [seg, List.length_take, List.length_drop]
  omega

theorem seg_getD (l : List α) (a b k : Nat) (hk : k < b - a) :
    (seg l a b).getD k default = l.getD (a + k) default := by
  simp only [seg, List.getD_eq_getElem?_getD]
  rw [List.getElem?_take, if_pos hk, List.getElem?_drop]

theorem seg_all (l : List α) : seg l 0 l.length = l := by
  simp [seg]

theorem seg_nil (l : List α) (a b : Nat) (h : b ≤ a) : seg l a b = [] := by
  simp [seg, Nat.sub_eq_zero_of_le h]

theorem seg_split (l : List α) (a m b : Nat) (h1 : a ≤ m) (h2 : m ≤ b) :
    seg l a b = seg l a m ++ seg l m b := by
  simp only [seg]
  rw [show b - a = (m - a) + (b - m) by omega, List.take_add]
  congr 1
  rw [List.drop_drop]
  have h3 : a + (m - a) = m := by omega
  rw [h3]

theorem seg_decomp (l : List α) (a b : Nat) (ha : a ≤ b) (hb : b ≤ l.length) :
    l = seg l 0 a ++ (seg l a b ++ seg l b l.length) := by
  have h1 : seg l 0 a = l.take a := by simp [seg]
  have h2 : seg l a b ++ seg l b l.length = l.drop a := by
    rw [← seg_split l a b l.length ha hb, seg]
    rw [show l.length - a = (l.drop a).length by simp, List.take_length]
  rw [h1, h2, List.take_append_drop]

theorem seg_singleton (l : List α) (a : Nat) (h : a < l.length) :
    seg l a (a + 1) = [l.getD a default] := by
  apply ext_getD
  · rw [seg_length _ _ _ (by omega)]
    simp
  · intro k hk
    rw [seg_length _ _ _ (by omega)] at hk
    have hk0 : k = 0 := by omega
    subst hk0
    rw [seg_getD _ _ _ _ (by omega)]
    simp

theorem mem_seg (l : List α) (a b : Nat) (hb : b ≤ l.length) (x : α) :
    x ∈ seg l a b ↔ ∃ k, a ≤ k ∧ k < b ∧ x = l.getD k default := by
  have hlen := seg_length l a b hb
  rw [List.mem_iff_getElem]
  constructor
  · rintro ⟨i, hi, rfl⟩
    rw [hlen] at hi
    refine ⟨a + i, by omega, by omega, ?_⟩
    rw [← seg_getD l a b i hi, getD_eq_getElem _ _ (by omega)]
  · rintro ⟨k, h1, h2, rfl⟩
    refine ⟨k - a, by omega, ?_⟩
    rw [← getD_eq_getElem _ _ (by omega), seg_getD _ _ _ _ (by omega),
      show a + (k - a) = k by omega]

theorem rangeOp_refl (l : List α) (a b : Nat) : rangeOp l l a b :=
  ⟨.refl _, fun _ _ => rfl⟩

theorem rangeOp_trans {l1 l2 l3 : List α} {a b : Nat}
    (h1 : rangeOp l1 l2 a b) (h2 : rangeOp l2 l3 a b) : rangeOp l1 l3 a b :=
  ⟨h2.1.trans h1.1, fun k hk => (h2.2 k hk).trans (h1.2 k hk)⟩

theorem rangeOp_mono {l1 l2 : List α} {a b a2 b2 : Nat}
    (ha : a ≤ a2) (hb : b2 ≤ b) (h : rangeOp l1 l2 a2 b2) : rangeOp l1 l2 a b :=
  ⟨h.1, fun k hk => h.2 k (by omega)⟩

theorem rangeOp_length {l1 l2 : List α} {a b : Nat} (h : rangeOp l1 l2 a b) :
    l2.length = l1.length := h.1.length_eq

theorem rangeOp_aswap (l : List α) {a b i j : Nat}
    (hi : a ≤ i) (hi2 : i < b) (hj : a ≤ j) (hj2 : j < b) :
    rangeOp l (aswap l i j) a b :=
  ⟨aswap_perm l i j, fun k hk => aswap_getD_other l i j k (by omega) (by omega)⟩

theorem seg_eq_of_eqOn {l1 l2 : List α} {a b : Nat}
    (hlen : l2.length = l1.length) (hb : b ≤ l1.length)
    (h : ∀ k, a ≤ k → k < b → l2.getD k default = l1.getD k default) :
    seg l2 a b = seg l1 a b := by
  apply ext_getD
  · rw [seg_length _ _ _ (by omega), seg_length _ _ _ hb]
  · intro k hk
    rw [seg_length _ _ _ (by omega)] at hk
    rw [seg_getD _ _ _ _ hk, seg_getD _ _ _ _ hk, h (a + k) (by omega) (by omega)]

theorem rangeOp_seg_perm {l1 l2 : List α} {a b : Nat}
    (h : rangeOp l1 l2 a b) (hab : a ≤ b) (hb : b ≤ l1.length) :
    (seg l2 a b).Perm (seg l1 a b) := by
  have hlen := rangeOp_length h
  have hperm := h.1
  have hpre : seg l2 0 a = seg l1 0 a :=
    seg_eq_of_eqOn hlen (by omega) (fun k _ hk => h.2 k (Or.inl hk))
  have hsuf : seg l2 b l2.length = seg l1 b l1.length := by
    rw [hlen]
    exact seg_eq_of_eqOn hlen (le_refl _) (fun k hk _ => h.2 k (Or.inr hk))
  have hd1 := seg_decomp l1 a b hab hb
  have hd2 := seg_decomp l2 a b hab (by omega)
  rw [hd2, hd1, hpre, hsuf] at hperm
  exact (List.perm_append_right_iff _).1 ((List.perm_append_left_iff _).1 hperm)

theorem allOn_getD {P : α → Prop} {l : List α} {a b k : Nat}
    (h : allOn P l a b) (hb : b ≤ l.length) (h1 : a ≤ k) (h2 : k < b) :
    P (l.getD k default) :=
  h _ ((mem_seg l a b hb _).2 ⟨k, h1, h2, rfl⟩)

theorem allOn_of_getD {P : α → Prop} {l : List α} {a b : Nat} (hb : b ≤ l.length)
    (h : ∀ k, a ≤ k → k < b → P (l.getD k default)) : allOn P l a b := by
  intro x hx
  obtain ⟨k, h1, h2, rfl⟩ := (mem_seg l a b hb _).1 hx
  exact h k h1 h2

theorem allOn_seg_perm {P : α → Prop} {l1 l2 : List α} {a b : Nat}
    (hperm : (seg l2 a b).Perm (seg l1 a b)) (h : allOn P l1 a b) : allOn P l2 a b :=
  fun x hx => h x (hperm.subset hx)

theorem allOn_rangeOp {P : α → Prop} {l1 l2 : List α} {a b : Nat}
    (hop : rangeOp l1 l2 a b) (hab : a ≤ b) (hb : b ≤ l1.length) (h : allOn P l1 a b) :
    allOn P l2 a b :=
  allOn_seg_perm (rangeOp_seg_perm hop hab hb) h

theorem allOn_mono {P : α → Prop} {l : List α} {a b a2 b2 : Nat}
    (ha : a ≤ a2) (hb2 : b2 ≤ b) (hb : b ≤ l.length) (h : allOn P l a b) :
    allOn P l a2 b2 := by
  intro x hx
  obtain ⟨k, h1, h2, rfl⟩ := (mem_seg l a2 b2 (by omega) _).1 hx
  exact allOn_getD h hb (by omega) (by omega)

theorem allOn_imp {P Q : α → Prop} {l : List α} {a b : Nat}
    (himp : ∀ x, P x → Q x) (h : allOn P l a b) : allOn Q l a b :=
  fun x hx => himp x (h x hx)

theorem allOn_nil {P : α → Prop} {l : List α} {a b : Nat} (hba : b ≤ a) :
    allOn P l a b := by
  intro x hx
  rw [seg_nil l a b hba] at hx
  simp at hx

theorem allOn_split {P : α → Prop} {l : List α} {a m b : Nat}
    (h1 : a ≤ m) (h2 : m ≤ b) (ha : allOn P l a m) (hb : allOn P l m b) :
    allOn P l a b := by
  intro x hx
  rw [seg_split l a m b h1 h2] at hx
  rcases List.mem_append.1 hx with hx | hx
  · exact ha x hx
  · exact hb x hx

theorem seg_pairwise_iff {R : α → α → Prop} (l : List α) (a b : Nat) (hb : b ≤ l.length) :
    (seg l a b).Pairwise R ↔
      ∀ i j, a ≤ i → i < j → j < b → R (l.getD i default) (l.getD j default) := by
  have hlen := seg_length l a b hb
  rw [List.pairwise_iff_getElem]
  constructor
  · intro h i j h1 h2 h3
    have h4 := h (i - a) (j - a) (by omega) (by omega) (by omega)
    rw [← getD_eq_getElem _ _ (by omega), ← getD_eq_getElem _ _ (by omega),
      seg_getD _ _ _ _ (by omega), seg_getD _ _ _ _ (by omega),
      show a + (i - a) = i by omega, show a + (j - a) = j by omega] at h4
    exact h4
  · intro h i j hi hj hij
    rw [← getD_eq_getElem _ _ hi, ← getD_eq_getElem _ _ hj,
      seg_getD _ _ _ _ (by omega), seg_getD _ _ _ _ (by omega)]
    exact h (a + i) (a + j) (by omega) (by omega) (by omega)

theorem adjOn_le {key : α → Rat} {l : List α} {a b : Nat} (h : adjOn key l a b) :
    ∀ d i, a ≤ i → i + d < b → key (l.getD (i + d) default) ≤ key (l.getD i default) := by
  intro d
  induction d with
  | zero => intro i _ _; simp
  | succ d ih =>
    intro i h1 h2
    have step := h (i + d + 1) (by omega) (by omega)
    have h3 := ih i h1 (by omega)
    calc key (l.getD (i + (d + 1)) default)
        ≤ key (l.getD (i + d + 1 - 1) default) := by
          rw [show i + (d + 1) = i + d + 1 by omega]; exact step
      _ ≤ key (l.getD i default) := by
          rw [show i + d + 1 - 1 = i + d by omega]; exact h3

theorem adjOn_pairwise {key : α → Rat} {l : List α} {a b : Nat}
    (hb : b ≤ l.length) (h : adjOn key l a b) :
    (seg l a b).Pairwise (keyPW key) := by
  rw [seg_pairwise_iff _ _ _ hb]
  intro i j h1 h2 h3
  have h4 := adjOn_le h (j - i) i h1 (by omega)
  rw [show i + (j - i) = j by omega] at h4
  exact h4

theorem adjOn_mono {key : α → Rat} {l : List α} {a b a2 b2 : Nat}
    (ha : a ≤ a2) (hb2 : b2 ≤ b) (h : adjOn key l a b) : adjOn key l a2 b2 :=
  fun k h1 h2 => h k (by omega) (by omega)

theorem adjOn_congr {key : α → Rat} {l1 l2 : List α} {a b : Nat}
    (heq : ∀ k, a ≤ k → k < b → l2.getD k default = l1.getD k default)
    (h : adjOn key l1 a b) : adjOn key l2 a b := by
  intro k h1 h2
  rw [heq k (by omega) (by omega), heq (k - 1) (by omega) (by omega)]
  exact h k h1 h2

/-! ### Insertion sort sorts its range -/

theorem insInner_spec (key : α → Rat) (a w : Nat) :
    ∀ (c : Nat) (l : List α), a ≤ c → c < w → w ≤ l.length →
      adjOn key l a c →
      adjOn key l (c + 1) w →
      (c + 1 < w → key (l.getD (c + 1) default) < key (l.getD c default)) →
      (a + 1 ≤ c → c + 1 < w →
        key (l.getD (c + 1) default) ≤ key (l.getD (c - 1) default)) →
      rangeOp l (insInner (keyLess key) a l c) a w ∧
      adjOn key (insInner (keyLess key) a l c) a w := by
  intro c
  induction c with
  | zero =>
    intro l hca hcw hwl w1 w2 w3 w4
    rw [insInner]
    refine ⟨rangeOp_refl _ _ _, ?_⟩
    intro k h1 h2
    by_cases hk1 : k = 1
    · subst hk1
      simpa using le_of_lt (w3 (by omega))
    · exact w2 k (by omega) h2
  | succ j ih =>
    intro l hca hcw hwl w1 w2 w3 w4
    rw [insInner]
    split
    case isTrue hg =>
      obtain ⟨haj, hless⟩ := hg
      rw [keyLess_true_iff] at hless
      have hlen : (aswap l (j + 1) j).length = l.length := aswap_length l (j + 1) j
      have g1 : (aswap l (j + 1) j).getD (j + 1) default = l.getD j default :=
        aswap_getD_fst l (j + 1) j (by omega) (by omega)
      have g2 : (aswap l (j + 1) j).getD j default = l.getD (j + 1) default :=
        aswap_getD_snd l (j + 1) j (by omega) (by omega)
      have gother : ∀ k, k ≠ j + 1 → k ≠ j →
          (aswap l (j + 1) j).getD k default = l.getD k default :=
        fun k h1 h2 => aswap_getD_other l (j + 1) j k h1 h2
      have hw1 : adjOn key (aswap l (j + 1) j) a j := by
        intro k h1 h2
        rw [gother k (by omega) (by omega), gother (k - 1) (by omega) (by omega)]
        exact w1 k h1 (by omega)
      have hw2 : adjOn key (aswap l (j + 1) j) (j + 1) w := by
        intro k h1 h2
        by_cases hk : k = j + 2
        · subst hk
          rw [gother (j + 2) (by omega) (by omega), show j + 2 - 1 = j + 1 by omega, g1]
          have h4 := w4 (by omega) (by omega)
          simpa using h4
        · rw [gother k (by omega) (by omega), gother (k - 1) (by omega) (by omega)]
          exact w2 k (by omega) h2
      have hw3 : j + 1 < w →
          key ((aswap l (j + 1) j).getD (j + 1) default) <
            key ((aswap l (j + 1) j).getD j default) := by
        intro _
        rw [g1, g2]
        exact hless
      have hw4 : a + 1 ≤ j → j + 1 < w →
          key ((aswap l (j + 1) j).getD (j + 1) default) ≤
            key ((aswap l (j + 1) j).getD (j - 1) default) := by
        intro h1 _
        rw [g1, gother (j - 1) (by omega) (by omega)]
        exact w1 j (by omega) (by omega)
      have hrec := ih (aswap l (j + 1) j) (by omega) (by omega) (by omega) hw1 hw2 hw3 hw4
      exact ⟨rangeOp_trans
        (rangeOp_aswap l (by omega) (by omega) (by omega) (by omega)) hrec.1, hrec.2⟩
    case isFalse hg =>
      refine ⟨rangeOp_refl _ _ _, ?_⟩
      by_cases hcase : a < j + 1
      · have hless : keyLess key (l.getD (j + 1) default) (l.getD j default) = false := by
          cases hf : keyLess key (l.getD (j + 1) default) (l.getD j default) with
          | false => rfl
          | true => exact absurd ⟨hcase, hf⟩ hg
        rw [keyLess_false_iff] at hless
        intro k h1 h2
        rcases lt_trichotomy k (j + 1) with hk | hk | hk
        · exact w1 k h1 hk
        · subst hk
          simpa using hless
        · by_cases hk2 : k = j + 2
          · subst hk2
            have h3 := w3 (by omega)
            rw [show j + 2 - 1 = j + 1 by omega]
            exact le_of_lt (by simpa using h3)
          · exact w2 k (by omega) h2
      · have ha : a = j + 1 := by omega
        subst ha
        intro k h1 h2
        by_cases hk2 : k = j + 2
        · subst hk2
          have h3 := w3 (by omega)
          rw [show j + 2 - 1 = j + 1 by omega]
          exact le_of_lt (by simpa using h3)
        · exact w2 k (by omega) h2

theorem insOuter_spec (key : α → Rat) (a b : Nat) :
    ∀ (n i : Nat) (l : List α), a < i → b ≤ l.length → b - i ≤ n →
      adjOn key l a i →
      rangeOp l (insOuter (keyLess key) a b l i n) a b ∧
      adjOn key (insOuter (keyLess key) a b l i n) a b := by
  intro n
  induction n with
  | zero =>
    intro i l hai hbl hbi hsort
    rw [insOuter]
    exact ⟨rangeOp_refl _ _ _, adjOn_mono (le_refl a) (by omega) hsort⟩
  | succ n ih =>
    intro i l hai hbl hbi hsort
    rw [insOuter]
    split
    case isTrue hib =>
      have hinner := insInner_spec key a (i + 1) i l (by omega) (by omega) (by omega) hsort
        (fun k h1 h2 => absurd (lt_trans h1 h2) (lt_irrefl _))
        (fun h => absurd h (by omega))
        (fun _ h => absurd h (by omega))
      obtain ⟨hop1, hadj1⟩ := hinner
      have hrec := ih (i + 1) _ (by omega) (by rw [rangeOp_length hop1]; exact hbl)
        (by omega) hadj1
      exact ⟨rangeOp_trans (rangeOp_mono (le_refl a) (by omega) hop1) hrec.1, hrec.2⟩
    case isFalse hib =>
      exact ⟨rangeOp_refl _ _ _, adjOn_mono (le_refl a) (by omega) hsort⟩

/-- The insertion sort rearranges exactly the range `[a, b)` and leaves it
in descending key order. -/
theorem insertionSortA_spec (key : α → Rat) (a b : Nat) (l : List α) (hb : b ≤ l.length) :
    rangeOp l (insertionSortA (keyLess key) a b l) a b ∧
    adjOn key (insertionSortA (keyLess key) a b l) a b := by
  rw [insertionSortA]
  exact insOuter_spec key a b (b - (a + 1)) (a + 1) l (by omega) hb (by omega)
    (fun k h1 h2 => absurd (lt_trans h1 h2) (by omega))

/-! ### Heap sort sorts its range

Heap indices are relative to `first`; `Desc root c` says slot `c` lies in
the subtree rooted at slot `root` of the implicit binary heap. -/

inductive Desc (root : Nat) : Nat → Prop
  | refl : Desc root root
  | left {c : Nat} : Desc root c → Desc root (2 * c + 1)
  | right {c : Nat} : Desc root c → Desc root (2 * c + 2)

theorem Desc.le {root c : Nat} (h : Desc root c) : root ≤ c := by
  induction h with
  | refl => exact le_refl _
  | left _ ih => omega
  | right _ ih => omega

theorem Desc.parentStep {root c : Nat} (h : Desc root c) :
    c = root ∨ (0 < c ∧ Desc root ((c - 1) / 2)) := by
  induction h with
  | refl => exact Or.inl rfl
  | @left c h _ =>
    refine Or.inr ⟨by omega, ?_⟩
    rw [show (2 * c + 1 - 1) / 2 = c by omega]
    exact h
  | @right c h _ =>
    refine Or.inr ⟨by omega, ?_⟩
    rw [show (2 * c + 2 - 1) / 2 = c by omega]
    exact h

theorem Desc.ofParent {root c : Nat} (h0 : 0 < c) (h : Desc root ((c - 1) / 2)) :
    Desc root c := by
  by_cases hodd : c % 2 = 1
  · have hc : c = 2 * ((c - 1) / 2) + 1 := by omega
    have h2 := Desc.left h
    rwa [← hc] at h2
  · have hc : c = 2 * ((c - 1) / 2) + 2 := by omega
    have h2 := Desc.right h
    rwa [← hc] at h2

theorem desc_zero (c : Nat) : Desc 0 c := by
  induction c using Nat.strong_induction_on with
  | _ c ih =>
    cases c with
    | zero => exact .refl
    | succ m => exact Desc.ofParent (by omega) (ih _ (by omega))

theorem Desc.trans {a b c : Nat} (h1 : Desc a b) (h2 : Desc b c) : Desc a c := by
  induction h2 with
  | refl => exact h1
  | left _ ih => exact ih.left
  | right _ ih => exact ih.right

theorem desc_total : ∀ c p q, Desc p c → Desc q c → Desc p q ∨ Desc q p := by
  intro c
  induction c using Nat.strong_induction_on with
  | _ c ih =>
    intro p q hp hq
    rcases hp.parentStep with hceq | ⟨hc0, hp2⟩
    · subst hceq
      exact Or.inr hq
    · rcases hq.parentStep with hceq | ⟨_, hq2⟩
      · subst hceq
        exact Or.inl hp
      · exact ih ((c - 1) / 2) (by omega) p q hp2 hq2

theorem desc_sibling {r c : Nat} (h1 : Desc (2 * r + 1) c) (h2 : Desc (2 * r + 2) c) :
    False := by
  rcases desc_total c _ _ h1 h2 with h | h
  · rcases h.parentStep with he | ⟨_, h3⟩
    · omega
    · have h4 := h3.le
      omega
  · have h4 := h.le
    omega

theorem desc_child_split {r p : Nat} (h : Desc r p) (hne : p ≠ r) :
    Desc (2 * r + 1) p ∨ Desc (2 * r + 2) p := by
  induction h with
  | refl => exact absurd rfl hne
  | @left c h ih =>
    by_cases hc : c = r
    · subst hc
      exact Or.inl .refl
    · rcases ih hc with h2 | h2
      · exact Or.inl h2.left
      · exact Or.inr h2.left
  | @right c h ih =>
    by_cases hc : c = r
    · subst hc
      exact Or.inr .refl
    · rcases ih hc with h2 | h2
      · exact Or.inl h2.right
      · exact Or.inr h2.right

/-- In a heap whose pairs hold below `s`, the slot `s` holds the least key
of its subtree. -/
theorem heapMin (key : α → Rat) (first hi : Nat) (l : List α) (s : Nat)
    (H : ∀ c, 0 < c → c < hi → Desc s ((c - 1) / 2) →
      key (l.getD (first + (c - 1) / 2) default) ≤ key (l.getD (first + c) default)) :
    ∀ d, Desc s d → d < hi →
      key (l.getD (first + s) default) ≤ key (l.getD (first + d) default) := by
  intro d hd
  induction hd with
  | refl => intro _; exact le_refl _
  | @left c h ih =>
    intro hlt
    refine le_trans (ih (by omega)) ?_
    have h2 := H (2 * c + 1) (by omega) hlt
      (by rw [show (2 * c + 1 - 1) / 2 = c by omega]; exact h)
    rwa [show (2 * c + 1 - 1) / 2 = c by omega] at h2
  | @right c h ih =>
    intro hlt
    refine le_trans (ih (by omega)) ?_
    have h2 := H (2 * c + 2) (by omega) hlt
      (by rw [show (2 * c + 2 - 1) / 2 = c by omega]; exact h)
    rwa [show (2 * c + 2 - 1) / 2 = c by omega] at h2

theorem siftChild_cases (key : α → Rat) (first hi : Nat) (l : List α) (c0 : Nat)
    (h1 : c0 < hi) :
    (siftChild (keyLess key) first hi l c0 = c0 ∨
      siftChild (keyLess key) first hi l c0 = c0 + 1) ∧
    siftChild (keyLess key) first hi l c0 < hi ∧
    key (l.getD (first + siftChild (keyLess key) first hi l c0) default) ≤
      key (l.getD (first + c0) default) ∧
    (c0 + 1 < hi →
      key (l.getD (first + siftChild (keyLess key) first hi l c0) default) ≤
        key (l.getD (first + c0 + 1) default)) := by
  rw [siftChild]
  split
  case isTrue hg =>
    obtain ⟨hlt, hless⟩ := hg
    rw [keyLess_true_iff] at hless
    exact ⟨Or.inr rfl, hlt, le_of_lt hless, fun _ => le_refl _⟩
  case isFalse hg =>
    refine ⟨Or.inl rfl, h1, le_refl _, ?_⟩
    intro h2
    have hless : keyLess key (l.getD (first + c0) default)
        (l.getD (first + c0 + 1) default) = false := by
      cases hf : keyLess key (l.getD (first + c0) default)
          (l.getD (first + c0 + 1) default) with
      | false => rfl
      | true => exact absurd ⟨h2, hf⟩ hg
    rw [keyLess_false_iff] at hless
    exact hless

theorem siftDownA_spec (key : α → Rat) (first hi : Nat) :
    ∀ (fuel root : Nat) (l : List α), first + hi ≤ l.length → hi - root ≤ fuel →
      (∀ c, 0 < c → c < hi → Desc root ((c - 1) / 2) → (c - 1) / 2 ≠ root →
        key (l.getD (first + (c - 1) / 2) default) ≤ key (l.getD (first + c) default)) →
      (siftDownA (keyLess key) first hi l root fuel).Perm l ∧
      (∀ k, (siftDownA (keyLess key) first hi l root fuel).getD k default ≠
          l.getD k default →
        ∃ c, Desc root c ∧ c < hi ∧ k = first + c) ∧
      (∀ c, 0 < c → c < hi → Desc root ((c - 1) / 2) →
        key ((siftDownA (keyLess key) first hi l root fuel).getD
            (first + (c - 1) / 2) default) ≤
          key ((siftDownA (keyLess key) first hi l root fuel).getD (first + c) default)) ∧
      (∀ v : α, (∀ d, Desc root d → d < hi → key v ≤ key (l.getD (first + d) default)) →
        ∀ d, Desc root d → d < hi →
          key v ≤
            key ((siftDownA (keyLess key) first hi l root fuel).getD (first + d) default)) := by
  intro fuel
  induction fuel with
  | zero =>
    intro root l hlen hfuel H
    rw [siftDownA]
    refine ⟨.refl _, fun k h => absurd rfl h, ?_, fun v hv d hd hdlt => hv d hd hdlt⟩
    intro c h0 hc hdesc
    have h2 := hdesc.le
    omega
  | succ fuel ih =>
    intro root l hlen hfuel H
    rw [siftDownA]
    split
    case isTrue hnochild =>
      refine ⟨.refl _, fun k h => absurd rfl h, ?_, fun v hv d hd hdlt => hv d hd hdlt⟩
      intro c h0 hc hdesc
      by_cases hne : (c - 1) / 2 = root
      · omega
      · exact H c h0 hc hdesc hne
    case isFalse hchild =>
      have hch0 := siftChild_cases key first hi l (2 * root + 1) (by omega)
      generalize hchdef : siftChild (keyLess key) first hi l (2 * root + 1) = ch
      rw [hchdef] at hch0
      obtain ⟨hchcase, hchlt, hchmin1, hchmin2⟩ := hch0
      have hrootch : root < ch := by omega
      have hroothi : root < hi := by omega
      have hDch : Desc root ch := by
        rcases hchcase with rfl | rfl
        · exact Desc.left .refl
        · exact Desc.right .refl
      split
      case isTrue hless =>
        rw [keyLess_true_iff] at hless
        have hl1len : (aswap l (first + root) (first + ch)).length = l.length :=
          aswap_length _ _ _
        have e1 : (aswap l (first + root) (first + ch)).getD (first + root) default =
            l.getD (first + ch) default :=
          aswap_getD_fst l _ _ (by omega) (by omega)
        have e2 : (aswap l (first + root) (first + ch)).getD (first + ch) default =
            l.getD (first + root) default :=
          aswap_getD_snd l _ _ (by omega) (by omega)
        have eo : ∀ k, k ≠ first + root → k ≠ first + ch →
            (aswap l (first + root) (first + ch)).getD k default = l.getD k default :=
          fun k h1 h2 => aswap_getD_other l _ _ k h1 h2
        have HchMin : ∀ d, Desc ch d → d < hi →
            key (l.getD (first + ch) default) ≤ key (l.getD (first + d) default) :=
          heapMin key first hi l ch
            (fun c2 h0 hc2 hd2 =>
              H c2 h0 hc2 (hDch.trans hd2) (by have h3 := hd2.le; omega))
        have H1 : ∀ c, 0 < c → c < hi → Desc ch ((c - 1) / 2) → (c - 1) / 2 ≠ ch →
            key ((aswap l (first + root) (first + ch)).getD
                (first + (c - 1) / 2) default) ≤
              key ((aswap l (first + root) (first + ch)).getD (first + c) default) := by
          intro c h0 hc hdesc hne
          have hple := hdesc.le
          rw [eo (first + (c - 1) / 2) (by omega) (by omega),
            eo (first + c) (by omega) (by omega)]
          exact H c h0 hc (hDch.trans hdesc) (by omega)
        have hrec := ih ch (aswap l (first + root) (first + ch)) (by omega) (by omega) H1
        obtain ⟨hperm2, hframe2, hheap2, hbound2⟩ := hrec
        refine ⟨hperm2.trans (aswap_perm _ _ _), ?_, ?_, ?_⟩
        · intro k hk
          by_cases hk1 : (siftDownA (keyLess key) first hi
              (aswap l (first + root) (first + ch)) ch fuel).getD k default =
              (aswap l (first + root) (first + ch)).getD k default
          · by_cases hk2 : k = first + root
            · exact ⟨root, .refl, hroothi, hk2⟩
            · by_cases hk3 : k = first + ch
              · exact ⟨ch, hDch, hchlt, hk3⟩
              · rw [hk1, eo k hk2 hk3] at hk
                exact absurd rfl hk
          · obtain ⟨c, hdc, hclt, rfl⟩ := hframe2 k hk1
            exact ⟨c, hDch.trans hdc, hclt, rfl⟩
        · intro c h0 hc hdesc
          have hr1 : (siftDownA (keyLess key) first hi
              (aswap l (first + root) (first + ch)) ch fuel).getD
                (first + root) default = l.getD (first + ch) default := by
            rw [← e1]
            by_contra hne
            obtain ⟨c2, hd2, _, he⟩ := hframe2 _ hne
            have h3 := hd2.le
            omega
          by_cases hpr : (c - 1) / 2 = root
          · have hcv : c = 2 * root + 1 ∨ c = 2 * root + 2 := by omega
            by_cases hcch : c = ch
            · rw [hpr, hcch, hr1]
              refine hbound2 (l.getD (first + ch) default) ?_ ch .refl hchlt
              intro d hd hdlt
              by_cases hdch : d = ch
              · subst hdch
                rw [e2]
                exact le_of_lt hless
              · rw [eo (first + d) (by have h3 := hd.le; omega) (by omega)]
                exact HchMin d hd hdlt
            · have hcun : (siftDownA (keyLess key) first hi
                  (aswap l (first + root) (first + ch)) ch fuel).getD
                    (first + c) default = l.getD (first + c) default := by
                have h1 : (aswap l (first + root) (first + ch)).getD (first + c)
                    default = l.getD (first + c) default :=
                  eo _ (by omega) (by omega)
                rw [← h1]
                by_contra hne
                obtain ⟨c2, hd2, _, he⟩ := hframe2 _ hne
                have hceq : c = c2 := by omega
                subst hceq
                rcases hd2.parentStep with he2 | ⟨_, hd3⟩
                · omega
                · have h4 := hd3.le
                  omega
              rw [hpr, hr1, hcun]
              rcases hcv with rfl | rfl
              · exact hchmin1
              · exact hchmin2 (by omega)
          · by_cases hDchp : Desc ch ((c - 1) / 2)
            · exact hheap2 c h0 hc hDchp
            · have hpch : (c - 1) / 2 ≠ ch := by
                intro he
                exact hDchp (he ▸ Desc.refl)
              have hcnotin : ¬ Desc ch c := by
                intro hin
                rcases hin.parentStep with he | ⟨_, h4⟩
                · subst he
                  exact hpr (by omega)
                · exact hDchp h4
              have hcch : c ≠ ch := fun he => hcnotin (he ▸ Desc.refl)
              have hproot := hdesc.le
              have hres_p : (siftDownA (keyLess key) first hi
                  (aswap l (first + root) (first + ch)) ch fuel).getD
                    (first + (c - 1) / 2) default =
                  l.getD (first + (c - 1) / 2) default := by
                have h1 := eo (first + (c - 1) / 2) (by omega) (by omega)
                rw [← h1]
                by_contra hne
                obtain ⟨c2, hd2, _, he⟩ := hframe2 _ hne
                have hceq : (c - 1) / 2 = c2 := by omega
                exact hDchp (hceq ▸ hd2)
              have hres_c : (siftDownA (keyLess key) first hi
                  (aswap l (first + root) (first + ch)) ch fuel).getD
                    (first + c) default = l.getD (first + c) default := by
                have h1 := eo (first + c) (by omega) (by omega)
                rw [← h1]
                by_contra hne
                obtain ⟨c2, hd2, _, he⟩ := hframe2 _ hne
                have hceq : c = c2 := by omega
                exact hcnotin (hceq ▸ hd2)
              rw [hres_p, hres_c]
              exact H c h0 hc hdesc hpr
        · intro v hv d hd hdlt
          by_cases hdd : Desc ch d
          · refine hbound2 v ?_ d hdd hdlt
            intro d2 hd2 hdlt2
            by_cases hd2ch : d2 = ch
            · subst hd2ch
              rw [e2]
              exact hv root .refl hroothi
            · rw [eo (first + d2) (by have h3 := hd2.le; omega) (by omega)]
              exact hv d2 (hDch.trans hd2) hdlt2
          · have hdres : (siftDownA (keyLess key) first hi
                (aswap l (first + root) (first + ch)) ch fuel).getD
                  (first + d) default =
                (aswap l (first + root) (first + ch)).getD (first + d) default := by
              by_contra hne
              obtain ⟨c2, hd2, _, he⟩ := hframe2 _ hne
              have hceq : d = c2 := by omega
              exact hdd (hceq ▸ hd2)
            rw [hdres]
            by_cases hdr : d = root
            · subst hdr
              rw [e1]
              exact hv ch hDch hchlt
            · have hdch : d ≠ ch := fun he => hdd (he ▸ Desc.refl)
              rw [eo (first + d) (by omega) (by omega)]
              exact hv d hd hdlt
      case isFalse hless =>
        rw [Bool.not_eq_true] at hless
        rw [keyLess_false_iff] at hless
        refine ⟨.refl _, fun k h => absurd rfl h, ?_, fun v hv d hd hdlt => hv d hd hdlt⟩
        intro c h0 hc hdesc
        by_cases hne : (c - 1) / 2 = root
        · rw [hne]
          have hcv : c = 2 * root + 1 ∨ c = 2 * root + 2 := by omega
          rcases hcv with rfl | rfl
          · exact le_trans hless hchmin1
          · exact le_trans hless (hchmin2 (by omega))
        · exact H c h0 hc hdesc hne

theorem heapInitA_spec (key : α → Rat) (first hi : Nat) :
    ∀ (r : Nat) (l : List α), first + hi ≤ l.length →
      (∀ c, 0 < c → c < hi → r ≤ (c - 1) / 2 →
        key (l.getD (first + (c - 1) / 2) default) ≤ key (l.getD (first + c) default)) →
      (heapInitA (keyLess key) first hi l r).Perm l ∧
      (∀ k, (heapInitA (keyLess key) first hi l r).getD k default ≠ l.getD k default →
        first ≤ k ∧ k < first + hi) ∧
      (∀ c, 0 < c → c < hi →
        key ((heapInitA (keyLess key) first hi l r).getD (first + (c - 1) / 2) default) ≤
          key ((heapInitA (keyLess key) first hi l r).getD (first + c) default)) := by
  intro r
  induction r with
  | zero =>
    intro l hlen H
    rw [heapInitA]
    exact ⟨.refl _, fun k h => absurd rfl h, fun c h0 hc => H c h0 hc (by omega)⟩
  | succ r ih =>
    intro l hlen H
    rw [heapInitA]
    have hsift := siftDownA_spec key first hi hi r l hlen (by omega)
      (by
        intro c h0 hc hdesc hne
        rcases desc_child_split hdesc hne with h2 | h2
        · exact H c h0 hc (by have h3 := h2.le; omega)
        · exact H c h0 hc (by have h3 := h2.le; omega))
    obtain ⟨sp, sf, sh, _⟩ := hsift
    have hrec := ih (siftDownA (keyLess key) first hi l r hi)
      (by rw [sp.length_eq]; exact hlen)
      (by
        intro c h0 hc hr
        by_cases hdesc : Desc r ((c - 1) / 2)
        · exact sh c h0 hc hdesc
        · have hcnotin : ¬ Desc r c := by
            intro hin
            rcases hin.parentStep with he | ⟨_, h4⟩
            · omega
            · exact hdesc h4
          have hp : (siftDownA (keyLess key) first hi l r hi).getD
              (first + (c - 1) / 2) default = l.getD (first + (c - 1) / 2) default := by
            by_contra hne
            obtain ⟨c2, hd2, _, he⟩ := sf _ hne
            have hc2 : (c - 1) / 2 = c2 := by omega
            exact hdesc (hc2 ▸ hd2)
          have hc3 : (siftDownA (keyLess key) first hi l r hi).getD
              (first + c) default = l.getD (first + c) default := by
            by_contra hne
            obtain ⟨c2, hd2, _, he⟩ := sf _ hne
            have hc2 : c = c2 := by omega
            exact hcnotin (hc2 ▸ hd2)
          rw [hp, hc3]
          have hner : (c - 1) / 2 ≠ r := fun he => hdesc (he ▸ Desc.refl)
          exact H c h0 hc (by omega))
    obtain ⟨rp, rf, rh⟩ := hrec
    refine ⟨rp.trans sp, ?_, rh⟩
    intro k hk
    by_cases hk1 : (heapInitA (keyLess key) first hi
        (siftDownA (keyLess key) first hi l r hi) r).getD k default =
        (siftDownA (keyLess key) first hi l r hi).getD k default
    · rw [hk1] at hk
      obtain ⟨c2, hd2, hc2, he⟩ := sf _ hk
      have h3 := hd2.le
      omega
    · exact rf _ hk1

theorem heapExtractA_spec (key : α → Rat) (first n : Nat) :
    ∀ (i : Nat) (l : List α), i + 1 ≤ n → first + n ≤ l.length →
      (∀ c, 0 < c → c < i + 1 →
        key (l.getD (first + (c - 1) / 2) default) ≤ key (l.getD (first + c) default)) →
      adjOn key l (first + (i + 1)) (first + n) →
      (∀ c d, c < i + 1 → i + 1 ≤ d → d < n →
        key (l.getD (first + d) default) ≤ key (l.getD (first + c) default)) →
      rangeOp l (heapExtractA (keyLess key) first l i) first (first + (i + 1)) ∧
      adjOn key (heapExtractA (keyLess key) first l i) first (first + n) := by
  intro i
  induction i with
  | zero =>
    intro l hn hlen hheap htail hcross
    rw [heapExtractA]
    refine ⟨rangeOp_refl _ _ _, ?_⟩
    intro k h1 h2
    by_cases hk : k = first + 1
    · have h3 := hcross 0 1 (by omega) (by omega) (by omega)
      rw [Nat.add_zero] at h3
      rw [show k - 1 = first by omega, hk]
      exact h3
    · exact htail k (by omega) h2
  | succ i ih =>
    intro l hn hlen hheap htail hcross
    rw [heapExtractA]
    have e1 : (aswap l first (first + (i + 1))).getD first default =
        l.getD (first + (i + 1)) default :=
      aswap_getD_fst l _ _ (by omega) (by omega)
    have e2 : (aswap l first (first + (i + 1))).getD (first + (i + 1)) default =
        l.getD first default :=
      aswap_getD_snd l _ _ (by omega) (by omega)
    have eo : ∀ k, k ≠ first → k ≠ first + (i + 1) →
        (aswap l first (first + (i + 1))).getD k default = l.getD k default :=
      fun k h1 h2 => aswap_getD_other l _ _ k h1 h2
    have hminL : ∀ d, d < i + 2 →
        key (l.getD first default) ≤ key (l.getD (first + d) default) := by
      intro d hd
      have h3 := heapMin key first (i + 2) l 0
        (fun c2 h0 hc2 _ => hheap c2 h0 hc2) d (desc_zero d) hd
      rwa [Nat.add_zero] at h3
    have hsift := siftDownA_spec key first (i + 1) (i + 1) 0
      (aswap l first (first + (i + 1)))
      (by rw [aswap_length]; omega) (by omega)
      (by
        intro c h0 hc hdesc hne
        rw [eo (first + (c - 1) / 2) (by omega) (by omega),
          eo (first + c) (by omega) (by omega)]
        exact hheap c h0 (by omega))
    obtain ⟨sp, sf, sh, sb⟩ := hsift
    have hsun : ∀ k, first + (i + 1) ≤ k →
        (siftDownA (keyLess key) first (i + 1) (aswap l first (first + (i + 1))) 0
          (i + 1)).getD k default =
        (aswap l first (first + (i + 1))).getD k default := by
      intro k hk
      by_contra hne
      obtain ⟨c2, _, hc2, he⟩ := sf _ hne
      omega
    have hlen2 : (siftDownA (keyLess key) first (i + 1)
        (aswap l first (first + (i + 1))) 0 (i + 1)).length = l.length := by
      rw [sp.length_eq, aswap_length]
    have hrec := ih (siftDownA (keyLess key) first (i + 1)
        (aswap l first (first + (i + 1))) 0 (i + 1))
      (by omega) (by omega)
      (by
        intro c h0 hc
        exact sh c h0 hc (desc_zero _))
      (by
        intro k h1 h2
        rw [hsun k (by omega), hsun (k - 1) (by omega)]
        by_cases hk : k = first + (i + 1) + 1
        · rw [show k - 1 = first + (i + 1) by omega, e2,
            eo k (by omega) (by omega)]
          have h3 := hcross 0 (k - first) (by omega) (by omega) (by omega)
          rw [Nat.add_zero, show first + (k - first) = k by omega] at h3
          exact h3
        · rw [eo k (by omega) (by omega), eo (k - 1) (by omega) (by omega)]
          exact htail k (by omega) h2)
      (by
        intro c d hc hd hdn
        rw [hsun (first + d) (by omega)]
        by_cases hdi : d = i + 1
        · subst hdi
          rw [e2]
          refine sb (l.getD first default) ?_ c (desc_zero c) (by omega)
          intro d2 hd2 hdlt2
          by_cases hd20 : d2 = 0
          · subst hd20
            show key (l.getD first default) ≤
              key ((aswap l first (first + (i + 1))).getD first default)
            rw [e1]
            exact hminL (i + 1) (by omega)
          · rw [eo (first + d2) (by omega) (by omega)]
            exact hminL d2 (by omega)
        · rw [eo (first + d) (by omega) (by omega)]
          refine sb (l.getD (first + d) default) ?_ c (desc_zero c) (by omega)
          intro d2 hd2 hdlt2
          by_cases hd20 : d2 = 0
          · subst hd20
            show key (l.getD (first + d) default) ≤
              key ((aswap l first (first + (i + 1))).getD first default)
            rw [e1]
            exact hcross (i + 1) d (by omega) (by omega) (by omega)
          · rw [eo (first + d2) (by omega) (by omega)]
            exact hcross d2 d (by omega) (by omega) (by omega))
    obtain ⟨rop, radj⟩ := hrec
    refine ⟨?_, radj⟩
    have h1 : rangeOp l (aswap l first (first + (i + 1))) first (first + (i + 1 + 1)) :=
      rangeOp_aswap l (by omega) (by omega) (by omega) (by omega)
    have h2 : rangeOp (aswap l first (first + (i + 1)))
        (siftDownA (keyLess key) first (i + 1) (aswap l first (first + (i + 1))) 0
          (i + 1)) first (first + (i + 1 + 1)) := by
      refine ⟨sp, ?_⟩
      intro k hk
      by_contra hne
      obtain ⟨c2, _, hc2, he⟩ := sf _ hne
      omega
    exact rangeOp_trans (rangeOp_trans h1 h2)
      (rangeOp_mono (le_refl _) (by omega) rop)

/-- The heap sort rearranges exactly the range `[a, b)` and leaves it in
descending key order. -/
theorem heapSortA_spec (key : α → Rat) (a b : Nat) (l : List α) (hb : b ≤ l.length) :
    rangeOp l (heapSortA (keyLess key) a b l) a b ∧
    adjOn key (heapSortA (keyLess key) a b l) a b := by
  by_cases hab : b ≤ a
  · have hz : heapSortA (keyLess key) a b l = l := by
      simp only [heapSortA]
      rw [show b - a = 0 by omega]
      rfl
    rw [hz]
    exact ⟨rangeOp_refl _ _ _, fun k h1 h2 => absurd (h1.trans h2) (by omega)⟩
  · simp only [heapSortA]
    have hinit := heapInitA_spec key a (b - a) ((b - a - 1) / 2 + 1) l (by omega)
      (fun c h0 hc hr => absurd hr (by omega))
    obtain ⟨ip, ifr, ih2⟩ := hinit
    have hext := heapExtractA_spec key a (b - a) (b - a - 1)
      (heapInitA (keyLess key) a (b - a) l ((b - a - 1) / 2 + 1))
      (by omega) (by rw [ip.length_eq]; omega)
      (fun c h0 hc => ih2 c h0 (by omega))
      (fun k h1 h2 => absurd (h1.trans h2) (by omega))
      (fun c d hc hd hdn => absurd (Nat.lt_of_le_of_lt hd hdn) (by omega))
    obtain ⟨ep, ea⟩ := hext
    rw [show b - a - 1 + 1 = b - a by omega] at ep
    rw [show a + (b - a) = b by omega] at ep ea
    refine ⟨?_, ea⟩
    have h1 : rangeOp l (heapInitA (keyLess key) a (b - a) l ((b - a - 1) / 2 + 1)) a b :=
      ⟨ip, by
        intro k hk
        by_contra hne
        have h2 := ifr k hne
        omega⟩
    exact rangeOp_trans h1 ep

/-! ### The Hoare partition -/

theorem partAdvF_spec (key : α → Rat) (l : List α) (a j : Nat) :
    ∀ n i,
      i ≤ partAdvF (keyLess key) l a j i n ∧
      (∀ k, i ≤ k → k < partAdvF (keyLess key) l a j i n →
        key (l.getD a default) < key (l.getD k default)) ∧
      (i ≤ j + 1 → j + 1 - i ≤ n →
        partAdvF (keyLess key) l a j i n ≤ j + 1 ∧
        (partAdvF (keyLess key) l a j i n ≤ j →
          key (l.getD (partAdvF (keyLess key) l a j i n) default) ≤
            key (l.getD a default))) := by
  intro n
  induction n with
  | zero =>
    intro i
    rw [partAdvF]
    refine ⟨le_refl _, fun k h1 h2 => absurd (Nat.lt_of_le_of_lt h1 h2) (by omega), ?_⟩
    intro h1 h2
    exact ⟨by omega, fun h3 => absurd (by omega : j + 1 ≤ j) (by omega)⟩
  | succ n ih =>
    intro i
    rw [partAdvF]
    split
    case isTrue hg =>
      obtain ⟨hij, hless⟩ := hg
      rw [keyLess_true_iff] at hless
      obtain ⟨ih1, ih2, ih3⟩ := ih (i + 1)
      refine ⟨by omega, ?_, ?_⟩
      · intro k h1 h2
        by_cases hk : k = i
        · subst hk
          exact hless
        · exact ih2 k (by omega) h2
      · intro h1 h2
        exact ih3 (by omega) (by omega)
    case isFalse hg =>
      refine ⟨le_refl _, fun k h1 h2 => absurd (Nat.lt_of_le_of_lt h1 h2) (by omega), ?_⟩
      intro h1 h2
      refine ⟨?_, ?_⟩
      · by_cases hij : i ≤ j
        · omega
        · omega
      · intro h3
        have hless : keyLess key (l.getD i default) (l.getD a default) = false := by
          cases hf : keyLess key (l.getD i default) (l.getD a default) with
          | false => rfl
          | true => exact absurd ⟨by omega, hf⟩ hg
        rw [keyLess_false_iff] at hless
        exact hless

theorem partRetJ_spec (key : α → Rat) (l : List α) (a i : Nat) :
    ∀ jc,
      partRetJ (keyLess key) l a i jc ≤ jc ∧
      (∀ m, partRetJ (keyLess key) l a i jc < m → m ≤ jc →
        key (l.getD m default) ≤ key (l.getD a default)) ∧
      (0 < partRetJ (keyLess key) l a i jc → i ≤ partRetJ (keyLess key) l a i jc →
        key (l.getD a default) < key (l.getD (partRetJ (keyLess key) l a i jc) default)) ∧
      (i ≤ jc + 1 → i - 1 ≤ partRetJ (keyLess key) l a i jc) := by
  intro jc
  induction jc with
  | zero =>
    rw [partRetJ]
    exact ⟨le_refl _, fun m h1 h2 => absurd (Nat.lt_of_lt_of_le h1 h2) (by omega),
      fun h1 h2 => absurd h1 (by omega), fun h => by omega⟩
  | succ jc ih =>
    rw [partRetJ]
    split
    case isTrue hg =>
      obtain ⟨hij, hless⟩ := hg
      rw [keyLess_false_iff] at hless
      obtain ⟨ih1, ih2, ih3, ih4⟩ := ih
      refine ⟨by omega, ?_, ih3, fun h => ih4 (by omega)⟩
      intro m h1 h2
      by_cases hm : m = jc + 1
      · subst hm
        exact hless
      · exact ih2 m h1 (by omega)
    case isFalse hg =>
      refine ⟨le_refl _, fun m h1 h2 => absurd (Nat.lt_of_lt_of_le h1 h2) (by omega),
        ?_, fun h => by omega⟩
      intro h1 h2
      have hless : keyLess key (l.getD (jc + 1) default) (l.getD a default) = true := by
        cases hf : keyLess key (l.getD (jc + 1) default) (l.getD a default) with
        | true => rfl
        | false => exact absurd ⟨h2, hf⟩ hg
      rw [keyLess_true_iff] at hless
      exact hless

theorem partAdvI_spec (key : α → Rat) (l : List α) (a j i : Nat) :
    i ≤ partAdvI (keyLess key) l a j i ∧
    (∀ k, i ≤ k → k < partAdvI (keyLess key) l a j i →
      key (l.getD a default) < key (l.getD k default)) ∧
    (i ≤ j + 1 → partAdvI (keyLess key) l a j i ≤ j + 1) ∧
    (i ≤ j + 1 → partAdvI (keyLess key) l a j i ≤ j →
      key (l.getD (partAdvI (keyLess key) l a j i) default) ≤ key (l.getD a default)) := by
  rw [partAdvI]
  obtain ⟨h1, h2, h3⟩ := partAdvF_spec key l a j (j + 1 - i) i
  exact ⟨h1, h2, fun h => (h3 h (le_refl _)).1, fun h h4 => (h3 h (le_refl _)).2 h4⟩

theorem partLoopA_spec (key : α → Rat) (a b : Nat) :
    ∀ (fuel : Nat) (l : List α) (i j : Nat), b ≤ l.length → a < i → i ≤ j + 1 → j < b →
      j + 2 - i ≤ fuel →
      (∀ k, a < k → k < i → key (l.getD a default) < key (l.getD k default)) →
      (∀ m, j < m → m < b → key (l.getD m default) ≤ key (l.getD a default)) →
      rangeOp l (partLoopA (keyLess key) a l i j fuel).1 i (j + 1) ∧
      a ≤ (partLoopA (keyLess key) a l i j fuel).2 ∧
      (partLoopA (keyLess key) a l i j fuel).2 ≤ j ∧
      (∀ k, a < k → k ≤ (partLoopA (keyLess key) a l i j fuel).2 →
        key ((partLoopA (keyLess key) a l i j fuel).1.getD a default) <
          key ((partLoopA (keyLess key) a l i j fuel).1.getD k default)) ∧
      (∀ m, (partLoopA (keyLess key) a l i j fuel).2 < m → m < b →
        key ((partLoopA (keyLess key) a l i j fuel).1.getD m default) ≤
          key ((partLoopA (keyLess key) a l i j fuel).1.getD a default)) := by
  intro fuel
  induction fuel with
  | zero =>
    intro l i j hbl hai hij hjb hfuel hleft hright
    exact absurd hfuel (by omega)
  | succ fuel ih =>
    intro l i j hbl hai hij hjb hfuel hleft hright
    obtain ⟨ha1, ha2, ha3, ha4⟩ := partAdvI_spec key l a j i
    obtain ⟨hr1, hr2, hr3, hr4⟩ := partRetJ_spec key l a (partAdvI (keyLess key) l a j i) j
    have hi1j1 : partAdvI (keyLess key) l a j i ≤ j + 1 := ha3 hij
    have hj1a : (partAdvI (keyLess key) l a j i) - 1 ≤ partRetJ (keyLess key) l a
        (partAdvI (keyLess key) l a j i) j := hr4 (by omega)
    rw [partLoopA]
    split
    case isTrue hcross =>
      refine ⟨rangeOp_refl _ _ _, by omega, hr1, ?_, ?_⟩
      · intro k hk1 hk2
        by_cases hki : k < i
        · exact hleft k hk1 hki
        · exact ha2 k (by omega) (by omega)
      · intro m hm1 hm2
        by_cases hmj : m ≤ j
        · exact hr2 m hm1 hmj
        · exact hright m (by omega) hm2
    case isFalse hcross =>
      have hle : partAdvI (keyLess key) l a j i <
          partRetJ (keyLess key) l a (partAdvI (keyLess key) l a j i) j := by
        rcases Nat.lt_or_ge (partAdvI (keyLess key) l a j i)
          (partRetJ (keyLess key) l a (partAdvI (keyLess key) l a j i) j) with h | h
        · exact h
        · have heq : partAdvI (keyLess key) l a j i =
              partRetJ (keyLess key) l a (partAdvI (keyLess key) l a j i) j := by omega
          have h1 := hr3 (by omega) (by omega)
          have h2 := ha4 hij (by omega)
          rw [← heq] at h1
          exact absurd h1 (not_lt.2 h2)
      have hi1j : partAdvI (keyLess key) l a j i ≤ j := by omega
      have hj1pos : a < partRetJ (keyLess key) l a (partAdvI (keyLess key) l a j i) j := by
        omega
      have e1 : (aswap l (partAdvI (keyLess key) l a j i)
          (partRetJ (keyLess key) l a (partAdvI (keyLess key) l a j i) j)).getD
            (partAdvI (keyLess key) l a j i) default =
          l.getD (partRetJ (keyLess key) l a (partAdvI (keyLess key) l a j i) j) default :=
        aswap_getD_fst l _ _ (by omega) (by omega)
      have e2 : (aswap l (partAdvI (keyLess key) l a j i)
          (partRetJ (keyLess key) l a (partAdvI (keyLess key) l a j i) j)).getD
            (partRetJ (keyLess key) l a (partAdvI (keyLess key) l a j i) j) default =
          l.getD (partAdvI (keyLess key) l a j i) default :=
        aswap_getD_snd l _ _ (by omega) (by omega)
      have eo : ∀ k, k ≠ partAdvI (keyLess key) l a j i →
          k ≠ partRetJ (keyLess key) l a (partAdvI (keyLess key) l a j i) j →
          (aswap l (partAdvI (keyLess key) l a j i)
            (partRetJ (keyLess key) l a (partAdvI (keyLess key) l a j i) j)).getD
              k default = l.getD k default :=
        fun k h1 h2 => aswap_getD_other l _ _ k h1 h2
      have hpv : (aswap l (partAdvI (keyLess key) l a j i)
          (partRetJ (keyLess key) l a (partAdvI (keyLess key) l a j i) j)).getD
            a default = l.getD a default :=
        eo a (by omega) (by omega)
      have hfuel2 : partRetJ (keyLess key) l a (partAdvI (keyLess key) l a j i) j - 1 + 2 -
          (partAdvI (keyLess key) l a j i + 1) ≤ fuel := by omega
      have hrec := ih (aswap l (partAdvI (keyLess key) l a j i)
          (partRetJ (keyLess key) l a (partAdvI (keyLess key) l a j i) j))
        (partAdvI (keyLess key) l a j i + 1)
        (partRetJ (keyLess key) l a (partAdvI (keyLess key) l a j i) j - 1)
        (by rw [aswap_length]; exact hbl) (by omega) (by omega) (by omega) hfuel2
        (by
          intro k hk1 hk2
          rw [hpv]
          by_cases hki : k = partAdvI (keyLess key) l a j i
          · rw [hki, e1]
            exact hr3 (by omega) (by omega)
          · rw [eo k hki (by omega)]
            by_cases hki2 : k < i
            · exact hleft k hk1 hki2
            · exact ha2 k (by omega) (by omega))
        (by
          intro m hm1 hm2
          rw [hpv]
          by_cases hmj : m = partRetJ (keyLess key) l a (partAdvI (keyLess key) l a j i) j
          · rw [hmj, e2]
            exact ha4 hij hi1j
          · rw [eo m (by omega) hmj]
            by_cases hmj2 : m ≤ j
            · exact hr2 m (by omega) hmj2
            · exact hright m (by omega) hm2)
      obtain ⟨hop, hb1, hb2, hlf, hrt⟩ := hrec
      have hopw : rangeOp l (partLoopA (keyLess key) a
          (aswap l (partAdvI (keyLess key) l a j i)
            (partRetJ (keyLess key) l a (partAdvI (keyLess key) l a j i) j))
          (partAdvI (keyLess key) l a j i + 1)
          (partRetJ (keyLess key) l a (partAdvI (keyLess key) l a j i) j - 1) fuel).1
          i (j + 1) := by
        refine rangeOp_trans ?_ (rangeOp_mono (by omega) (by omega) hop)
        exact rangeOp_aswap l (by omega) (by omega) (by omega) (by omega)
      exact ⟨hopw, by omega, by omega, hlf, hrt⟩

/-- The Hoare partition: the range `[a, b)` is rearranged so that the pivot
value sits at the returned index, strictly greater keys precede it and
smaller-or-equal keys follow it. -/
theorem partitionA_spec (key : α → Rat) (l : List α) (a b pivot : Nat)
    (hab : a < b) (hbl : b ≤ l.length) (hpiv1 : a ≤ pivot) (hpiv2 : pivot < b) :
    rangeOp l (partitionA (keyLess key) l a b pivot).1 a b ∧
    a ≤ (partitionA (keyLess key) l a b pivot).2.1 ∧
    (partitionA (keyLess key) l a b pivot).2.1 < b ∧
    (partitionA (keyLess key) l a b pivot).1.getD
      ((partitionA (keyLess key) l a b pivot).2.1) default = l.getD pivot default ∧
    (∀ k, a ≤ k → k < (partitionA (keyLess key) l a b pivot).2.1 →
      key (l.getD pivot default) <
        key ((partitionA (keyLess key) l a b pivot).1.getD k default)) ∧
    (∀ k, (partitionA (keyLess key) l a b pivot).2.1 < k → k < b →
      key ((partitionA (keyLess key) l a b pivot).1.getD k default) ≤
        key (l.getD pivot default)) := by
  simp only [partitionA]
  set l0 := aswap l a pivot with hl0def
  set i0 := partAdvI (keyLess key) l0 a (b - 1) (a + 1) with hi0def
  set j0 := partRetJ (keyLess key) l0 a i0 (b - 1) with hj0def
  have hl0len : l0.length = l.length := by rw [hl0def]; exact aswap_length _ _ _
  have hop0 : rangeOp l l0 a b := by
    rw [hl0def]
    exact rangeOp_aswap l (le_refl _) hab hpiv1 hpiv2
  have hpv : l0.getD a default = l.getD pivot default := by
    rw [hl0def]
    exact aswap_getD_fst l a pivot (by omega) (by omega)
  obtain ⟨ha1, ha2, ha3, ha4⟩ := partAdvI_spec key l0 a (b - 1) (a + 1)
  obtain ⟨hr1, hr2, hr3, hr4⟩ := partRetJ_spec key l0 a i0 (b - 1)
  rw [← hi0def] at ha1 ha2 ha3 ha4
  rw [← hj0def] at hr1 hr2 hr3 hr4
  have hi0b : i0 ≤ b := by have h := ha3 (by omega); omega
  have hj0a : a ≤ j0 := by have h := hr4 (by omega); omega
  split
  case isTrue hcross =>
    dsimp only
    have e1 : (aswap l0 j0 a).getD j0 default = l0.getD a default :=
      aswap_getD_fst l0 j0 a (by omega) (by omega)
    have e2 : (aswap l0 j0 a).getD a default = l0.getD j0 default :=
      aswap_getD_snd l0 j0 a (by omega) (by omega)
    have eo : ∀ k, k ≠ j0 → k ≠ a → (aswap l0 j0 a).getD k default = l0.getD k default :=
      fun k h1 h2 => aswap_getD_other l0 j0 a k h1 h2
    refine ⟨rangeOp_trans hop0 (rangeOp_aswap l0 (by omega) (by omega) (le_refl _) hab),
      hj0a, by omega, by rw [e1, hpv], ?_, ?_⟩
    · intro k hk1 hk2
      by_cases hka : k = a
    
      · rw [hka, e2, ← hpv]
        exact ha2 j0 (by omega) (by omega)
      · rw [eo k (by omega) hka, ← hpv]
        exact ha2 k (by omega) (by omega)
    · intro k hk1 hk2
      rw [eo k (by omega) (by omega), ← hpv]
      exact hr2 k hk1 (by omega)
  case isFalse hcross =>
    dsimp only
    have hstrict : i0 < j0 := by
      rcases Nat.lt_or_ge i0 j0 with h | h
      · exact h
      · have heq : i0 = j0 := by omega
        have h1 := hr3 (by omega) (by omega)
        have h2 := ha4 (by omega) (by omega)
        rw [← heq] at h1
        exact absurd h1 (not_lt.2 h2)
    have hj0b : j0 ≤ b - 1 := hr1
    have e1 : (aswap l0 i0 j0).getD i0 default = l0.getD j0 default :=
      aswap_getD_fst l0 i0 j0 (by omega) (by omega)
    have e2 : (aswap l0 i0 j0).getD j0 default = l0.getD i0 default :=
      aswap_getD_snd l0 i0 j0 (by omega) (by omega)
    have eo : ∀ k, k ≠ i0 → k ≠ j0 →
        (aswap l0 i0 j0).getD k default = l0.getD k default :=
      fun k h1 h2 => aswap_getD_other l0 i0 j0 k h1 h2
    have hpv1 : (aswap l0 i0 j0).getD a default = l.getD pivot default := by
      rw [eo a (by omega) (by omega), hpv]
    have hloop := partLoopA_spec key a b b (aswap l0 i0 j0) (i0 + 1) (j0 - 1)
      (by rw [aswap_length]; omega) (by omega) (by omega) (by omega) (by omega)
      (by
        intro k hk1 hk2
        rw [hpv1, ← hpv]
        by_cases hki : k = i0
        · rw [hki, e1]
          exact hr3 (by omega) (by omega)
        · rw [eo k hki (by omega)]
          exact ha2 k (by omega) (by omega))
      (by
        intro m hm1 hm2
        rw [hpv1, ← hpv]
        by_cases hmj : m = j0
        · rw [hmj, e2]
          exact ha4 (by omega) (by omega)
        · rw [eo m (by omega) hmj]
          exact hr2 m (by omega) (by omega))
    obtain ⟨hop, hb1, hb2, hlf, hrt⟩ := hloop
    have hfr : (partLoopA (keyLess key) a (aswap l0 i0 j0) (i0 + 1) (j0 - 1) b).1.getD
        a default = l.getD pivot default := by
      rw [← hpv1]
      exact hop.2 a (by omega)
    have hlen2 : (partLoopA (keyLess key) a (aswap l0 i0 j0) (i0 + 1)
        (j0 - 1) b).1.length = l.length := by
      rw [(rangeOp_length hop), aswap_length, hl0len]
    have e3 : (aswap (partLoopA (keyLess key) a (aswap l0 i0 j0) (i0 + 1) (j0 - 1) b).1
        (partLoopA (keyLess key) a (aswap l0 i0 j0) (i0 + 1) (j0 - 1) b).2 a).getD
          ((partLoopA (keyLess key) a (aswap l0 i0 j0) (i0 + 1) (j0 - 1) b).2) default =
        (partLoopA (keyLess key) a (aswap l0 i0 j0) (i0 + 1) (j0 - 1) b).1.getD
          a default :=
      aswap_getD_fst _ _ _ (by omega) (by omega)
    have e4 : (aswap (partLoopA (keyLess key) a (aswap l0 i0 j0) (i0 + 1) (j0 - 1) b).1
        (partLoopA (keyLess key) a (aswap l0 i0 j0) (i0 + 1) (j0 - 1) b).2 a).getD
          a default =
        (partLoopA (keyLess key) a (aswap l0 i0 j0) (i0 + 1) (j0 - 1) b).1.getD
          ((partLoopA (keyLess key) a (aswap l0 i0 j0) (i0 + 1) (j0 - 1) b).2) default :=
      aswap_getD_snd _ _ _ (by omega) (by omega)
    have e5 : ∀ k, k ≠ (partLoopA (keyLess key) a (aswap l0 i0 j0) (i0 + 1) (j0 - 1) b).2 →
        k ≠ a →
        (aswap (partLoopA (keyLess key) a (aswap l0 i0 j0) (i0 + 1) (j0 - 1) b).1
          (partLoopA (keyLess key) a (aswap l0 i0 j0) (i0 + 1) (j0 - 1) b).2 a).getD
            k default =
        (partLoopA (keyLess key) a (aswap l0 i0 j0) (i0 + 1) (j0 - 1) b).1.getD
          k default :=
      fun k h1 h2 => aswap_getD_other _ _ _ k h1 h2
    refine ⟨?_, by omega, by omega, by rw [e3, hfr], ?_, ?_⟩
    · refine rangeOp_trans hop0 (rangeOp_trans
        (rangeOp_aswap l0 (by omega) (by omega) (by omega) (by omega))
        (rangeOp_trans (rangeOp_mono (by omega) (by omega) hop) ?_))
      exact rangeOp_aswap _ (by omega) (by omega) (le_refl _) hab
    · intro k hk1 hk2
      by_cases hka : k = a
      · rw [hka, e4, ← hfr]
        exact hlf _ (by omega) (le_refl _)
      · rw [e5 k (by omega) hka, ← hfr]
        exact hlf k (by omega) (by omega)
    · intro k hk1 hk2
      rw [e5 k (by omega) (by omega), ← hfr]
      exact hrt k hk1 hk2

/-! ### The equal-elements partition -/

theorem peqAdvF_spec (key : α → Rat) (l : List α) (a j : Nat) :
    ∀ n i,
      i ≤ peqAdvF (keyLess key) l a j i n ∧
      (∀ k, i ≤ k → k < peqAdvF (keyLess key) l a j i n →
        key (l.getD a default) ≤ key (l.getD k default)) ∧
      (i ≤ j + 1 → j + 1 - i ≤ n →
        peqAdvF (keyLess key) l a j i n ≤ j + 1 ∧
        (peqAdvF (keyLess key) l a j i n ≤ j →
          key (l.getD (peqAdvF (keyLess key) l a j i n) default) <
            key (l.getD a default))) := by
  intro n
  induction n with
  | zero =>
    intro i
    rw [peqAdvF]
    refine ⟨le_refl _, fun k h1 h2 => absurd (Nat.lt_of_le_of_lt h1 h2) (by omega), ?_⟩
    intro h1 h2
    exact ⟨by omega, fun h3 => absurd (by omega : j + 1 ≤ j) (by omega)⟩
  | succ n ih =>
    intro i
    rw [peqAdvF]
    split
    case isTrue hg =>
      obtain ⟨hij, hless⟩ := hg
      rw [keyLess_false_iff] at hless
      obtain ⟨ih1, ih2, ih3⟩ := ih (i + 1)
      refine ⟨by omega, ?_, ?_⟩
      · intro k h1 h2
        by_cases hk : k = i
        · subst hk
          exact hless
        · exact ih2 k (by omega) h2
      · intro h1 h2
        exact ih3 (by omega) (by omega)
    case isFalse hg =>
      refine ⟨le_refl _, fun k h1 h2 => absurd (Nat.lt_of_le_of_lt h1 h2) (by omega), ?_⟩
      intro h1 h2
      refine ⟨by omega, ?_⟩
      intro h3
      have hless : keyLess key (l.getD a default) (l.getD i default) = true := by
        cases hf : keyLess key (l.getD a default) (l.getD i default) with
        | true => rfl
        | false => exact absurd ⟨by omega, hf⟩ hg
      rw [keyLess_true_iff] at hless
      exact hless

theorem peqAdvI_spec (key : α → Rat) (l : List α) (a j i : Nat) :
    i ≤ peqAdvI (keyLess key) l a j i ∧
    (∀ k, i ≤ k → k < peqAdvI (keyLess key) l a j i →
      key (l.getD a default) ≤ key (l.getD k default)) ∧
    (i ≤ j + 1 → peqAdvI (keyLess key) l a j i ≤ j + 1) ∧
    (i ≤ j + 1 → peqAdvI (keyLess key) l a j i ≤ j →
      key (l.getD (peqAdvI (keyLess key) l a j i) default) < key (l.getD a default)) := by
  rw [peqAdvI]
  obtain ⟨h1, h2, h3⟩ := peqAdvF_spec key l a j (j + 1 - i) i
  exact ⟨h1, h2, fun h => (h3 h (le_refl _)).1, fun h h4 => (h3 h (le_refl _)).2 h4⟩

theorem peqRetJ_spec (key : α → Rat) (l : List α) (a i : Nat) :
    ∀ jc,
      peqRetJ (keyLess key) l a i jc ≤ jc ∧
      (∀ m, peqRetJ (keyLess key) l a i jc < m → m ≤ jc →
        key (l.getD m default) < key (l.getD a default)) ∧
      (0 < peqRetJ (keyLess key) l a i jc → i ≤ peqRetJ (keyLess key) l a i jc →
        key (l.getD a default) ≤
          key (l.getD (peqRetJ (keyLess key) l a i jc) default)) ∧
      (i ≤ jc + 1 → i - 1 ≤ peqRetJ (keyLess key) l a i jc) := by
  intro jc
  induction jc with
  | zero =>
    rw [peqRetJ]
    exact ⟨le_refl _, fun m h1 h2 => absurd (Nat.lt_of_lt_of_le h1 h2) (by omega),
      fun h1 h2 => absurd h1 (by omega), fun h => by omega⟩
  | succ jc ih =>
    rw [peqRetJ]
    split
    case isTrue hg =>
      obtain ⟨hij, hless⟩ := hg
      rw [keyLess_true_iff] at hless
      obtain ⟨ih1, ih2, ih3, ih4⟩ := ih
      refine ⟨by omega, ?_, ih3, fun h => ih4 (by omega)⟩
      intro m h1 h2
      by_cases hm : m = jc + 1
      · subst hm
        exact hless
      · exact ih2 m h1 (by omega)
    case isFalse hg =>
      refine ⟨le_refl _, fun m h1 h2 => absurd (Nat.lt_of_lt_of_le h1 h2) (by omega),
        ?_, fun h => by omega⟩
      intro h1 h2
      have hless : keyLess key (l.getD a default) (l.getD (jc + 1) default) = false := by
        cases hf : keyLess key (l.getD a default) (l.getD (jc + 1) default) with
        | false => rfl
        | true => exact absurd ⟨h2, hf⟩ hg
      rw [keyLess_false_iff] at hless
      exact hless

theorem peqLoopA_spec (key : α → Rat) (a b : Nat) :
    ∀ (fuel : Nat) (l : List α) (i j : Nat), b ≤ l.length → a < i → i ≤ j + 1 → j < b →
      j + 2 - i ≤ fuel →
      (∀ k, a < k → k < i → key (l.getD a default) ≤ key (l.getD k default)) →
      (∀ m, j < m → m < b → key (l.getD m default) < key (l.getD a default)) →
      rangeOp l (peqLoopA (keyLess key) a l i j fuel).1 i (j + 1) ∧
      i ≤ (peqLoopA (keyLess key) a l i j fuel).2 ∧
      (peqLoopA (keyLess key) a l i j fuel).2 ≤ j + 1 ∧
      (∀ k, a < k → k < (peqLoopA (keyLess key) a l i j fuel).2 →
        key ((peqLoopA (keyLess key) a l i j fuel).1.getD a default) ≤
          key ((peqLoopA (keyLess key) a l i j fuel).1.getD k default)) ∧
      (∀ m, (peqLoopA (keyLess key) a l i j fuel).2 ≤ m → m < b →
        key ((peqLoopA (keyLess key) a l i j fuel).1.getD m default) <
          key ((peqLoopA (keyLess key) a l i j fuel).1.getD a default)) := by
  intro fuel
  induction fuel with
  | zero =>
    intro l i j hbl hai hij hjb hfuel hleft hright
    exact absurd hfuel (by omega)
  | succ fuel ih =>
    intro l i j hbl hai hij hjb hfuel hleft hright
    obtain ⟨ha1, ha2, ha3, ha4⟩ := peqAdvI_spec key l a j i
    obtain ⟨hr1, hr2, hr3, hr4⟩ := peqRetJ_spec key l a (peqAdvI (keyLess key) l a j i) j
    have hi1j1 : peqAdvI (keyLess key) l a j i ≤ j + 1 := ha3 hij
    have hj1a : (peqAdvI (keyLess key) l a j i) - 1 ≤ peqRetJ (keyLess key) l a
        (peqAdvI (keyLess key) l a j i) j := hr4 (by omega)
    rw [peqLoopA]
    split
    case isTrue hcross =>
      refine ⟨rangeOp_refl _ _ _, ha1, hi1j1, ?_, ?_⟩
      · intro k hk1 hk2
        by_cases hki : k < i
        · exact hleft k hk1 hki
        · exact ha2 k (by omega) (by omega)
      · intro m hm1 hm2
        by_cases hmj : m ≤ j
        · exact hr2 m (by omega) hmj
        · exact hright m (by omega) hm2
    case isFalse hcross =>
      have hle : peqAdvI (keyLess key) l a j i <
          peqRetJ (keyLess key) l a (peqAdvI (keyLess key) l a j i) j := by
        rcases Nat.lt_or_ge (peqAdvI (keyLess key) l a j i)
          (peqRetJ (keyLess key) l a (peqAdvI (keyLess key) l a j i) j) with h | h
        · exact h
        · have heq : peqAdvI (keyLess key) l a j i =
              peqRetJ (keyLess key) l a (peqAdvI (keyLess key) l a j i) j := by omega
          have h1 := hr3 (by omega) (by omega)
          have h2 := ha4 hij (by omega)
          rw [← heq] at h1
          exact absurd h2 (not_lt.2 h1)
      have hi1j : peqAdvI (keyLess key) l a j i ≤ j := by omega
      have e1 : (aswap l (peqAdvI (keyLess key) l a j i)
          (peqRetJ (keyLess key) l a (peqAdvI (keyLess key) l a j i) j)).getD
            (peqAdvI (keyLess key) l a j i) default =
          l.getD (peqRetJ (keyLess key) l a (peqAdvI (keyLess key) l a j i) j) default :=
        aswap_getD_fst l _ _ (by omega) (by omega)
      have e2 : (aswap l (peqAdvI (keyLess key) l a j i)
          (peqRetJ (keyLess key) l a (peqAdvI (keyLess key) l a j i) j)).getD
            (peqRetJ (keyLess key) l a (peqAdvI (keyLess key) l a j i) j) default =
          l.getD (peqAdvI (keyLess key) l a j i) default :=
        aswap_getD_snd l _ _ (by omega) (by omega)
      have eo : ∀ k, k ≠ peqAdvI (keyLess key) l a j i →
          k ≠ peqRetJ (keyLess key) l a (peqAdvI (keyLess key) l a j i) j →
          (aswap l (peqAdvI (keyLess key) l a j i)
            (peqRetJ (keyLess key) l a (peqAdvI (keyLess key) l a j i) j)).getD
              k default = l.getD k default :=
        fun k h1 h2 => aswap_getD_other l _ _ k h1 h2
      have hpv : (aswap l (peqAdvI (keyLess key) l a j i)
          (peqRetJ (keyLess key) l a (peqAdvI (keyLess key) l a j i) j)).getD
            a default = l.getD a default :=
        eo a (by omega) (by omega)
      have hrec := ih (aswap l (peqAdvI (keyLess key) l a j i)
          (peqRetJ (keyLess key) l a (peqAdvI (keyLess key) l a j i) j))
        (peqAdvI (keyLess key) l a j i + 1)
        (peqRetJ (keyLess key) l a (peqAdvI (keyLess key) l a j i) j - 1)
        (by rw [aswap_length]; exact hbl) (by omega) (by omega) (by omega) (by omega)
        (by
          intro k hk1 hk2
          rw [hpv]
          by_cases hki : k = peqAdvI (keyLess key) l a j i
          · rw [hki, e1]
            exact hr3 (by omega) (by omega)
          · rw [eo k hki (by omega)]
            by_cases hki2 : k < i
            · exact hleft k hk1 hki2
            · exact ha2 k (by omega) (by omega))
        (by
          intro m hm1 hm2
          rw [hpv]
          by_cases hmj : m = peqRetJ (keyLess key) l a (peqAdvI (keyLess key) l a j i) j
          · rw [hmj, e2]
            exact ha4 hij hi1j
          · rw [eo m (by omega) hmj]
            by_cases hmj2 : m ≤ j
            · exact hr2 m (by omega) hmj2
            · exact hright m (by omega) hm2)
      obtain ⟨hop, hb1, hb2, hlf, hrt⟩ := hrec
      have hopw : rangeOp l (peqLoopA (keyLess key) a
          (aswap l (peqAdvI (keyLess key) l a j i)
            (peqRetJ (keyLess key) l a (peqAdvI (keyLess key) l a j i) j))
          (peqAdvI (keyLess key) l a j i + 1)
          (peqRetJ (keyLess key) l a (peqAdvI (keyLess key) l a j i) j - 1) fuel).1
          i (j + 1) := by
        refine rangeOp_trans ?_ (rangeOp_mono (by omega) (by omega) hop)
        exact rangeOp_aswap l (by omega) (by omega) (by omega) (by omega)
      exact ⟨hopw, by omega, by omega, hlf, hrt⟩

/-- The equal-elements partition: after it, slots `[a, m)` hold keys at
least the pivot key and slots `[m, b)` hold strictly smaller keys. -/
theorem partitionEqualA_spec (key : α → Rat) (l : List α) (a b pivot : Nat)
    (hab : a < b) (hbl : b ≤ l.length) (hpiv1 : a ≤ pivot) (hpiv2 : pivot < b) :
    rangeOp l (partitionEqualA (keyLess key) l a b pivot).1 a b ∧
    a < (partitionEqualA (keyLess key) l a b pivot).2 ∧
    (partitionEqualA (keyLess key) l a b pivot).2 ≤ b ∧
    (∀ k, a ≤ k → k < (partitionEqualA (keyLess key) l a b pivot).2 →
      key (l.getD pivot default) ≤
        key ((partitionEqualA (keyLess key) l a b pivot).1.getD k default)) ∧
    (∀ k, (partitionEqualA (keyLess key) l a b pivot).2 ≤ k → k < b →
      key ((partitionEqualA (keyLess key) l a b pivot).1.getD k default) <
        key (l.getD pivot default)) := by
  simp only [partitionEqualA]
  set l0 := aswap l a pivot with hl0def
  have hl0len : l0.length = l.length := by rw [hl0def]; exact aswap_length _ _ _
  have hop0 : rangeOp l l0 a b := by
    rw [hl0def]
    exact rangeOp_aswap l (le_refl _) hab hpiv1 hpiv2
  have hpv : l0.getD a default = l.getD pivot default := by
    rw [hl0def]
    exact aswap_getD_fst l a pivot (by omega) (by omega)
  by_cases hdeg : b = a + 1
  · subst hdeg
    rw [peqLoopA]
    have h0 : peqAdvI (keyLess key) l0 a (a + 1 - 1) (a + 1) = a + 1 := by
      rw [peqAdvI]
      rw [show a + 1 - 1 + 1 - (a + 1) = 0 by omega, peqAdvF]
    rw [show a + 1 - 1 = a by omega] at h0
    have h1 : peqRetJ (keyLess key) l0 a (peqAdvI (keyLess key) l0 a (a + 1 - 1) (a + 1))
        (a + 1 - 1) ≤ a := by
      obtain ⟨hh, _, _, _⟩ := peqRetJ_spec key l0 a
        (peqAdvI (keyLess key) l0 a (a + 1 - 1) (a + 1)) (a + 1 - 1)
      omega
    rw [if_pos (by rw [show a + 1 - 1 = a by omega] at *; omega)]
    rw [show a + 1 - 1 = a by omega, h0]
    refine ⟨hop0, by omega, by omega, ?_, ?_⟩
    · intro k hk1 hk2
      rw [show k = a by omega, hpv]
    · intro k hk1 hk2
      omega
  · obtain ⟨hlp1, hlp2, hlp3, hlp4, hlp5⟩ := peqLoopA_spec key a b b l0 (a + 1) (b - 1)
      (by omega) (by omega) (by omega) (by omega) (by omega)
      (fun k h1 h2 => absurd h2 (by omega))
      (fun m h1 h2 => absurd h2 (by omega))
    have hfr : (peqLoopA (keyLess key) a l0 (a + 1) (b - 1) b).1.getD a default =
        l.getD pivot default := by
      rw [← hpv]
      exact hlp1.2 a (by omega)
    rw [show b - 1 + 1 = b by omega] at hlp1 hlp3
    refine ⟨rangeOp_trans hop0 (rangeOp_mono (by omega) (le_refl _) hlp1),
      by omega, by omega, ?_, ?_⟩
    · intro k hk1 hk2
      by_cases hka : k = a
      · rw [hka, hfr]
      · rw [← hfr]
        exact hlp4 k (by omega) hk2
    · intro k hk1 hk2
      rw [← hfr]
      exact hlp5 k hk1 hk2

/-! ### The partial insertion sort -/

theorem advanceF_spec (key : α → Rat) (l : List α) (b : Nat) :
    ∀ n i,
      i ≤ advanceF (keyLess key) l b i n ∧
      (∀ k, i ≤ k → k < advanceF (keyLess key) l b i n →
        key (l.getD k default) ≤ key (l.getD (k - 1) default)) ∧
      (i ≤ b → b - i ≤ n →
        advanceF (keyLess key) l b i n ≤ b ∧
        (advanceF (keyLess key) l b i n < b →
          key (l.getD (advanceF (keyLess key) l b i n - 1) default) <
            key (l.getD (advanceF (keyLess key) l b i n) default))) := by
  intro n
  induction n with
  | zero =>
    intro i
    rw [advanceF]
    refine ⟨le_refl _, fun k h1 h2 => absurd (Nat.lt_of_le_of_lt h1 h2) (by omega), ?_⟩
    intro h1 h2
    exact ⟨by omega, fun h3 => absurd h3 (by omega)⟩
  | succ n ih =>
    intro i
    rw [advanceF]
    split
    case isTrue hg =>
      obtain ⟨hib, hless⟩ := hg
      rw [keyLess_false_iff] at hless
      obtain ⟨ih1, ih2, ih3⟩ := ih (i + 1)
      refine ⟨by omega, ?_, ?_⟩
      · intro k h1 h2
        by_cases hk : k = i
        · subst hk
          exact hless
        · exact ih2 k (by omega) h2
      · intro h1 h2
        exact ih3 (by omega) (by omega)
    case isFalse hg =>
      refine ⟨le_refl _, fun k h1 h2 => absurd (Nat.lt_of_le_of_lt h1 h2) (by omega), ?_⟩
      intro h1 h2
      refine ⟨h1, ?_⟩
      intro h3
      have hless : keyLess key (l.getD i default) (l.getD (i - 1) default) = true := by
        cases hf : keyLess key (l.getD i default) (l.getD (i - 1) default) with
        | true => rfl
        | false => exact absurd ⟨h3, hf⟩ hg
      rw [keyLess_true_iff] at hless
      exact hless

theorem advanceWhileSorted_spec (key : α → Rat) (l : List α) (b i : Nat) (hib : i ≤ b) :
    i ≤ advanceWhileSorted (keyLess key) l b i ∧
    advanceWhileSorted (keyLess key) l b i ≤ b ∧
    (∀ k, i ≤ k → k < advanceWhileSorted (keyLess key) l b i →
      key (l.getD k default) ≤ key (l.getD (k - 1) default)) ∧
    (advanceWhileSorted (keyLess key) l b i < b →
      key (l.getD (advanceWhileSorted (keyLess key) l b i - 1) default) <
        key (l.getD (advanceWhileSorted (keyLess key) l b i) default)) := by
  rw [advanceWhileSorted]
  obtain ⟨h1, h2, h3⟩ := advanceF_spec key l b (b - i) i
  exact ⟨h1, (h3 hib (le_refl _)).1, h2, (h3 hib (le_refl _)).2⟩

theorem shiftLeftA_spec (key : α → Rat) (a w : Nat) :
    ∀ (c : Nat) (l : List α), a ≤ c → c < w → w ≤ l.length →
      (0 < a → key (l.getD c default) ≤ key (l.getD (a - 1) default)) →
      adjOn key l a c →
      adjOn key l (c + 1) w →
      (c + 1 < w → key (l.getD (c + 1) default) < key (l.getD c default)) →
      (a + 1 ≤ c → c + 1 < w →
        key (l.getD (c + 1) default) ≤ key (l.getD (c - 1) default)) →
      rangeOp l (shiftLeftA (keyLess key) l c) a w ∧
      adjOn key (shiftLeftA (keyLess key) l c) a w := by
  intro c
  induction c with
  | zero =>
    intro l hca hcw hwl w0 w1 w2 w3 w4
    rw [shiftLeftA]
    refine ⟨rangeOp_refl _ _ _, ?_⟩
    intro k h1 h2
    by_cases hk1 : k = 1
    · subst hk1
      simpa using le_of_lt (w3 (by omega))
    · exact w2 k (by omega) h2
  | succ j ih =>
    intro l hca hcw hwl w0 w1 w2 w3 w4
    rw [shiftLeftA]
    split
    case isTrue hless0 =>
      rw [keyLess_true_iff] at hless0
      have hcgta : a < j + 1 := by
        rcases Nat.lt_or_ge a (j + 1) with h | h
        · exact h
        · have ha : a = j + 1 := by omega
          by_cases ha0 : 0 < a
          · have h2 := w0 ha0
            rw [ha] at h2
            exact absurd hless0 (not_lt.2 (by simpa using h2))
          · omega
      have hlen : (aswap l (j + 1) j).length = l.length := aswap_length l (j + 1) j
      have g1 : (aswap l (j + 1) j).getD (j + 1) default = l.getD j default :=
        aswap_getD_fst l (j + 1) j (by omega) (by omega)
      have g2 : (aswap l (j + 1) j).getD j default = l.getD (j + 1) default :=
        aswap_getD_snd l (j + 1) j (by omega) (by omega)
      have gother : ∀ k, k ≠ j + 1 → k ≠ j →
          (aswap l (j + 1) j).getD k default = l.getD k default :=
        fun k h1 h2 => aswap_getD_other l (j + 1) j k h1 h2
      have hw0 : 0 < a → key ((aswap l (j + 1) j).getD j default) ≤
          key ((aswap l (j + 1) j).getD (a - 1) default) := by
        intro ha0
        rw [g2, gother (a - 1) (by omega) (by omega)]
        exact w0 ha0
      have hw1 : adjOn key (aswap l (j + 1) j) a j := by
        intro k h1 h2
        rw [gother k (by omega) (by omega), gother (k - 1) (by omega) (by omega)]
        exact w1 k h1 (by omega)
      have hw2 : adjOn key (aswap l (j + 1) j) (j + 1) w := by
        intro k h1 h2
        by_cases hk : k = j + 2
        · subst hk
          rw [gother (j + 2) (by omega) (by omega), show j + 2 - 1 = j + 1 by omega, g1]
          have h4 := w4 (by omega) (by omega)
          simpa using h4
        · rw [gother k (by omega) (by omega), gother (k - 1) (by omega) (by omega)]
          exact w2 k (by omega) h2
      have hw3 : j + 1 < w →
          key ((aswap l (j + 1) j).getD (j + 1) default) <
            key ((aswap l (j + 1) j).getD j default) := by
        intro _
        rw [g1, g2]
        exact hless0
      have hw4 : a + 1 ≤ j → j + 1 < w →
          key ((aswap l (j + 1) j).getD (j + 1) default) ≤
            key ((aswap l (j + 1) j).getD (j - 1) default) := by
        intro h1 _
        rw [g1, gother (j - 1) (by omega) (by omega)]
        exact w1 j (by omega) (by omega)
      have hrec := ih (aswap l (j + 1) j) (by omega) (by omega) (by omega)
        hw0 hw1 hw2 hw3 hw4
      exact ⟨rangeOp_trans
        (rangeOp_aswap l (by omega) (by omega) (by omega) (by omega)) hrec.1, hrec.2⟩
    case isFalse hg =>
      refine ⟨rangeOp_refl _ _ _, ?_⟩
      have hless : keyLess key (l.getD (j + 1) default) (l.getD j default) = false := by
        cases hf : keyLess key (l.getD (j + 1) default) (l.getD j default) with
        | false => rfl
        | true => exact absurd hf hg
      rw [keyLess_false_iff] at hless
      intro k h1 h2
      rcases lt_trichotomy k (j + 1) with hk | hk | hk
      · exact w1 k h1 hk
      · subst hk
        simpa using hless
      · by_cases hk2 : k = j + 2
        · subst hk2
          have h3 := w3 (by omega)
          rw [show j + 2 - 1 = j + 1 by omega]
          exact le_of_lt (by simpa using h3)
        · exact w2 k (by omega) h2

theorem shiftRightF_frame (less : α → α → Bool) (b lo : Nat) :
    ∀ (n : Nat) (l : List α) (j : Nat), lo + 1 ≤ j →
      rangeOp l (shiftRightF less b l j n) lo b := by
  intro n
  induction n with
  | zero =>
    intro l j hj
    rw [shiftRightF]
    exact rangeOp_refl _ _ _
  | succ n ih =>
    intro l j hj
    rw [shiftRightF]
    split
    case isTrue hg =>
      exact rangeOp_trans
        (rangeOp_aswap l (by omega) (by omega) (by omega) (by omega)) (ih _ _ (by omega))
    case isFalse hg =>
      exact rangeOp_refl _ _ _

theorem shiftRightA_frame (less : α → α → Bool) (b lo : Nat) (l : List α) (j : Nat)
    (hj : lo + 1 ≤ j) : rangeOp l (shiftRightA less b l j) lo b :=
  shiftRightF_frame less b lo (b - j) l j hj

theorem almostSortLoop_spec (key : α → Rat) (a b : Nat) :
    ∀ (steps : Nat) (l : List α) (i : Nat), b ≤ l.length → a < i → i ≤ b →
      (0 < a → allOn (fun x => key x ≤ key (l.getD (a - 1) default)) l a b) →
      adjOn key l a i →
      rangeOp l (almostSortLoop (keyLess key) a b l i steps).1 a b ∧
      ((almostSortLoop (keyLess key) a b l i steps).2 = true →
        adjOn key (almostSortLoop (keyLess key) a b l i steps).1 a b) := by
  intro steps
  induction steps with
  | zero =>
    intro l i hbl hai hib hpred hsort
    rw [almostSortLoop]
    exact ⟨rangeOp_refl _ _ _, fun h => (Bool.false_ne_true h).elim⟩
  | succ steps ih =>
    intro l i hbl hai hib hpred hsort
    obtain ⟨hv1, hv2, hv3, hv4⟩ := advanceWhileSorted_spec key l b i hib
    have hadj1 : adjOn key l a (advanceWhileSorted (keyLess key) l b i) := by
      intro k h1 h2
      by_cases hk : k < i
      · exact hsort k h1 hk
      · exact hv3 k (by omega) h2
    rw [almostSortLoop]
    split
    case isTrue hend =>
      refine ⟨rangeOp_refl _ _ _, fun _ => ?_⟩
      rw [← hend]
      exact hadj1
    case isFalse hend =>
      split
    
      case isTrue hshort =>
        exact ⟨rangeOp_refl _ _ _, fun h => (Bool.false_ne_true h).elim⟩
      case isFalse hshort =>
        have hi1b : advanceWhileSorted (keyLess key) l b i < b := by omega
        have hi1a : a < advanceWhileSorted (keyLess key) l b i := by omega
        have hdesc := hv4 hi1b
        have hlen1 : (aswap l (advanceWhileSorted (keyLess key) l b i)
            (advanceWhileSorted (keyLess key) l b i - 1)).length = l.length :=
          aswap_length _ _ _
        have g1 : (aswap l (advanceWhileSorted (keyLess key) l b i)
            (advanceWhileSorted (keyLess key) l b i - 1)).getD
              (advanceWhileSorted (keyLess key) l b i) default =
            l.getD (advanceWhileSorted (keyLess key) l b i - 1) default :=
          aswap_getD_fst l _ _ (by omega) (by omega)
        have g2 : (aswap l (advanceWhileSorted (keyLess key) l b i)
            (advanceWhileSorted (keyLess key) l b i - 1)).getD
              (advanceWhileSorted (keyLess key) l b i - 1) default =
            l.getD (advanceWhileSorted (keyLess key) l b i) default :=
          aswap_getD_snd l _ _ (by omega) (by omega)
        have gother : ∀ k, k ≠ advanceWhileSorted (keyLess key) l b i →
            k ≠ advanceWhileSorted (keyLess key) l b i - 1 →
            (aswap l (advanceWhileSorted (keyLess key) l b i)
              (advanceWhileSorted (keyLess key) l b i - 1)).getD k default =
            l.getD k default :=
          fun k h1 h2 => aswap_getD_other l _ _ k h1 h2
        have hswapop : rangeOp l (aswap l (advanceWhileSorted (keyLess key) l b i)
            (advanceWhileSorted (keyLess key) l b i - 1)) a b :=
          rangeOp_aswap l (by omega) (by omega) (by omega) (by omega)
        have h2spec : rangeOp (aswap l (advanceWhileSorted (keyLess key) l b i)
              (advanceWhileSorted (keyLess key) l b i - 1))
            (if advanceWhileSorted (keyLess key) l b i - a ≥ 2 then
              shiftLeftA (keyLess key)
                (aswap l (advanceWhileSorted (keyLess key) l b i)
                  (advanceWhileSorted (keyLess key) l b i - 1))
                (advanceWhileSorted (keyLess key) l b i - 1)
            else aswap l (advanceWhileSorted (keyLess key) l b i)
              (advanceWhileSorted (keyLess key) l b i - 1)) a
            (advanceWhileSorted (keyLess key) l b i + 1) ∧
            adjOn key
            (if advanceWhileSorted (keyLess key) l b i - a ≥ 2 then
              shiftLeftA (keyLess key)
                (aswap l (advanceWhileSorted (keyLess key) l b i)
                  (advanceWhileSorted (keyLess key) l b i - 1))
                (advanceWhileSorted (keyLess key) l b i - 1)
            else aswap l (advanceWhileSorted (keyLess key) l b i)
              (advanceWhileSorted (keyLess key) l b i - 1)) a
            (advanceWhileSorted (keyLess key) l b i) := by
          split
          case isTrue hge =>
            have hres := shiftLeftA_spec key a
              (advanceWhileSorted (keyLess key) l b i + 1)
              (advanceWhileSorted (keyLess key) l b i - 1)
              (aswap l (advanceWhileSorted (keyLess key) l b i)
                (advanceWhileSorted (keyLess key) l b i - 1))
              (by omega) (by omega) (by omega)
              (by
                intro ha0
                rw [g2, gother (a - 1) (by omega) (by omega)]
                exact allOn_getD (hpred ha0) hbl (by omega) (by omega))
              (by
                intro k h1 h2
                rw [gother k (by omega) (by omega), gother (k - 1) (by omega) (by omega)]
                exact hadj1 k h1 (by omega))
              (by
                intro k h1 h2
                omega)
              (by
                intro _
                rw [show advanceWhileSorted (keyLess key) l b i - 1 + 1 =
                  advanceWhileSorted (keyLess key) l b i by omega, g1, g2]
                exact hdesc)
              (by
                intro h1 _
                rw [show advanceWhileSorted (keyLess key) l b i - 1 + 1 =
                  advanceWhileSorted (keyLess key) l b i by omega, g1,
                  gother (advanceWhileSorted (keyLess key) l b i - 1 - 1)
                    (by omega) (by omega)]
                exact hadj1 (advanceWhileSorted (keyLess key) l b i - 1)
                  (by omega) (by omega))
            exact ⟨hres.1,
              adjOn_mono (le_refl _) (by omega) hres.2⟩
          case isFalse hge =>
            refine ⟨rangeOp_refl _ _ _, ?_⟩
            intro k h1 h2
            omega
        obtain ⟨hop2, hadj2⟩ := h2spec
        have hlen2 : (if advanceWhileSorted (keyLess key) l b i - a ≥ 2 then
            shiftLeftA (keyLess key)
              (aswap l (advanceWhileSorted (keyLess key) l b i)
                (advanceWhileSorted (keyLess key) l b i - 1))
              (advanceWhileSorted (keyLess key) l b i - 1)
          else aswap l (advanceWhileSorted (keyLess key) l b i)
            (advanceWhileSorted (keyLess key) l b i - 1)).length = l.length := by
          rw [rangeOp_length hop2, hlen1]
        have hop12 : rangeOp l
            (if advanceWhileSorted (keyLess key) l b i - a ≥ 2 then
              shiftLeftA (keyLess key)
                (aswap l (advanceWhileSorted (keyLess key) l b i)
                  (advanceWhileSorted (keyLess key) l b i - 1))
                (advanceWhileSorted (keyLess key) l b i - 1)
            else aswap l (advanceWhileSorted (keyLess key) l b i)
              (advanceWhileSorted (keyLess key) l b i - 1)) a b :=
          rangeOp_trans hswapop (rangeOp_mono (le_refl _) (by omega) hop2)
        have h3spec : rangeOp l
            (if b - advanceWhileSorted (keyLess key) l b i ≥ 2 then
              shiftRightA (keyLess key) b
                (if advanceWhileSorted (keyLess key) l b i - a ≥ 2 then
                  shiftLeftA (keyLess key)
                    (aswap l (advanceWhileSorted (keyLess key) l b i)
                      (advanceWhileSorted (keyLess key) l b i - 1))
                    (advanceWhileSorted (keyLess key) l b i - 1)
                else aswap l (advanceWhileSorted (keyLess key) l b i)
                  (advanceWhileSorted (keyLess key) l b i - 1))
                (advanceWhileSorted (keyLess key) l b i + 1)
            else
              (if advanceWhileSorted (keyLess key) l b i - a ≥ 2 then
                shiftLeftA (keyLess key)
                  (aswap l (advanceWhileSorted (keyLess key) l b i)
                    (advanceWhileSorted (keyLess key) l b i - 1))
                  (advanceWhileSorted (keyLess key) l b i - 1)
              else aswap l (advanceWhileSorted (keyLess key) l b i)
                (advanceWhileSorted (keyLess key) l b i - 1))) a b ∧
            adjOn key
            (if b - advanceWhileSorted (keyLess key) l b i ≥ 2 then
              shiftRightA (keyLess key) b
                (if advanceWhileSorted (keyLess key) l b i - a ≥ 2 then
                  shiftLeftA (keyLess key)
                    (aswap l (advanceWhileSorted (keyLess key) l b i)
                      (advanceWhileSorted (keyLess key) l b i - 1))
                    (advanceWhileSorted (keyLess key) l b i - 1)
                else aswap l (advanceWhileSorted (keyLess key) l b i)
                  (advanceWhileSorted (keyLess key) l b i - 1))
                (advanceWhileSorted (keyLess key) l b i + 1)
            else
              (if advanceWhileSorted (keyLess key) l b i - a ≥ 2 then
                shiftLeftA (keyLess key)
                  (aswap l (advanceWhileSorted (keyLess key) l b i)
                    (advanceWhileSorted (keyLess key) l b i - 1))
                  (advanceWhileSorted (keyLess key) l b i - 1)
              else aswap l (advanceWhileSorted (keyLess key) l b i)
                (advanceWhileSorted (keyLess key) l b i - 1))) a
            (advanceWhileSorted (keyLess key) l b i) := by
          split
          case isTrue hge =>
            have hsr := shiftRightA_frame (keyLess key) b
              (advanceWhileSorted (keyLess key) l b i)
              (if advanceWhileSorted (keyLess key) l b i - a ≥ 2 then
                  shiftLeftA (keyLess key)
                    (aswap l (advanceWhileSorted (keyLess key) l b i)
                      (advanceWhileSorted (keyLess key) l b i - 1))
                    (advanceWhileSorted (keyLess key) l b i - 1)
                else aswap l (advanceWhileSorted (keyLess key) l b i)
                  (advanceWhileSorted (keyLess key) l b i - 1))
              (advanceWhileSorted (keyLess key) l b i + 1) (by omega)
            refine ⟨rangeOp_trans hop12 (rangeOp_mono (by omega) (le_refl _) hsr), ?_⟩
            intro k h1 h2
            rw [hsr.2 k (by omega), hsr.2 (k - 1) (by omega)]
            exact hadj2 k h1 h2
          case isFalse hge =>
            exact ⟨hop12, hadj2⟩
        obtain ⟨hop3, hadj3⟩ := h3spec
        have hrec := ih _ (advanceWhileSorted (keyLess key) l b i)
          (by rw [rangeOp_length hop3]; exact hbl) hi1a (by omega)
          (by
            intro ha0
            have hv : (if b - advanceWhileSorted (keyLess key) l b i ≥ 2 then
                shiftRightA (keyLess key) b
                  (if advanceWhileSorted (keyLess key) l b i - a ≥ 2 then
                    shiftLeftA (keyLess key)
                      (aswap l (advanceWhileSorted (keyLess key) l b i)
                        (advanceWhileSorted (keyLess key) l b i - 1))
                      (advanceWhileSorted (keyLess key) l b i - 1)
                  else aswap l (advanceWhileSorted (keyLess key) l b i)
                    (advanceWhileSorted (keyLess key) l b i - 1))
                  (advanceWhileSorted (keyLess key) l b i + 1)
              else
                (if advanceWhileSorted (keyLess key) l b i - a ≥ 2 then
                  shiftLeftA (keyLess key)
                    (aswap l (advanceWhileSorted (keyLess key) l b i)
                      (advanceWhileSorted (keyLess key) l b i - 1))
                    (advanceWhileSorted (keyLess key) l b i - 1)
                else aswap l (advanceWhileSorted (keyLess key) l b i)
                  (advanceWhileSorted (keyLess key) l b i - 1))).getD (a - 1) default =
                l.getD (a - 1) default :=
              hop3.2 (a - 1) (by omega)
            rw [hv]
            exact allOn_rangeOp hop3 (by omega) hbl (hpred ha0))
          hadj3
        exact ⟨rangeOp_trans hop3 hrec.1, hrec.2⟩

/-- When the partial insertion sort reports success the range is sorted;
either way it only rearranges the range. -/
theorem almostSortA_spec (key : α → Rat) (a b : Nat) (l : List α)
    (hbl : b ≤ l.length) (hab : a < b)
    (hpred : 0 < a → allOn (fun x => key x ≤ key (l.getD (a - 1) default)) l a b) :
    rangeOp l (almostSortA (keyLess key) a b l).1 a b ∧
    ((almostSortA (keyLess key) a b l).2 = true →
      adjOn key (almostSortA (keyLess key) a b l).1 a b) := by
  rw [almostSortA]
  exact almostSortLoop_spec key a b 5 l (a + 1) hbl (by omega) (by omega) hpred
    (fun k h1 h2 => absurd h1 (by omega))

/-! ### Pattern breaking, pivot choice and the loop prologue -/

theorem reverseRangeF_frame (lo w : Nat) :
    ∀ (n : Nat) (l : List α) (i j : Nat), lo ≤ i → j < w →
      rangeOp l (reverseRangeF l i j n) lo w := by
  intro n
  induction n with
  | zero =>
    intro l i j h1 h2
    rw [reverseRangeF]
    exact rangeOp_refl _ _ _
  | succ n ih =>
    intro l i j h1 h2
    rw [reverseRangeF]
    split
    case isTrue hg =>
      exact rangeOp_trans
        (rangeOp_aswap l (by omega) (by omega) (by omega) (by omega))
        (ih _ _ _ (by omega) (by omega))
    case isFalse hg =>
      exact rangeOp_refl _ _ _

theorem reverseRangeA_frame (l : List α) (i j lo w : Nat) (h1 : lo ≤ i) (h2 : j < w) :
    rangeOp l (reverseRangeA l i j) lo w :=
  reverseRangeF_frame lo w (j - i) l i j h1 h2

theorem bitsLen_pow_le (n : Nat) (h : 1 ≤ n) : 1 <<< bitsLen n ≤ 2 * n := by
  rw [bitsLen, if_neg (by omega), Nat.shiftLeft_eq, one_mul, pow_succ]
  have h2 := Nat.log2_self_le (by omega : n ≠ 0)
  omega

theorem bpStep_frame (l : List α) (a b length r i : Nat)
    (hlen : length = b - a) (h8 : 8 ≤ length) (hi : i ≤ 2) :
    rangeOp l (bpStep l (a + length / 4 * 2 - 1) a length (1 <<< bitsLen length) r i).1
      a b := by
  have hmod := bitsLen_pow_le length (by omega)
  simp only [bpStep]
  have hand := Nat.and_le_right (n := xorshiftNext r) (m := 1 <<< bitsLen length - 1)
  refine rangeOp_aswap l (by omega) (by omega) (by omega) ?_
  split
  · omega
  · omega

theorem breakPatternsA_frame (l : List α) (a b : Nat) :
    rangeOp l (breakPatternsA l a b) a b := by
  simp only [breakPatternsA]
  split
  case isTrue h8 =>
    exact rangeOp_trans (bpStep_frame l a b (b - a) (b - a) 0 rfl h8 (by omega))
      (rangeOp_trans (bpStep_frame _ a b (b - a) _ 1 rfl h8 (by omega))
        (bpStep_frame _ a b (b - a) _ 2 rfl h8 (by omega)))
  case isFalse =>
    exact rangeOp_refl _ _ _

theorem order2A_fst_mem (less : α → α → Bool) (l : List α) (x y s : Nat) :
    (order2A less l x y s).1 = x ∨ (order2A less l x y s).1 = y := by
  rw [order2A]
  split
  · exact Or.inr rfl
  · exact Or.inl rfl

theorem order2A_snd_mem (less : α → α → Bool) (l : List α) (x y s : Nat) :
    (order2A less l x y s).2.1 = x ∨ (order2A less l x y s).2.1 = y := by
  rw [order2A]
  split
  · exact Or.inl rfl
  · exact Or.inr rfl

theorem medianA_mem (less : α → α → Bool) (l : List α) (x y z s : Nat) :
    (medianA less l x y z s).1 = x ∨ (medianA less l x y z s).1 = y ∨
      (medianA less l x y z s).1 = z := by
  simp only [medianA]
  rcases order2A_snd_mem less l
    (order2A less l x y s).1 (order2A less l (order2A less l x y s).2.1 z
      (order2A less l x y s).2.2).1 (order2A less l (order2A less l x y s).2.1 z
      (order2A less l x y s).2.2).2.2 with h1 | h1 <;> rw [h1]
  · rcases order2A_fst_mem less l x y s with h2 | h2 <;> rw [h2]
    · exact Or.inl rfl
    · exact Or.inr (Or.inl rfl)
  · rcases order2A_fst_mem less l (order2A less l x y s).2.1 z
      (order2A less l x y s).2.2 with h2 | h2 <;> rw [h2]
    · rcases order2A_snd_mem less l x y s with h3 | h3 <;> rw [h3]
      · exact Or.inl rfl
      · exact Or.inr (Or.inl rfl)
    · exact Or.inr (Or.inr rfl)

theorem medianAdjacentA_mem (less : α → α → Bool) (l : List α) (t s : Nat) :
    (medianAdjacentA less l t s).1 = t - 1 ∨ (medianAdjacentA less l t s).1 = t ∨
      (medianAdjacentA less l t s).1 = t + 1 := by
  rw [medianAdjacentA]
  exact medianA_mem less l (t - 1) t (t + 1) s

theorem choosePivotA_range (less : α → α → Bool) (l : List α) (a b : Nat)
    (h2 : 2 ≤ b - a) :
    a ≤ (choosePivotA less l a b).1 ∧ (choosePivotA less l a b).1 < b := by
  simp only [choosePivotA]
  split
  case isTrue h8 =>
    split
    case isTrue h50 =>
      rcases medianA_mem less l
        (medianAdjacentA less l (a + (b - a) / 4 * 1) 0).1
        (medianAdjacentA less l (a + (b - a) / 4 * 2)
          (medianAdjacentA less l (a + (b - a) / 4 * 1) 0).2).1
        (medianAdjacentA less l (a + (b - a) / 4 * 3)
          (medianAdjacentA less l (a + (b - a) / 4 * 2)
            (medianAdjacentA less l (a + (b - a) / 4 * 1) 0).2).2).1
        (medianAdjacentA less l (a + (b - a) / 4 * 3)
          (medianAdjacentA less l (a + (b - a) / 4 * 2)
            (medianAdjacentA less l (a + (b - a) / 4 * 1) 0).2).2).2
        with h | h | h <;> rw [h]
      · rcases medianAdjacentA_mem less l (a + (b - a) / 4 * 1) 0 with h3 | h3 | h3 <;>
          rw [h3] <;> omega
      · rcases medianAdjacentA_mem less l (a + (b - a) / 4 * 2)
          (medianAdjacentA less l (a + (b - a) / 4 * 1) 0).2 with h3 | h3 | h3 <;>
          rw [h3] <;> omega
      · rcases medianAdjacentA_mem less l (a + (b - a) / 4 * 3)
          (medianAdjacentA less l (a + (b - a) / 4 * 2)
            (medianAdjacentA less l (a + (b - a) / 4 * 1) 0).2).2 with h3 | h3 | h3 <;>
          rw [h3] <;> omega
    case isFalse h50 =>
      rcases medianA_mem less l (a + (b - a) / 4 * 1) (a + (b - a) / 4 * 2)
        (a + (b - a) / 4 * 3) 0 with h | h | h <;> rw [h] <;> omega
  case isFalse h8 =>
    omega

theorem pdqBreak_frame (l : List α) (a b limit : Nat) (wb : Bool) :
    rangeOp l (pdqBreak l a b limit wb).1 a b := by
  rw [pdqBreak]
  split
  · exact breakPatternsA_frame l a b
  · exact rangeOp_refl _ _ _

theorem pdqPivot_spec (less : α → α → Bool) (l1 : List α) (a b : Nat) (h2 : 2 ≤ b - a) :
    rangeOp l1 (pdqPivot less l1 a b).1 a b ∧
    a ≤ (pdqPivot less l1 a b).2.1 ∧ (pdqPivot less l1 a b).2.1 < b := by
  have hcp := choosePivotA_range less l1 a b h2
  rw [pdqPivot]
  split
  case isTrue hdec =>
    dsimp only
    exact ⟨reverseRangeA_frame l1 a (b - 1) a b (le_refl _) (by omega),
      by omega, by omega⟩
  case isFalse hdec =>
    exact ⟨rangeOp_refl _ _ _, hcp.1, hcp.2⟩

theorem pdqPrologue_spec (less : α → α → Bool) (l : List α) (a b limit : Nat) (wb : Bool)
    (h2 : 2 ≤ b - a) :
    rangeOp l (pdqPrologue less l a b limit wb).1 a b ∧
    a ≤ (pdqPrologue less l a b limit wb).2.2.1 ∧
    (pdqPrologue less l a b limit wb).2.2.1 < b := by
  have hb := pdqBreak_frame l a b limit wb
  have hp := pdqPivot_spec less (pdqBreak l a b limit wb).1 a b h2
  rw [pdqPrologue]
  exact ⟨rangeOp_trans hb hp.1, hp.2.1, hp.2.2⟩

/-! ### The main pdqsort recursion -/

theorem pdqsortA_spec (key : α → Rat) :
    ∀ (fuel : Nat) (l : List α) (a b limit : Nat) (wb wp : Bool),
      b ≤ l.length → b - a ≤ fuel →
      (0 < a → allOn (fun x => key x ≤ key (l.getD (a - 1) default)) l a b) →
      rangeOp l (pdqsortA (keyLess key) l a b limit wb wp fuel) a b ∧
      (seg (pdqsortA (keyLess key) l a b limit wb wp fuel) a b).Pairwise (keyPW key) := by
  intro fuel
  induction fuel with
  | zero =>
    intro l a b limit wb wp hbl hfuel hpred
    rw [pdqsortA]
    refine ⟨rangeOp_refl _ _ _, ?_⟩
    rw [seg_nil _ _ _ (by omega)]
    exact List.Pairwise.nil
  | succ fuel ih =>
    intro l a b limit wb wp hbl hfuel hpred
    simp only [pdqsortA]
    split
    case isTrue h12 =>
      obtain ⟨hop, hadj⟩ := insertionSortA_spec key a b l hbl
      exact ⟨hop, adjOn_pairwise (by rw [rangeOp_length hop]; exact hbl) hadj⟩
    case isFalse h12 =>
      split
      case isTrue hlim =>
        obtain ⟨hop, hadj⟩ := heapSortA_spec key a b l hbl
        exact ⟨hop, adjOn_pairwise (by rw [rangeOp_length hop]; exact hbl) hadj⟩
      case isFalse hlim =>
        have h2ab : 2 ≤ b - a := by omega
        obtain ⟨hproOp, hpv1, hpv2⟩ := pdqPrologue_spec (keyLess key) l a b limit wb h2ab
        set pro := pdqPrologue (keyLess key) l a b limit wb with hprodef
        have hproLen : pro.1.length = l.length := rangeOp_length hproOp
        have hprSpec : rangeOp pro.1
            (if wb = true ∧ wp = true ∧ pro.2.2.2 = SortedHint.increasing then
              almostSortA (keyLess key) a b pro.1 else (pro.1, false)).1 a b ∧
            ((if wb = true ∧ wp = true ∧ pro.2.2.2 = SortedHint.increasing then
              almostSortA (keyLess key) a b pro.1 else (pro.1, false)).2 = true →
              adjOn key (if wb = true ∧ wp = true ∧ pro.2.2.2 = SortedHint.increasing then
                almostSortA (keyLess key) a b pro.1 else (pro.1, false)).1 a b) := by
          split
          case isTrue hQ =>
            refine almostSortA_spec key a b pro.1 (by rw [hproLen]; exact hbl)
              (by omega) ?_
            intro ha0
            have he : pro.1.getD (a - 1) default = l.getD (a - 1) default :=
              hproOp.2 (a - 1) (Or.inl (by omega))
            rw [he]
            exact allOn_rangeOp hproOp (by omega) hbl (hpred ha0)
          case isFalse hQ =>
            exact ⟨rangeOp_refl _ _ _, fun h => (Bool.false_ne_true h).elim⟩
        set pr := (if wb = true ∧ wp = true ∧ pro.2.2.2 = SortedHint.increasing then
          almostSortA (keyLess key) a b pro.1 else (pro.1, false)) with hprdef
        obtain ⟨hprOp, hprSort⟩ := hprSpec
        have hOpLPr : rangeOp l pr.1 a b := rangeOp_trans hproOp hprOp
        have hprLen : pr.1.length = l.length := rangeOp_length hOpLPr
        have hPredPr : 0 < a →
            allOn (fun x => key x ≤ key (pr.1.getD (a - 1) default)) pr.1 a b := by
          intro ha0
          have he : pr.1.getD (a - 1) default = l.getD (a - 1) default :=
            hOpLPr.2 (a - 1) (Or.inl (by omega))
          rw [he]
          exact allOn_rangeOp hOpLPr (by omega) hbl (hpred ha0)
        split
        case isTrue hflag =>
          exact ⟨hOpLPr, adjOn_pairwise (by rw [hprLen]; exact hbl) (hprSort hflag)⟩
        case isFalse hflag =>
          split
          case isTrue hcond =>
            obtain ⟨ha0, hcmp⟩ := hcond
            rw [keyLess_false_iff] at hcmp
            obtain ⟨hpeOp, hm1, hm2, hpeL, hpeR⟩ :=
              partitionEqualA_spec key pr.1 a b pro.2.2.1 (by omega)
                (by rw [hprLen]; exact hbl) hpv1 hpv2
            set pe := partitionEqualA (keyLess key) pr.1 a b pro.2.2.1 with hpedef
            have hpeLen : pe.1.length = l.length := by
              rw [rangeOp_length hpeOp, hprLen]
            have hub : allOn (fun x => key x ≤ key (pr.1.getD pro.2.2.1 default))
                pr.1 a b :=
              allOn_imp (fun x hx => le_trans hx hcmp) (hPredPr ha0)
            have hubPe : allOn (fun x => key x ≤ key (pr.1.getD pro.2.2.1 default))
                pe.1 a b :=
              allOn_rangeOp hpeOp (by omega) (by rw [hprLen]; exact hbl) hub
            have hEq : ∀ k, a ≤ k → k < pe.2 →
                key (pe.1.getD k default) = key (pr.1.getD pro.2.2.1 default) := by
              intro k h1 h2
              exact le_antisymm
                (allOn_getD hubPe (by rw [hpeLen]; exact hbl) h1 (by omega))
                (hpeL k h1 h2)
            have hrec := ih pe.1 pe.2 b pro.2.1 wb wp (by rw [hpeLen]; exact hbl)
              (by omega)
              (by
                intro _
                refine allOn_of_getD (by rw [hpeLen]; exact hbl) ?_
                intro k h1 h2
                have he1 : key (pe.1.getD (pe.2 - 1) default) =
                    key (pr.1.getD pro.2.2.1 default) :=
                  hEq (pe.2 - 1) (by omega) (by omega)
                rw [he1]
                exact le_of_lt (hpeR k (by omega) h2))
            obtain ⟨hrecOp, hrecSort⟩ := hrec
            constructor
            · exact rangeOp_trans hOpLPr (rangeOp_trans hpeOp
                (rangeOp_mono (by omega) (le_refl _) hrecOp))
            · rw [seg_split _ a pe.2 b (by omega) (by omega), List.pairwise_append]
              have hsegeq : seg (pdqsortA (keyLess key) pe.1 pe.2 b pro.2.1 wb wp fuel)
                  a pe.2 = seg pe.1 a pe.2 :=
                seg_eq_of_eqOn (rangeOp_length hrecOp)
                  (by rw [hpeLen]; omega)
                  (fun k _ h2 => hrecOp.2 k (Or.inl h2))
              refine ⟨?_, hrecSort, ?_⟩
              · rw [hsegeq, seg_pairwise_iff _ _ _ (by rw [hpeLen]; omega)]
                intro i2 j2 h1 h2 h3
                exact le_of_eq (by rw [hEq j2 (by omega) h3, hEq i2 (by omega) (by omega)])
              · intro x hx y hy
                rw [hsegeq] at hx
                obtain ⟨k, hk1, hk2, rfl⟩ :=
                  (mem_seg pe.1 a pe.2 (by rw [hpeLen]; omega) x).1 hx
                have hy2 := (rangeOp_seg_perm hrecOp (by omega)
                  (by rw [hpeLen]; exact hbl)).subset hy
                obtain ⟨k2, hk21, hk22, rfl⟩ :=
                  (mem_seg pe.1 pe.2 b (by rw [hpeLen]; exact hbl) y).1 hy2
                show key (pe.1.getD k2 default) ≤ key (pe.1.getD k default)
                rw [hEq k hk1 hk2]
                exact le_of_lt (hpeR k2 hk21 hk22)
          case isFalse hcond =>
            obtain ⟨hptOp, hmid1, hmid2, hpiv, hptL, hptR⟩ :=
              partitionA_spec key pr.1 a b pro.2.2.1 (by omega)
                (by rw [hprLen]; exact hbl) hpv1 hpv2
            set pt := partitionA (keyLess key) pr.1 a b pro.2.2.1 with hptdef
            have hptLen : pt.1.length = l.length := by
              rw [rangeOp_length hptOp, hprLen]
            have hOpLPt : rangeOp l pt.1 a b := rangeOp_trans hOpLPr hptOp
            split
            case isTrue hsz =>
              have hrec1 := ih pt.1 a pt.2.1 pro.2.1 true true
                (by rw [hptLen]; omega) (by omega)
                (by
                  intro ha0
                  have he : pt.1.getD (a - 1) default = l.getD (a - 1) default :=
                    hOpLPt.2 (a - 1) (Or.inl (by omega))
                  rw [he]
                  exact allOn_mono (le_refl _) (by omega) (by rw [hptLen]; exact hbl)
                    (allOn_rangeOp hOpLPt (by omega) hbl (hpred ha0)))
              obtain ⟨hop5, hsort5⟩ := hrec1
              set l5 := pdqsortA (keyLess key) pt.1 a pt.2.1 pro.2.1 true true fuel
                with hl5def
              have hlen5 : l5.length = l.length := by
                rw [rangeOp_length hop5, hptLen]
              have hmidval : l5.getD pt.2.1 default = pr.1.getD pro.2.2.1 default := by
                rw [hop5.2 pt.2.1 (Or.inr (le_refl _)), hpiv]
              have hfr5 : ∀ k, pt.2.1 ≤ k → l5.getD k default = pt.1.getD k default :=
                fun k hk => hop5.2 k (Or.inr hk)
              have hrec2 := ih l5 (pt.2.1 + 1) b pro.2.1
                (decide (min (pt.2.1 - a) (b - pt.2.1) ≥ (b - a) / 8)) pt.2.2
                (by rw [hlen5]; exact hbl) (by omega)
                (by
                  intro _
                  refine allOn_of_getD (by rw [hlen5]; exact hbl) ?_
                  intro k h1 h2
                  have he1 : l5.getD (pt.2.1 + 1 - 1) default =
                      pr.1.getD pro.2.2.1 default := by
                    rw [show pt.2.1 + 1 - 1 = pt.2.1 by omega, hmidval]
                  rw [he1, hfr5 k (by omega)]
                  exact hptR k (by omega) h2)
              obtain ⟨hop6, hsort6⟩ := hrec2
              have hres : rangeOp l
                  (pdqsortA (keyLess key) l5 (pt.2.1 + 1) b pro.2.1
                    (decide (min (pt.2.1 - a) (b - pt.2.1) ≥ (b - a) / 8)) pt.2.2 fuel)
                  a b :=
                rangeOp_trans hOpLPt (rangeOp_trans
                  (rangeOp_mono (le_refl _) (by omega) hop5)
                  (rangeOp_mono (by omega) (le_refl _) hop6))
              refine ⟨hres, ?_⟩
              have hlenres : (pdqsortA (keyLess key) l5 (pt.2.1 + 1) b pro.2.1
                  (decide (min (pt.2.1 - a) (b - pt.2.1) ≥ (b - a) / 8)) pt.2.2
                  fuel).length = l.length := rangeOp_length hres
              have hfr6 : ∀ k, k < pt.2.1 + 1 →
                  (pdqsortA (keyLess key) l5 (pt.2.1 + 1) b pro.2.1
                    (decide (min (pt.2.1 - a) (b - pt.2.1) ≥ (b - a) / 8)) pt.2.2
                    fuel).getD k default = l5.getD k default :=
                fun k hk => hop6.2 k (Or.inl hk)
              rw [seg_split _ a (pt.2.1 + 1) b (by omega) (by omega),
                seg_split _ a pt.2.1 (pt.2.1 + 1) (by omega) (by omega),
                List.pairwise_append, List.pairwise_append]
              have hsegL : seg (pdqsortA (keyLess key) l5 (pt.2.1 + 1) b pro.2.1
                  (decide (min (pt.2.1 - a) (b - pt.2.1) ≥ (b - a) / 8)) pt.2.2 fuel)
                  a pt.2.1 = seg l5 a pt.2.1 :=
                seg_eq_of_eqOn (rangeOp_length hop6) (by rw [hlen5]; omega)
                  (fun k _ h2 => hfr6 k (by omega))
              have hsegM : seg (pdqsortA (keyLess key) l5 (pt.2.1 + 1) b pro.2.1
                  (decide (min (pt.2.1 - a) (b - pt.2.1) ≥ (b - a) / 8)) pt.2.2 fuel)
                  pt.2.1 (pt.2.1 + 1) = [pr.1.getD pro.2.2.1 default] := by
                rw [seg_singleton _ _ (by rw [hlenres]; omega), hfr6 pt.2.1 (by omega),
                  hmidval]
              have hAx : ∀ x, x ∈ seg (pdqsortA (keyLess key) l5 (pt.2.1 + 1) b pro.2.1
                  (decide (min (pt.2.1 - a) (b - pt.2.1) ≥ (b - a) / 8)) pt.2.2 fuel)
                  a pt.2.1 → key (pr.1.getD pro.2.2.1 default) < key x := by
                intro x hx
                rw [hsegL] at hx
                have hx2 := (rangeOp_seg_perm hop5 (by omega)
                  (by rw [hptLen]; omega)).subset hx
                obtain ⟨k, hk1, hk2, rfl⟩ :=
                  (mem_seg pt.1 a pt.2.1 (by rw [hptLen]; omega) x).1 hx2
                exact hptL k hk1 hk2
              have hCx : ∀ y, y ∈ seg (pdqsortA (keyLess key) l5 (pt.2.1 + 1) b pro.2.1
                  (decide (min (pt.2.1 - a) (b - pt.2.1) ≥ (b - a) / 8)) pt.2.2 fuel)
                  (pt.2.1 + 1) b → key y ≤ key (pr.1.getD pro.2.2.1 default) := by
                intro y hy
                have hy2 := (rangeOp_seg_perm hop6 (by omega)
                  (by rw [hlen5]; exact hbl)).subset hy
                obtain ⟨k, hk1, hk2, rfl⟩ :=
                  (mem_seg l5 (pt.2.1 + 1) b (by rw [hlen5]; exact hbl) y).1 hy2
                rw [hfr5 k (by omega)]
                exact hptR k (by omega) hk2
              refine ⟨⟨?_, ?_, ?_⟩, hsort6, ?_⟩
              · rw [hsegL]
                exact hsort5
              · rw [hsegM]
                simp
              · intro x hx y hy
                rw [hsegM] at hy
                rw [List.mem_singleton] at hy
                subst hy
                exact le_of_lt (hAx x hx)
              · intro x hx y hy
                rcases List.mem_append.1 hx with hx2 | hx2
                · exact le_trans (hCx y hy) (le_of_lt (hAx x hx2))
                · rw [hsegM] at hx2
                  rw [List.mem_singleton] at hx2
                  subst hx2
                  exact hCx y hy
            case isFalse hsz =>
              have hrec1 := ih pt.1 (pt.2.1 + 1) b pro.2.1 true true
                (by rw [hptLen]; exact hbl) (by omega)
                (by
                  intro _
                  refine allOn_of_getD (by rw [hptLen]; exact hbl) ?_
                  intro k h1 h2
                  rw [show pt.2.1 + 1 - 1 = pt.2.1 by omega, hpiv]
                  exact hptR k (by omega) h2)
              obtain ⟨hop5, hsort5⟩ := hrec1
              set l5 := pdqsortA (keyLess key) pt.1 (pt.2.1 + 1) b pro.2.1 true true fuel
                with hl5def
              have hlen5 : l5.length = l.length := by
                rw [rangeOp_length hop5, hptLen]
              have hfr5 : ∀ k, k < pt.2.1 + 1 → l5.getD k default = pt.1.getD k default :=
                fun k hk => hop5.2 k (Or.inl hk)
              have hmidval : l5.getD pt.2.1 default = pr.1.getD pro.2.2.1 default := by
                rw [hfr5 pt.2.1 (by omega), hpiv]
              have hrec2 := ih l5 a pt.2.1 pro.2.1
                (decide (min (pt.2.1 - a) (b - pt.2.1) ≥ (b - a) / 8)) pt.2.2
                (by rw [hlen5]; omega) (by omega)
                (by
                  intro ha0
                  have he : l5.getD (a - 1) default = l.getD (a - 1) default := by
                    rw [hfr5 (a - 1) (by omega), hOpLPt.2 (a - 1) (Or.inl (by omega))]
                  rw [he]
                  refine allOn_of_getD (by rw [hlen5]; omega) ?_
                  intro k h1 h2
                  rw [hfr5 k (by omega)]
                  have hall := allOn_rangeOp hOpLPt (by omega) hbl (hpred ha0)
                  exact allOn_getD hall (by rw [hptLen]; exact hbl) h1 (by omega))
              obtain ⟨hop6, hsort6⟩ := hrec2
              have hres : rangeOp l
                  (pdqsortA (keyLess key) l5 a pt.2.1 pro.2.1
                    (decide (min (pt.2.1 - a) (b - pt.2.1) ≥ (b - a) / 8)) pt.2.2 fuel)
                  a b :=
                rangeOp_trans hOpLPt (rangeOp_trans
                  (rangeOp_mono (by omega) (le_refl _) hop5)
                  (rangeOp_mono (le_refl _) (by omega) hop6))
              refine ⟨hres, ?_⟩
              have hlenres : (pdqsortA (keyLess key) l5 a pt.2.1 pro.2.1
                  (decide (min (pt.2.1 - a) (b - pt.2.1) ≥ (b - a) / 8)) pt.2.2
                  fuel).length = l.length := rangeOp_length hres
              have hfr6 : ∀ k, pt.2.1 ≤ k →
                  (pdqsortA (keyLess key) l5 a pt.2.1 pro.2.1
                    (decide (min (pt.2.1 - a) (b - pt.2.1) ≥ (b - a) / 8)) pt.2.2
                    fuel).getD k default = l5.getD k default :=
                fun k hk => hop6.2 k (Or.inr hk)
              rw [seg_split _ a (pt.2.1 + 1) b (by omega) (by omega),
                seg_split _ a pt.2.1 (pt.2.1 + 1) (by omega) (by omega),
                List.pairwise_append, List.pairwise_append]
              have hsegR : seg (pdqsortA (keyLess key) l5 a pt.2.1 pro.2.1
                  (decide (min (pt.2.1 - a) (b - pt.2.1) ≥ (b - a) / 8)) pt.2.2 fuel)
                  (pt.2.1 + 1) b = seg l5 (pt.2.1 + 1) b :=
                seg_eq_of_eqOn (rangeOp_length hop6) (by rw [hlen5]; exact hbl)
                  (fun k h1 _ => hfr6 k (by omega))
              have hsegM : seg (pdqsortA (keyLess key) l5 a pt.2.1 pro.2.1
                  (decide (min (pt.2.1 - a) (b - pt.2.1) ≥ (b - a) / 8)) pt.2.2 fuel)
                  pt.2.1 (pt.2.1 + 1) = [pr.1.getD pro.2.2.1 default] := by
                rw [seg_singleton _ _ (by rw [hlenres]; omega), hfr6 pt.2.1 (by omega),
                  hmidval]
              have hAx : ∀ x, x ∈ seg (pdqsortA (keyLess key) l5 a pt.2.1 pro.2.1
                  (decide (min (pt.2.1 - a) (b - pt.2.1) ≥ (b - a) / 8)) pt.2.2 fuel)
                  a pt.2.1 → key (pr.1.getD pro.2.2.1 default) < key x := by
                intro x hx
                have hx2 := (rangeOp_seg_perm hop6 (by omega)
                  (by rw [hlen5]; omega)).subset hx
                obtain ⟨k, hk1, hk2, rfl⟩ :=
                  (mem_seg l5 a pt.2.1 (by rw [hlen5]; omega) x).1 hx2
                rw [hfr5 k (by omega)]
                exact hptL k hk1 hk2
              have hCx : ∀ y, y ∈ seg (pdqsortA (keyLess key) l5 a pt.2.1 pro.2.1
                  (decide (min (pt.2.1 - a) (b - pt.2.1) ≥ (b - a) / 8)) pt.2.2 fuel)
                  (pt.2.1 + 1) b → key y ≤ key (pr.1.getD pro.2.2.1 default) := by
                intro y hy
                rw [hsegR] at hy
                have hy2 := (rangeOp_seg_perm hop5 (by omega)
                  (by rw [hptLen]; exact hbl)).subset hy
                obtain ⟨k, hk1, hk2, rfl⟩ :=
                  (mem_seg pt.1 (pt.2.1 + 1) b (by rw [hptLen]; exact hbl) y).1 hy2
                exact hptR k (by omega) hk2
              refine ⟨⟨hsort6, ?_, ?_⟩, ?_, ?_⟩
              · rw [hsegM]
                simp
              · intro x hx y hy
                rw [hsegM] at hy
                rw [List.mem_singleton] at hy
                subst hy
                exact le_of_lt (hAx x hx)
              · rw [hsegR]
                exact hsort5
              · intro x hx y hy
                rcases List.mem_append.1 hx with hx2 | hx2
                · exact le_trans (hCx y hy) (le_of_lt (hAx x hx2))
                · rw [hsegM] at hx2
                  rw [List.mem_singleton] at hx2
                  subst hx2
                  exact hCx y hy

/-- Go `sort.Slice` with a key comparison always returns a list sorted
descending by the key. -/
theorem goSortSlice_sorted (key : α → Rat) (l : List α) :
    (goSortSlice (keyLess key) l).Pairwise (fun u v => key v ≤ key u) := by
  have hspec := pdqsortA_spec key (l.length + 1) l 0 l.length (bitsLen l.length)
    true true (le_refl _) (by omega) (fun h => absurd h (by omega))
  rw [goSortSlice]
  obtain ⟨hop, h2⟩ := hspec
  generalize hg : pdqsortA (keyLess key) l 0 l.length (bitsLen l.length) true true
    (l.length + 1) = res at hop h2 ⊢
  have hlenres : res.length = l.length := rangeOp_length hop
  have h3 : seg res 0 l.length = res := by
    rw [show l.length = res.length from hlenres.symm, seg_all]
  rw [h3] at h2
  exact h2

end gosort

/-- `types.Service` (fields used by the correlate package). -/
structure Service where
  Name : GoStr
  NumErrors : Int
  NumCalls : Int
  ErrorRate : Rat
deriving DecidableEq, Inhabited, Repr

/-- `types.LogEntry` (fields used by the correlate package). -/
structure LogEntry where
  Timestamp : Int
  Body : GoStr
  SeverityText : GoStr
  ServiceName : GoStr
deriving DecidableEq, Inhabited, Repr

/-- `types.TraceEntry` (fields used by the correlate package). -/
structure TraceEntry where
  Timestamp : Int
  ServiceName : GoStr
  OperationName : GoStr
  DurationNano : Int
  StatusCode : GoStr
deriving DecidableEq, Inhabited, Repr

/-- `TraceEntry.DurationMs()`: `float64(t.DurationNano) / 1e6`. -/
def TraceEntry.DurationMs (t : TraceEntry) : Rat := (t.DurationNano : Rat) / 1000000

namespace correlate

/-- `correlate.Signal`. -/
structure Signal where
  Timestamp : Int
  Source : GoStr
  Service : GoStr
  Severity : GoStr
  Summary : GoStr
  DurationMs : Rat
  IsError : Bool
deriving DecidableEq, Inhabited, Repr

/-- `correlate.Cluster`.  The Go `Services` field is a `map[string]int`;
its deterministic content is modelled as an association list in first
insertion order. -/
structure Cluster where
  Start : Int
  End : Int
  Signals : List Signal
  Services : List (GoStr × Nat)
  Errors : Nat
  Score : Rat
deriving DecidableEq, Inhabited, Repr

/-- `correlate.PropagationEdge`. -/
structure PropagationEdge where
  From : GoStr
  To : GoStr
  DelayMs : Rat
  Count : Nat
  ErrorRate : Rat
deriving DecidableEq, Inhabited, Repr

/-- `correlate.Options`. -/
structure Options where
  Duration : Int
  Service : GoStr
  BucketSize : Int
  MinEvents : Int
  AnthropicKey : GoStr
deriving DecidableEq, Inhabited, Repr

/-- `correlate.Result`. -/
structure Result where
  TimeRange : Int
  Services : List Service
  Signals : List Signal
  Clusters : List Cluster
  Propagation : List PropagationEdge
  CollectedAt : Int
deriving DecidableEq, Inhabited, Repr

/-- The byte string "logs". -/
def strLogs : GoStr := [108, 111, 103, 115]

/-- The byte string "traces". -/
def strTraces : GoStr := [116, 114, 97, 99, 101, 115]

/-- The byte string "OK". -/
def strOK : GoStr := [79, 75]

/-- The byte string "0". -/
def strZero : GoStr := [48]

/-- The byte string "...". -/
def strDots : GoStr := [46, 46, 46]

/-- The byte string " [status:". -/
def strStatusOpen : GoStr := [32, 91, 115, 116, 97, 116, 117, 115, 58]

/-- The byte string "]". -/
def strRBrack : GoStr := [93]

/-- The byte string " [". -/
def strSpaceLBrack : GoStr := [32, 91]

/-- The byte string "ms]". -/
def strMsRBrack : GoStr := [109, 115, 93]

/-- Round-half-to-even, the rounding used by `%.0f` formatting. -/
def roundHalfEven (q : Rat) : Int :=
  let f := ⌊q⌋
  let frac := q - (f : Rat)
  if frac < 1 / 2 then f
  else if 1 / 2 < frac then f + 1
  else if f % 2 = 0 then f else f + 1

/-- Decimal byte representation of an integer. -/
def intDecBytes (i : Int) : GoStr :=
  if i < 0 then 45 :: (Nat.toDigits 10 i.natAbs).map Char.toNat
  else (Nat.toDigits 10 i.natAbs).map Char.toNat

/-- `fmt.Sprintf("%.0f", x)` on the rational model of a double. -/
def fmtF0 (q : Rat) : GoStr := intDecBytes (roundHalfEven q)

/-! ### findClusters (part_009 lines 167-225) -/

/-- The loop of `findClusters` building time buckets (lines 183-194).
The open bucket is the pair of its anchor timestamp and its signals; a
closed bucket is emitted only when it holds at least `minEvents` signals. -/
def bucketLoop (bucketDur minEvents : Int) :
    List Signal → Int × List Signal → List (List Signal)
  | [], cur => if minEvents ≤ (cur.2.length : Int) then [cur.2] else []
  | sig :: rest, cur =>
    if sig.Timestamp - cur.1 ≥ bucketDur then
      (if minEvents ≤ (cur.2.length : Int) then [cur.2] else []) ++
        bucketLoop bucketDur minEvents rest (sig.Timestamp, [sig])
    else bucketLoop bucketDur minEvents rest (cur.1, cur.2 ++ [sig])

/-- The emitted buckets of `findClusters`: the first signal opens the first
bucket (`current == nil` on entry); `bucketDur` is `bucketSec` seconds. -/
def findBuckets (signals : List Signal) (bucketSec minEvents : Int) : List (List Signal) :=
  match signals with
  | [] => []
  | sig :: rest => bucketLoop (bucketSec * 1000000000) minEvents rest (sig.Timestamp, [sig])

/-- `c.Services[sig.Service]++` on the association list model of the map. -/
def bumpService (m : List (GoStr × Nat)) (svc : GoStr) : List (GoStr × Nat) :=
  match m with
  | [] => [(svc, 1)]
  | (k, n) :: rest =>
    if k = svc then (k, n + 1) :: rest else (k, n) :: bumpService rest svc

/-- The `Services` histogram of a cluster. -/
def servicesHist (sigs : List Signal) : List (GoStr × Nat) :=
  sigs.foldl (fun m s => bumpService m s.Service) []

/-- `math.Min` on the rational model of doubles. -/
def gomin (x y : Rat) : Rat := min x y

/-- Cluster construction and scoring for one bucket (lines 198-216). -/
def mkCluster (b : List Signal) : Cluster :=
  let services := servicesHist b
  let errors := (b.filter (fun s => s.IsError)).length
  let svcFactor := gomin ((services.length : Rat) / 3) 1 * 40
  let errFactor := gomin ((errors : Rat) / (b.length : Rat)) 1 * 40
  let volFactor := gomin ((b.length : Rat) / 20) 1 * 20
  { Start := (b.headD default).Timestamp
    End := (b.getLastD default).Timestamp
    Signals := b
    Services := services
    Errors := errors
    Score := svcFactor + errFactor + volFactor }

/-- The cluster list of `findClusters` in bucket formation order, before the
final sort (the local `clusters` slice of the Go code). -/
def clustersPreSort (signals : List Signal) (bucketSec minEvents : Int) : List Cluster :=
  (findBuckets signals bucketSec minEvents).map mkCluster

/-- The comparison closure passed to `sort.Slice` in `findClusters`:
`clusters[i].Score > clusters[j].Score`. -/
def lessScore (c1 c2 : Cluster) : Bool := decide (c2.Score < c1.Score)

/-- `correlate.findClusters`. -/
def findClusters (signals : List Signal) (bucketSec minEvents : Int) : List Cluster :=
  if signals = [] then []
  else gosort.goSortSlice lessScore (clustersPreSort signals bucketSec minEvents)

/-! ### detectPropagation (part_009 lines 228-284) -/

/-- `errorSignals`: the `isError` signals in stream order (lines 240-245). -/
def errorsOnly (signals : List Signal) : List Signal :=
  signals.filter (fun s => s.IsError)

/-- Inner loop of `detectPropagation` for a fixed earlier signal `a`
(lines 248-266): emit one `(from, to)` keyed contribution carrying the
delay in whole milliseconds for every counted pair; break at the first
delay above the window, skip non-positive delays and same-service pairs.
The delay is positive on the emitting branch, so the rounding mode of the
division (`Duration.Milliseconds` truncates) is immaterial there. -/
def innerPairs (window : Int) (a : Signal) : List Signal → List ((GoStr × GoStr) × Int)
  | [] => []
  | b :: rest =>
    let delay := b.Timestamp - a.Timestamp
    if delay > window then []
    else if delay ≤ 0 ∨ a.Service = b.Service then innerPairs window a rest
    else ((a.Service, b.Service), delay / 1000000) :: innerPairs window a rest

/-- Outer loop of `detectPropagation`: contributions of all ordered pairs
`(i, j)` with `i < j`, in loop order. -/
def pairContribs (window : Int) : List Signal → List ((GoStr × GoStr) × Int)
  | [] => []
  | a :: rest => innerPairs window a rest ++ pairContribs window rest

/-- One aggregate of the `edges` map: key, `Count`, and the running
`DelayMs` sum (a double accumulating exact integer millisecond values). -/
abbrev Agg : Type := (GoStr × GoStr) × Nat × Rat

/-- Fold one contribution into the association list model of the `edges`
map: update the existing aggregate in place or append a fresh one. -/
def addContrib (m : List Agg) (c : (GoStr × GoStr) × Int) : List Agg :=
  match m with
  | [] => [(c.1, 1, (c.2 : Rat))]
  | (k, n, s) :: rest =>
    if k = c.1 then (k, n + 1, s + (c.2 : Rat)) :: rest
    else (k, n, s) :: addContrib rest c

/-- The deterministic content of the `edges` map after the pair loops, as
an association list in first-insertion order. -/
def aggregates (signals : List Signal) (window : Int) : List Agg :=
  (pairContribs window (errorsOnly signals)).foldl addContrib []

/-- Finalization of one aggregate (lines 271-277): average the delay. -/
def mkEdge (e : Agg) : PropagationEdge :=
  { From := e.1.1, To := e.1.2, DelayMs := e.2.2 / (e.2.1 : Rat),
    Count := e.2.1, ErrorRate := 0 }

/-- The `count >= 2` filter and finalization applied to the aggregates in
a given iteration order. -/
def finalizeEdges (iter : List Agg) : List PropagationEdge :=
  (iter.filter (fun e => 2 ≤ e.2.1)).map mkEdge

/-- The comparison closure passed to `sort.Slice` in `detectPropagation`:
`result[i].Count > result[j].Count`. -/
def lessCount (e1 e2 : PropagationEdge) : Bool := decide (e2.Count < e1.Count)

/-- `correlate.detectPropagation`, parameterized by the iteration order of
the final `for _, edge := range edges` loop: Go map iteration order is
unspecified and randomized between runs, so `iter` ranges over the
permutations of `aggregates signals window`. -/
def detectPropagationWith (signals : List Signal) (bucketSec : Int) (iter : List Agg) :
    List PropagationEdge :=
  if signals.length < 2 then []
  else gosort.goSortSlice lessCount (finalizeEdges iter)

/-- `correlate.detectPropagation` with the first-insertion iteration order,
one of the orders a run may observe. -/
def detectPropagation (signals : List Signal) (bucketSec : Int) : List PropagationEdge :=
  detectPropagationWith signals bucketSec (aggregates signals (bucketSec * 1000000000))

/-! ### Run (part_009 lines 69-164) -/

/-- One telemetry query issued by `Run`, in issue order. -/
inductive Call
  | listServices
  | queryLogs (service : GoStr)
  | queryTraces (service : GoStr)
deriving DecidableEq, Repr

/-- The `signoz.SignozQuerier` collaborator, modelled by its responses for
the fixed duration, limit and severity arguments `Run` passes. -/
structure SignozClient where
  listServices : Except GoStr (List Service)
  queryLogs : GoStr → Except GoStr (List LogEntry)
  queryTraces : GoStr → Except GoStr (List TraceEntry)

/-- The error cases of `Run` (the formatted message is presentation). -/
inductive RunError
  | listingServices (e : GoStr)
  | serviceNotFound (name : GoStr)
deriving DecidableEq, Repr

/-- Body truncation for log signals (lines 109-112): byte-based `len` and
slice, exactly as on Go strings. -/
def truncBody (body : GoStr) : GoStr :=
  if 120 < body.length then body.take 120 ++ strDots else body

/-- The Signal built from one error log record (lines 113-120). -/
def logSignal (svcName : GoStr) (log : LogEntry) : Signal :=
  { Timestamp := log.Timestamp, Source := strLogs, Service := svcName,
    Severity := log.SeverityText, Summary := truncBody log.Body,
    DurationMs := 0, IsError := true }

/-- `isError` for a span (line 127). -/
def isErrorTrace (t : TraceEntry) : Bool :=
  decide (t.StatusCode ≠ [] ∧ t.StatusCode ≠ strOK ∧ t.StatusCode ≠ strZero)

/-- `isSlow` for a span (line 128). -/
def isSlowTrace (t : TraceEntry) : Bool := decide ((1000 : Rat) < t.DurationMs)

/-- The summary of a trace signal (lines 132-138): the operation name with
optional status and latency suffixes, never truncated. -/
def traceSummary (t : TraceEntry) : GoStr :=
  t.OperationName ++
    (if isErrorTrace t then strStatusOpen ++ t.StatusCode ++ strRBrack else []) ++
    (if isSlowTrace t then strSpaceLBrack ++ fmtF0 t.DurationMs ++ strMsRBrack else [])

/-- The Signal built from one accepted span (lines 139-147). -/
def traceSignal (t : TraceEntry) : Signal :=
  { Timestamp := t.Timestamp, Source := strTraces, Service := t.ServiceName,
    Severity := t.StatusCode, Summary := traceSummary t,
    DurationMs := t.DurationMs, IsError := isErrorTrace t }

/-- Signal collection for one target service (lines 105-150): the log query
and the trace query are both issued; a failed query contributes no signals. -/
def collectService (client : SignozClient) (svc : Service) : List Signal × List Call :=
  let logSigs :=
    match client.queryLogs svc.Name with
    | .ok r => r.map (logSignal svc.Name)
    | .error _ => []
  let traceSigs :=
    match client.queryTraces svc.Name with
    | .ok r => (r.filter (fun t => isErrorTrace t || isSlowTrace t)).map traceSignal
    | .error _ => []
  (logSigs ++ traceSigs, [.queryLogs svc.Name, .queryTraces svc.Name])

/-- The comparison closure of the signal sort (lines 153-155):
`Signals[i].Timestamp.Before(Signals[j].Timestamp)`. -/
def lessTime (s1 s2 : Signal) : Bool := decide (s1.Timestamp < s2.Timestamp)

/-- The parameter defaulting of `Run` (lines 70-75): non-positive
`BucketSize` becomes 60, non-positive `MinEvents` becomes 3. -/
def defaultOpts (opts : Options) : Options :=
  let opts := if opts.BucketSize ≤ 0 then { opts with BucketSize := 60 } else opts
  if opts.MinEvents ≤ 0 then { opts with MinEvents := 3 } else opts

/-- `correlate.Run`, instrumented with the list of issued telemetry calls
(`now` stands for `time.Now().UTC()`). -/
def Run (client : SignozClient) (opts : Options) (now : Int) :
    Except RunError Result × List Call :=
  let opts := defaultOpts opts
  match client.listServices with
  | .error e => (.error (.listingServices e), [.listServices])
  | .ok services =>
    let target : Except RunError (List Service) :=
      if opts.Service = [] then .ok services
      else
        match services.find? (fun s => decide (s.Name = opts.Service)) with
        | some s => .ok [s]
        | none => .error (.serviceNotFound opts.Service)
    match target with
    | .error e => (.error e, [.listServices])
    | .ok targetServices =>
      let collected := targetServices.map (collectService client)
      let signals := (collected.map Prod.fst).flatten
      let calls := Call.listServices :: (collected.map Prod.snd).flatten
      let sorted := gosort.goSortSlice lessTime signals
      (.ok {
        TimeRange := opts.Duration * 60000000000
        Services := services
        Signals := sorted
        Clusters := findClusters sorted opts.BucketSize opts.MinEvents
        Propagation := detectPropagation sorted opts.BucketSize
        CollectedAt := now }, calls)

/-! ### Reference definitions written from the spec text -/

/-- Reference inner loop of spec section 4.4, for one earlier error signal:
consider later signals up to the first delay above the window (the early
break on the sorted list), and count a pair exactly when its delay is
positive and the services differ, keying it by `(from, to)` and carrying
the delay in milliseconds. -/
def specInner (window : Int) (a : Signal) (rest : List Signal) :
    List ((GoStr × GoStr) × Int) :=
  (rest.takeWhile (fun b => decide (b.Timestamp - a.Timestamp ≤ window))).filterMap
    (fun b =>
      if 0 < b.Timestamp - a.Timestamp ∧ a.Service ≠ b.Service then
        some ((a.Service, b.Service), (b.Timestamp - a.Timestamp) / 1000000)
      else none)

/-- Reference enumeration of all ordered pairs `(i, j)`, `i < j`, of spec
section 4.4. -/
def specPairs (window : Int) : List Signal → List ((GoStr × GoStr) × Int)
  | [] => []
  | a :: rest => specInner window a rest ++ specPairs window rest

/-- Reference keyed aggregation of spec section 4.4: filter to the error
signals in order, enumerate the counted pairs, and accumulate count and
delay sum per `(from, to)` key. -/
def specAggregates (signals : List Signal) (window : Int) : List Agg :=
  (specPairs window (signals.filter (fun s => s.IsError))).foldl addContrib []

/-- Reference emitted edges of spec section 4.4: every aggregate with
`count >= 2`, finalized with `delayMs = sum / count`, and no others. -/
def specEmittedEdges (signals : List Signal) (bucketSec : Int) : List PropagationEdge :=
  ((specAggregates signals (bucketSec * 1000000000)).filter (fun e => 2 ≤ e.2.1)).map mkEdge

/-- Reference bucket partition of spec section 4.2: each bucket is anchored
at its first signal and extends over the signals that follow while their
distance to the anchor stays below the bucket width; the next bucket starts
at the first signal at or beyond the width. -/
def specBucketGroups (bucketDur : Int) : List Signal → List (List Signal)
  | [] => []
  | s :: rest =>
    (s :: rest.takeWhile (fun x => decide (x.Timestamp - s.Timestamp < bucketDur))) ::
      specBucketGroups bucketDur
        (rest.dropWhile (fun x => decide (x.Timestamp - s.Timestamp < bucketDur)))
termination_by l => l.length
decreasing_by
  simpa [Nat.lt_succ_iff] using (List.dropWhile_suffix _).length_le

/-- Reference candidate filter of spec section 4.2: a bucket becomes a
cluster candidate exactly when it holds at least `minEvents` signals. -/
def specBuckets (signals : List Signal) (bucketSec minEvents : Int) : List (List Signal) :=
  (specBucketGroups (bucketSec * 1000000000) signals).filter
    (fun b => decide (minEvents ≤ (b.length : Int)))

/-! ### Bucket invariants -/

/-- Every bucket emitted by the bucket loop starts with its anchor signal,
all later members lie within the bucket width of the anchor, and the bucket
met the minimum event count.  The invariant is carried through the open
bucket `(anc, cur)`. -/
theorem bucketLoop_ok (bucketDur minEvents : Int) :
    ∀ (rest : List Signal) (anc : Int) (cur : List Signal),
      (∃ a0 tl, cur = a0 :: tl ∧ anc = a0.Timestamp ∧
        ∀ s ∈ tl, s.Timestamp - anc < bucketDur) →
      ∀ bkt ∈ bucketLoop bucketDur minEvents rest (anc, cur),
        (∃ a0 tl, bkt = a0 :: tl ∧ ∀ s ∈ tl, s.Timestamp - a0.Timestamp < bucketDur) ∧
          minEvents ≤ (bkt.length : Int) := by
  intro rest
  induction rest with
  | nil =>
    intro anc cur hinv bkt hbkt
    rw [bucketLoop] at hbkt
    split at hbkt
    case isTrue h =>
      rcases List.mem_singleton.1 hbkt with rfl
      obtain ⟨a0, tl, rfl, rfl, htl⟩ := hinv
      exact ⟨⟨a0, tl, rfl, htl⟩, h⟩
    case isFalse h => simp at hbkt
  | cons sig rest ih =>
    intro anc cur hinv bkt hbkt
    rw [bucketLoop] at hbkt
    split at hbkt
    case isTrue hge =>
      rcases List.mem_append.1 hbkt with hleft | hright
      · split at hleft
        case isTrue h =>
          rcases List.mem_singleton.1 hleft with rfl
          obtain ⟨a0, tl, rfl, rfl, htl⟩ := hinv
          exact ⟨⟨a0, tl, rfl, htl⟩, h⟩
        case isFalse h => simp at hleft
      · exact ih sig.Timestamp [sig] ⟨sig, [], rfl, rfl, by simp⟩ bkt hright
    case isFalse hlt =>
      refine ih anc (cur ++ [sig]) ?_ bkt hbkt
      obtain ⟨a0, tl, rfl, rfl, htl⟩ := hinv
      refine ⟨a0, tl ++ [sig], by simp, rfl, ?_⟩
      intro s hs
      rcases List.mem_append.1 hs with hs | hs
      · exact htl s hs
      · rcases List.mem_singleton.1 hs with rfl
        omega

/-- Shape of the emitted buckets of `findBuckets`. -/
theorem findBuckets_ok (signals : List Signal) (bucketSec minEvents : Int) :
    ∀ bkt ∈ findBuckets signals bucketSec minEvents,
      (∃ a0 tl, bkt = a0 :: tl ∧
        ∀ s ∈ tl, s.Timestamp - a0.Timestamp < bucketSec * 1000000000) ∧
        minEvents ≤ (bkt.length : Int) := by
  intro bkt hbkt
  match signals with
  | [] => simp [findBuckets] at hbkt
  | sig :: rest =>
    exact bucketLoop_ok _ minEvents rest sig.Timestamp [sig]
      ⟨sig, [], rfl, rfl, by simp⟩ bkt hbkt

/-- Membership in the sorted cluster list is membership in the formation
order list. -/
theorem mem_findClusters {c : Cluster} {signals : List Signal} {bucketSec minEvents : Int} :
    c ∈ findClusters signals bucketSec minEvents →
      c ∈ clustersPreSort signals bucketSec minEvents := by
  intro hc
  rw [findClusters] at hc
  split at hc
  · simp at hc
  · exact (gosort.goSortSlice_perm _ _).mem_iff.1 hc

/-- C10 (claim): `findClusters` is total and its error-density division is
well defined: every bucket it evaluates holds at least one signal, so the
divisor `len(c.Signals)` of the score computation is never zero, for all
parameter values including non-positive ones. -/
theorem claim_C10 (signals : List Signal) (bucketSec minEvents : Int) :
    (∀ bkt ∈ findBuckets signals bucketSec minEvents, 0 < bkt.length) ∧
    (∀ c ∈ findClusters signals bucketSec minEvents,
      0 < c.Signals.length ∧ ((c.Signals.length : Rat) ≠ 0)) := by
  constructor
  · intro bkt hbkt
    obtain ⟨⟨a0, tl, rfl, -⟩, -⟩ := findBuckets_ok signals bucketSec minEvents bkt hbkt
    simp
  · intro c hc
    have hc2 := mem_findClusters hc
    rw [clustersPreSort] at hc2
    obtain ⟨bkt, hbkt, rfl⟩ := List.mem_map.1 hc2
    obtain ⟨⟨a0, tl, rfl, -⟩, -⟩ := findBuckets_ok signals bucketSec minEvents _ hbkt
    constructor
    · simp [mkCluster]
    · simp only [mkCluster, List.length_cons]
      push_cast
      positivity

/-! ### The bucket loop is the bucket-gap partition of the spec -/

theorem dropWhile_head_false {β : Type} (p : β → Bool) :
    ∀ (l : List β) (z : β) (t : List β), l.dropWhile p = z :: t → p z = false := by
  intro l
  induction l with
  | nil => intro z t h; simp at h
  | cons a l ih =>
    intro z t h
    rw [List.dropWhile_cons] at h
    split at h
    · exact ih z t h
    case isFalse hpa =>
      injection h with h1 _
      subst h1
      simpa using hpa

/-- The bucket loop emits, for the open bucket and each later bucket, the
take-while group of the spec partition, filtered by the event minimum. -/
theorem bucketLoop_eq_groups (bucketDur minEvents : Int) :
    ∀ (rest : List Signal) (anc : Int) (cur : List Signal),
      bucketLoop bucketDur minEvents rest (anc, cur) =
        ((cur ++ rest.takeWhile (fun x => decide (x.Timestamp - anc < bucketDur))) ::
          specBucketGroups bucketDur
            (rest.dropWhile (fun x => decide (x.Timestamp - anc < bucketDur)))).filter
          (fun b => decide (minEvents ≤ (b.length : Int))) := by
  intro rest
  induction rest with
  | nil =>
    intro anc cur
    rw [bucketLoop]
    by_cases h : minEvents ≤ (cur.length : Int)
    · simp [specBucketGroups, List.filter_cons, h]
    · simp [specBucketGroups, List.filter_cons, h]
  | cons sig rest ih =>
    intro anc cur
    rw [bucketLoop]
    by_cases hge : sig.Timestamp - anc ≥ bucketDur
    · rw [if_pos hge]
      have hpred : decide (sig.Timestamp - anc < bucketDur) = false := by
        simpa using (by omega : ¬ sig.Timestamp - anc < bucketDur)
      rw [List.takeWhile_cons, List.dropWhile_cons, hpred]
      simp only [Bool.false_eq_true, if_false, List.append_nil]
      rw [ih sig.Timestamp [sig], specBucketGroups]
      rw [List.filter_cons, List.filter_cons]
      by_cases hc : minEvents ≤ (cur.length : Int)
      · simp [hc, List.singleton_append, List.filter_cons]
      · simp [hc, List.singleton_append, List.filter_cons]
    · rw [if_neg hge]
      have hpred : decide (sig.Timestamp - anc < bucketDur) = true := by
        simpa using (by omega : sig.Timestamp - anc < bucketDur)
      rw [List.takeWhile_cons, List.dropWhile_cons, hpred]
      rw [ih anc (cur ++ [sig])]
      simp [List.filter_cons, List.append_assoc]

/-- `findBuckets` computes exactly the spec partition of section 4.2. -/
theorem findBuckets_eq_specBuckets (signals : List Signal) (bucketSec minEvents : Int) :
    findBuckets signals bucketSec minEvents = specBuckets signals bucketSec minEvents := by
  match signals with
  | [] => simp [findBuckets, specBuckets, specBucketGroups]
  | sig :: rest =>
    rw [findBuckets, specBuckets, specBucketGroups]
    rw [bucketLoop_eq_groups (bucketSec * 1000000000) minEvents rest sig.Timestamp [sig]]
    simp

theorem specBucketGroups_flattenBound (bucketDur : Int) :
    ∀ (n : Nat) (l : List Signal), l.length ≤ n →
      (specBucketGroups bucketDur l).flatten = l := by
  intro n
  induction n with
  | zero =>
    intro l h
    match l with
    | [] => simp [specBucketGroups]
  | succ n ih =>
    intro l h
    match l with
    | [] => simp [specBucketGroups]
    | s :: rest =>
      rw [specBucketGroups]
      rw [List.flatten_cons]
      rw [ih _ (le_trans (List.dropWhile_suffix _).length_le (by simpa using h))]
      simp [List.takeWhile_append_dropWhile]

/-- The spec partition loses no signal and merges no two buckets: its
groups flatten back to the input. -/
theorem specBucketGroups_flatten (bucketDur : Int) (l : List Signal) :
    (specBucketGroups bucketDur l).flatten = l :=
  specBucketGroups_flattenBound bucketDur l.length l le_rfl

theorem specBucketGroups_chainBound (bucketDur : Int) :
    ∀ (n : Nat) (l : List Signal), l.length ≤ n →
      List.Chain'
        (fun g1 g2 => bucketDur ≤ (g2.headD default).Timestamp - (g1.headD default).Timestamp)
        (specBucketGroups bucketDur l) := by
  intro n
  induction n with
  | zero =>
    intro l h
    match l with
    | [] => simp [specBucketGroups]
  | succ n ih =>
    intro l h
    match l with
    | [] => simp [specBucketGroups]
    | s :: rest =>
      rw [specBucketGroups]
      rw [List.chain'_cons']
      constructor
      · intro g2 hg2
        cases hdrop : rest.dropWhile (fun x => decide (x.Timestamp - s.Timestamp < bucketDur)) with
        | nil => rw [hdrop] at hg2; simp [specBucketGroups] at hg2
        | cons z t =>
          rw [hdrop] at hg2
          rw [specBucketGroups] at hg2
          simp only [List.head?_cons, Option.mem_some_iff] at hg2
          subst hg2
          have hz := dropWhile_head_false _ rest z t hdrop
          have hzd : ¬ (z.Timestamp - s.Timestamp < bucketDur) := by simpa using hz
          simp only [List.headD_cons]
          omega
      · exact ih _ (le_trans (List.dropWhile_suffix _).length_le (by simpa using h))

/-- Anchors of adjacent buckets of the spec partition are at least the
bucket width apart. -/
theorem specBucketGroups_chain (bucketDur : Int) (l : List Signal) :
    List.Chain'
      (fun g1 g2 => bucketDur ≤ (g2.headD default).Timestamp - (g1.headD default).Timestamp)
      (specBucketGroups bucketDur l) :=
  specBucketGroups_chainBound bucketDur l.length l le_rfl

/-- C2 (claim): `findClusters` buckets signals by the anchor-based
bucket-gap partition of spec section 4.2: it emits exactly the spec
partition groups meeting the event minimum, every emitted bucket starts at
its anchor with all later members strictly within the bucket width of that
anchor, the partition groups flatten back to the signal stream (no bucket
is merged or dropped), and adjacent anchors are at least the bucket width
apart. -/
theorem claim_C2 (signals : List Signal) (bucketSec minEvents : Int)
    (_hsorted : signals.Pairwise (fun s1 s2 => s1.Timestamp ≤ s2.Timestamp)) :
    findBuckets signals bucketSec minEvents = specBuckets signals bucketSec minEvents ∧
    (∀ bkt ∈ findBuckets signals bucketSec minEvents,
      ∃ a0 tl, bkt = a0 :: tl ∧
        (∀ s ∈ tl, s.Timestamp - a0.Timestamp < bucketSec * 1000000000) ∧
        minEvents ≤ (bkt.length : Int)) ∧
    (specBucketGroups (bucketSec * 1000000000) signals).flatten = signals ∧
    List.Chain'
      (fun g1 g2 => bucketSec * 1000000000 ≤
        (g2.headD default).Timestamp - (g1.headD default).Timestamp)
      (specBucketGroups (bucketSec * 1000000000) signals) := by
  refine ⟨findBuckets_eq_specBuckets signals bucketSec minEvents, ?_,
    specBucketGroups_flatten _ signals, specBucketGroups_chain _ signals⟩
  intro bkt hbkt
  obtain ⟨⟨a0, tl, rfl, htl⟩, hmin⟩ := findBuckets_ok signals bucketSec minEvents bkt hbkt
  exact ⟨a0, tl, rfl, htl, hmin⟩

/-! ### The pair loops of `detectPropagation` match spec section 4.4 -/

/-- The inner loop with its early break enumerates the counted pairs of the
spec reference: the later signals up to the first one past the window,
filtered to positive-delay, distinct-service pairs. -/
theorem innerPairs_eq_specInner (window : Int) (a : Signal) :
    ∀ rest : List Signal, innerPairs window a rest = specInner window a rest := by
  intro rest
  induction rest with
  | nil => rfl
  | cons b rest ih =>
    rw [innerPairs, specInner, List.takeWhile_cons]
    by_cases hwin : b.Timestamp - a.Timestamp > window
    · rw [if_pos hwin]
      have : decide (b.Timestamp - a.Timestamp ≤ window) = false := by
        simpa using (by omega : ¬ b.Timestamp - a.Timestamp ≤ window)
      rw [this]
      simp
    · rw [if_neg hwin]
      have : decide (b.Timestamp - a.Timestamp ≤ window) = true := by
        simpa using (by omega : b.Timestamp - a.Timestamp ≤ window)
      rw [this]
      simp only [if_true, List.filterMap_cons]
      by_cases hskip : b.Timestamp - a.Timestamp ≤ 0 ∨ a.Service = b.Service
      · rw [if_pos hskip]
        have : ¬ (0 < b.Timestamp - a.Timestamp ∧ a.Service ≠ b.Service) := by
          rcases hskip with h | h
          · intro hcon; omega
          · intro hcon; exact hcon.2 h
        rw [if_neg this, ih, specInner]
      · rw [if_neg hskip]
        push_neg at hskip
        have : 0 < b.Timestamp - a.Timestamp ∧ a.Service ≠ b.Service := ⟨by omega, hskip.2⟩
        rw [if_pos this, ih, specInner]

theorem pairContribs_eq_specPairs (window : Int) :
    ∀ signals : List Signal, pairContribs window signals = specPairs window signals := by
  intro signals
  induction signals with
  | nil => rfl
  | cons a rest ih =>
    rw [pairContribs, specPairs, innerPairs_eq_specInner, ih]

theorem aggregates_eq_specAggregates (signals : List Signal) (window : Int) :
    aggregates signals window = specAggregates signals window := by
  rw [aggregates, specAggregates, errorsOnly, pairContribs_eq_specPairs]

/-- With fewer than two signals the spec reference emits nothing. -/
theorem specEmittedEdges_short (signals : List Signal) (bucketSec : Int)
    (h : signals.length < 2) : specEmittedEdges signals bucketSec = [] := by
  match signals with
  | [] => simp [specEmittedEdges, specAggregates, specPairs]
  | [s] =>
    rw [specEmittedEdges, specAggregates]
    rw [show List.filter (fun s => s.IsError) [s] = if s.IsError then [s] else [] from by
      simp [List.filter_cons]]
    split
    · simp [specPairs, specInner]
    · simp [specPairs]
  | a :: b :: rest => simp at h; omega

/-- C1 (claim): `detectPropagation` computes exactly the reference
algorithm of spec section 4.4: for every sorted signal list, positive
window, and map iteration order, it emits exactly the pair aggregates with
at least two supporting pairs, averaged, and no others (as a permutation:
the Go map iteration order, and the final count sort, only reorder). -/
theorem claim_C1 (signals : List Signal) (bucketSec : Int) (iter : List Agg)
    (_hsorted : signals.Pairwise (fun s1 s2 => s1.Timestamp ≤ s2.Timestamp))
    (_hpos : 0 < bucketSec)
    (hiter : iter.Perm (aggregates signals (bucketSec * 1000000000))) :
    (detectPropagationWith signals bucketSec iter).Perm
      (specEmittedEdges signals bucketSec) := by
  rw [detectPropagationWith]
  split
  case isTrue h => rw [specEmittedEdges_short signals bucketSec h]
  case isFalse h =>
    refine (gosort.goSortSlice_perm _ _).trans ?_
    rw [finalizeEdges, specEmittedEdges, ← aggregates_eq_specAggregates]
    exact (hiter.filter _).map mkEdge

/-! ### Determinism (C4) and sort stability (C5) -/

/-- An error signal used by the concrete determinism counterexample. -/
def c4sig (ts : Int) (svc : GoStr) : Signal :=
  { Timestamp := ts, Source := strLogs, Service := svc, Severity := [],
    Summary := [], DurationMs := 0, IsError := true }

/-- Error signals on services a, b, b, a one second apart: they support one
a-to-b edge and one b-to-a edge, both with two pairs. -/
def c4sigs : List Signal :=
  [c4sig 0 [97], c4sig 1000000000 [98], c4sig 2000000000 [98], c4sig 3000000000 [97]]

/-- The a-to-b aggregate of `c4sigs`: two pairs, 3000 ms delay sum. -/
def c4AggAB : Agg := (([97], [98]), 2, (3000 : Rat))

/-- The b-to-a aggregate of `c4sigs`: two pairs, 3000 ms delay sum. -/
def c4AggBA : Agg := (([98], [97]), 2, (3000 : Rat))

section concreteEval
-- The Batteries rational operations are irreducible by default; making them
-- semireducible locally lets `decide` evaluate the embedded functions on
-- concrete inputs.
attribute [local semireducible] Rat.add Rat.mul Rat.sub Rat.inv

/-- C4 (counterexample): two runs of `detectPropagation` on the same sorted
signal list and window, differing only in the (unspecified, per-run
randomized) Go map iteration order, return the two equal-count edges in
different orders — the output is not byte-identical across runs. -/
theorem claim_C4_counterexample :
    aggregates c4sigs 60000000000 = [c4AggAB, c4AggBA] ∧
    [c4AggBA, c4AggAB].Perm (aggregates c4sigs 60000000000) ∧
    detectPropagationWith c4sigs 60 [c4AggAB, c4AggBA] ≠
      detectPropagationWith c4sigs 60 [c4AggBA, c4AggAB] := by
  refine ⟨by decide, ?_, by decide⟩
  rw [show aggregates c4sigs 60000000000 = [c4AggAB, c4AggBA] from by decide]
  exact List.Perm.swap _ _ _

end concreteEval

/-- C4 (amended): `findClusters` is a deterministic function of its inputs,
and `detectPropagation` is deterministic up to edge order: any two runs
(any two map iteration orders over the same aggregates) return
permutations of the same edge list; the relative order of edges with equal
counts depends on the randomized map iteration order and can differ
between runs. -/
theorem claim_C4_amended (signals : List Signal) (bucketSec : Int) (iter1 iter2 : List Agg)
    (h1 : iter1.Perm (aggregates signals (bucketSec * 1000000000)))
    (h2 : iter2.Perm (aggregates signals (bucketSec * 1000000000))) :
    (detectPropagationWith signals bucketSec iter1).Perm
      (detectPropagationWith signals bucketSec iter2) := by
  rw [detectPropagationWith, detectPropagationWith]
  split
  · exact .refl _
  · refine (gosort.goSortSlice_perm _ _).trans
      (List.Perm.trans ?_ (gosort.goSortSlice_perm _ _).symm)
    rw [finalizeEdges, finalizeEdges]
    exact ((h1.trans h2.symm).filter _).map mkEdge

/-- A signal of the concrete stability counterexample: service a, one
signal every 100 seconds, so each signal forms its own bucket. -/
def c5sig (i : Nat) (err : Bool) : Signal :=
  { Timestamp := (i : Int) * 100000000000, Source := strLogs, Service := [97],
    Severity := [], Summary := [], DurationMs := 0, IsError := err }

/-- Thirteen single-signal buckets; the two error signals (indices 0 and 6)
score 163/3, the others 43/3, so the score sort sees thirteen elements —
past the stable insertion-sort regime of `sort.Slice`. -/
def cs13 : List Signal :=
  [c5sig 0 true, c5sig 1 false, c5sig 2 false, c5sig 3 false, c5sig 4 false,
   c5sig 5 false, c5sig 6 true, c5sig 7 false, c5sig 8 false, c5sig 9 false,
   c5sig 10 false, c5sig 11 false, c5sig 12 false]

section concreteEvalB
attribute [local semireducible] Rat.add Rat.mul Rat.sub Rat.inv

set_option maxRecDepth 100000 in
/-- C5 (counterexample): on thirteen clusters the score sort of
`findClusters` (Go `sort.Slice`, pdqsort) reorders clusters of equal score:
the equal-score class of score 43/3 leaves `findClusters` in an order
different from bucket formation order, so the sort is not stable. -/
theorem claim_C5_counterexample :
    (findClusters cs13 1 1).filter (fun c => decide (c.Score = 43 / 3)) ≠
      (clustersPreSort cs13 1 1).filter (fun c => decide (c.Score = 43 / 3)) := by
  decide

end concreteEvalB

/-- C5 (amended): the cluster list of `findClusters` is always sorted by
score descending, in every regime of Go `sort.Slice` (insertion sort,
heapsort and the pdqsort partitioning loops alike); and whenever at most 12
clusters are formed the sort is moreover stable (`sort.Slice` runs a plain
insertion sort on at most 12 elements), so each equal-score class keeps
bucket formation order.  With 13 or more clusters equal-score classes can
be reordered (see the counterexample). -/
theorem claim_C5_amended (signals : List Signal) (bucketSec minEvents : Int) :
    (findClusters signals bucketSec minEvents).Pairwise (fun c d => d.Score ≤ c.Score) ∧
    ((clustersPreSort signals bucketSec minEvents).length ≤ 12 →
      ∀ q : Rat,
        (findClusters signals bucketSec minEvents).filter (fun c => decide (c.Score = q)) =
          (clustersPreSort signals bucketSec minEvents).filter (fun c => decide (c.Score = q))) := by
  constructor
  · rw [findClusters]
    split
    case isTrue h => exact List.Pairwise.nil
    case isFalse h =>
      rw [show lessScore = gosort.keyLess Cluster.Score from rfl]
      exact gosort.goSortSlice_sorted Cluster.Score _
  · intro hlen q
    rw [findClusters]
    split
    case isTrue h =>
      subst h
      simp [clustersPreSort, findBuckets]
    case isFalse h =>
      rw [show lessScore = gosort.keyLess Cluster.Score from rfl]
      rw [gosort.goSortSlice_small Cluster.Score _ hlen]
      exact gosort.goStableSort_filter Cluster.Score q _

/-- C3 (claim): every cluster emitted by `findClusters` carries the score
`min(services/3,1)*40 + min(errors/signals,1)*40 + min(signals/20,1)*20`
computed from its own fields, and that score lies in `[0, 100]`. -/
theorem claim_C3 (signals : List Signal) (bucketSec minEvents : Int)
    (c : Cluster) (hc : c ∈ findClusters signals bucketSec minEvents) :
    c.Score =
      gomin ((c.Services.length : Rat) / 3) 1 * 40 +
      gomin ((c.Errors : Rat) / (c.Signals.length : Rat)) 1 * 40 +
      gomin ((c.Signals.length : Rat) / 20) 1 * 20 ∧
    0 ≤ c.Score ∧ c.Score ≤ 100 := by
  have hc2 := mem_findClusters hc
  rw [clustersPreSort] at hc2
  obtain ⟨bkt, hbkt, rfl⟩ := List.mem_map.1 hc2
  have hform : (mkCluster bkt).Score =
      gomin (((mkCluster bkt).Services.length : Rat) / 3) 1 * 40 +
      gomin (((mkCluster bkt).Errors : Rat) / ((mkCluster bkt).Signals.length : Rat)) 1 * 40 +
      gomin (((mkCluster bkt).Signals.length : Rat) / 20) 1 * 20 := rfl
  refine ⟨hform, ?_, ?_⟩
  · rw [hform]
    have h1 : (0 : Rat) ≤ gomin (((mkCluster bkt).Services.length : Rat) / 3) 1 * 40 := by
      have : (0 : Rat) ≤ ((mkCluster bkt).Services.length : Rat) / 3 := by positivity
      have := le_min this (by norm_num : (0 : Rat) ≤ 1)
      simp only [gomin]
      nlinarith [this]
    have h2 : (0 : Rat) ≤
        gomin (((mkCluster bkt).Errors : Rat) / ((mkCluster bkt).Signals.length : Rat)) 1 * 40 := by
      have : (0 : Rat) ≤ ((mkCluster bkt).Errors : Rat) / ((mkCluster bkt).Signals.length : Rat) := by
        positivity
      have := le_min this (by norm_num : (0 : Rat) ≤ 1)
      simp only [gomin]
      nlinarith [this]
    have h3 : (0 : Rat) ≤ gomin (((mkCluster bkt).Signals.length : Rat) / 20) 1 * 20 := by
      have : (0 : Rat) ≤ ((mkCluster bkt).Signals.length : Rat) / 20 := by positivity
      have := le_min this (by norm_num : (0 : Rat) ≤ 1)
      simp only [gomin]
      nlinarith [this]
    linarith
  · rw [hform]
    have h1 : gomin (((mkCluster bkt).Services.length : Rat) / 3) 1 * 40 ≤ 40 := by
      have := min_le_right (((mkCluster bkt).Services.length : Rat) / 3) 1
      simp only [gomin]
      nlinarith [this]
    have h2 : gomin (((mkCluster bkt).Errors : Rat) / ((mkCluster bkt).Signals.length : Rat))
        1 * 40 ≤ 40 := by
      have := min_le_right
        (((mkCluster bkt).Errors : Rat) / ((mkCluster bkt).Signals.length : Rat)) 1
      simp only [gomin]
      nlinarith [this]
    have h3 : gomin (((mkCluster bkt).Signals.length : Rat) / 20) 1 * 20 ≤ 20 := by
      have := min_le_right (((mkCluster bkt).Signals.length : Rat) / 20) 1
      simp only [gomin]
      nlinarith [this]
    linarith

/-! ### Run-level claims -/

theorem defaultOpts_Service (opts : Options) :
    (defaultOpts opts).Service = opts.Service := by
  simp only [defaultOpts]
  split <;> split <;> rfl

theorem defaultOpts_Duration (opts : Options) :
    (defaultOpts opts).Duration = opts.Duration := by
  simp only [defaultOpts]
  split <;> split <;> rfl

theorem defaultOpts_BucketSize (opts : Options) :
    (defaultOpts opts).BucketSize = if opts.BucketSize ≤ 0 then 60 else opts.BucketSize := by
  simp only [defaultOpts]
  split <;> split <;> simp_all

theorem defaultOpts_MinEvents (opts : Options) :
    (defaultOpts opts).MinEvents = if opts.MinEvents ≤ 0 then 3 else opts.MinEvents := by
  simp only [defaultOpts]
  split <;> split <;> simp_all

/-- C7 (claim): a non-empty focus service absent from the service list is a
hard failure: `Run` returns the not-found error after only the service
listing call, before any log or trace query, so no signals are collected. -/
theorem claim_C7 (client : SignozClient) (opts : Options) (now : Int)
    (svcs : List Service)
    (hls : client.listServices = Except.ok svcs)
    (hne : opts.Service ≠ [])
    (hmiss : ∀ s ∈ svcs, s.Name ≠ opts.Service) :
    Run client opts now =
      (Except.error (RunError.serviceNotFound opts.Service), [Call.listServices]) := by
  have hfind : svcs.find? (fun s => decide (s.Name = opts.Service)) = none := by
    rw [List.find?_eq_none]
    intro s hs
    simpa using hmiss s hs
  simp only [Run, hls, defaultOpts_Service]
  rw [if_neg hne, hfind]

/-- C8 (claim): non-positive analysis parameters never cause a failure:
`Run` with `BucketSize <= 0` behaves exactly as with `BucketSize = 60`, and
with `MinEvents <= 0` exactly as with `MinEvents = 3`. -/
theorem claim_C8 (client : SignozClient) (opts : Options) (now : Int) :
    (opts.BucketSize ≤ 0 →
      Run client opts now = Run client { opts with BucketSize := 60 } now) ∧
    (opts.MinEvents ≤ 0 →
      Run client opts now = Run client { opts with MinEvents := 3 } now) := by
  constructor
  · intro h
    have hd : defaultOpts opts = defaultOpts { opts with BucketSize := 60 } := by
      simp [defaultOpts, h]
    simp only [Run, hd]
  · intro h
    have hd : defaultOpts opts = defaultOpts { opts with MinEvents := 3 } := by
      by_cases hb : opts.BucketSize ≤ 0 <;> simp [defaultOpts, h, hb]
    simp only [Run, hd]

/-- C9 (claim): inside one `Run`, the window handed to the propagation
detector is the very value handed to the cluster engine as bucket size:
`Options.BucketSize` after defaulting (60 when non-positive); there is no
independent window parameter. -/
theorem claim_C9 (client : SignozClient) (opts : Options) (now : Int)
    (r : Result) (calls : List Call)
    (h : Run client opts now = (Except.ok r, calls)) :
    r.Clusters = findClusters r.Signals
        (if opts.BucketSize ≤ 0 then 60 else opts.BucketSize)
        (if opts.MinEvents ≤ 0 then 3 else opts.MinEvents) ∧
    r.Propagation = detectPropagation r.Signals
        (if opts.BucketSize ≤ 0 then 60 else opts.BucketSize) := by
  rw [← defaultOpts_BucketSize, ← defaultOpts_MinEvents]
  cases hls : client.listServices with
  | error e =>
    simp only [Run, hls] at h
    exact absurd h (by simp)
  | ok services =>
    simp only [Run, hls] at h
    split at h
    · exact absurd h (by simp)
    · rw [Prod.mk.injEq] at h
      obtain ⟨h1, -⟩ := h
      rw [Except.ok.injEq] at h1
      subst h1
      exact ⟨rfl, rfl⟩

/-! ### Summary length (C6) -/

theorem truncBody_length (body : GoStr) : (truncBody body).length ≤ 123 := by
  rw [truncBody]
  split
  · simp only [List.length_append, List.length_take, strDots, List.length_cons,
      List.length_nil]
    omega
  · omega

/-- The inverse of `collectService`: every collected signal is a log signal
of a successfully queried log record or a trace signal of an accepted span
of a successfully queried trace list. -/
theorem collectService_mem (client : SignozClient) (svc : Service) (sig : Signal)
    (h : sig ∈ (collectService client svc).1) :
    (∃ logs log, client.queryLogs svc.Name = Except.ok logs ∧ log ∈ logs ∧
      sig = logSignal svc.Name log) ∨
    (∃ traces t, client.queryTraces svc.Name = Except.ok traces ∧ t ∈ traces ∧
      (isErrorTrace t || isSlowTrace t) = true ∧ sig = traceSignal t) := by
  simp only [collectService] at h
  rcases List.mem_append.1 h with h1 | h2
  · left
    cases hq : client.queryLogs svc.Name with
    | error e => simp only [hq] at h1; simp at h1
    | ok logs =>
      simp only [hq] at h1
      obtain ⟨log, hlog, rfl⟩ := List.mem_map.1 h1
      exact ⟨logs, log, rfl, hlog, rfl⟩
  · right
    cases hq : client.queryTraces svc.Name with
    | error e => simp only [hq] at h2; simp at h2
    | ok traces =>
      simp only [hq] at h2
      obtain ⟨t, ht, rfl⟩ := List.mem_map.1 h2
      obtain ⟨ht2, hpred⟩ := List.mem_filter.1 ht
      exact ⟨traces, t, rfl, ht2, hpred, rfl⟩

/-- The signal stream of a successful `Run` is the time sort of the
per-service collections of some target service list. -/
theorem run_signals_shape (client : SignozClient) (opts : Options) (now : Int)
    (r : Result) (calls : List Call)
    (h : Run client opts now = (Except.ok r, calls)) :
    ∃ targetServices : List Service,
      r.Signals = gosort.goSortSlice lessTime
        ((targetServices.map (fun svc => (collectService client svc).1)).flatten) := by
  cases hls : client.listServices with
  | error e =>
    simp only [Run, hls] at h
    exact absurd h (by simp)
  | ok services =>
    simp only [Run, hls] at h
    split at h
    · exact absurd h (by simp)
    case h_2 targetServices heq =>
      rw [Prod.mk.injEq] at h
      obtain ⟨h1, -⟩ := h
      rw [Except.ok.injEq] at h1
      subst h1
      refine ⟨targetServices, ?_⟩
      simp [List.map_map]
      rfl

/-- C6 (amended): every log-derived Signal of a `Run` has a Summary of at
most 123 bytes (body truncated to 120 bytes plus an ellipsis); every
trace-derived Signal is the untruncated signal of an accepted span of a
trace query, so its Summary extends the span operation name and is bounded
only by it — no uniform bound exists (see the counterexample). -/
theorem claim_C6_amended (client : SignozClient) (opts : Options) (now : Int)
    (r : Result) (calls : List Call) (sig : Signal)
    (h : Run client opts now = (Except.ok r, calls))
    (hsig : sig ∈ r.Signals) :
    (sig.Source = strLogs → sig.Summary.length ≤ 123) ∧
    (sig.Source = strTraces →
      ∃ (svc : Service) (traces : List TraceEntry) (t : TraceEntry),
        client.queryTraces svc.Name = Except.ok traces ∧ t ∈ traces ∧
        (isErrorTrace t || isSlowTrace t) = true ∧ sig = traceSignal t ∧
        ∃ rest, sig.Summary = t.OperationName ++ rest) := by
  obtain ⟨targetServices, hshape⟩ := run_signals_shape client opts now r calls h
  rw [hshape] at hsig
  have hsig2 := (gosort.goSortSlice_perm _ _).mem_iff.1 hsig
  rw [List.mem_flatten] at hsig2
  obtain ⟨part, hpart, hsigpart⟩ := hsig2
  rw [List.mem_map] at hpart
  obtain ⟨svc, hsvc, rfl⟩ := hpart
  rcases collectService_mem client svc sig hsigpart with
    ⟨logs, log, hq, hlog, rfl⟩ | ⟨traces, t, hq, ht, hpred, rfl⟩
  · constructor
    · intro _
      exact truncBody_length log.Body
    · intro hcon
      exact absurd hcon (by simp [logSignal, strLogs, strTraces])
  · constructor
    · intro hcon
      exact absurd hcon (by simp [traceSignal, strLogs, strTraces])
    · intro _
      refine ⟨svc, traces, t, hq, ht, hpred, rfl, ?_⟩
      refine ⟨(if isErrorTrace t then strStatusOpen ++ t.StatusCode ++ strRBrack else []) ++
        (if isSlowTrace t then strSpaceLBrack ++ fmtF0 t.DurationMs ++ strMsRBrack else []), ?_⟩
      simp [traceSignal, traceSummary]

/-- The service of the unbounded-summary counterexample. -/
def c6svc : Service := { Name := [97], NumErrors := 0, NumCalls := 0, ErrorRate := 0 }

/-- A slow span (2000 ms, blank status) whose operation name has `B + 1`
bytes: it is accepted as a signal and its summary is never truncated. -/
def c6trace (B : Nat) : TraceEntry :=
  { Timestamp := 0, ServiceName := [97], OperationName := List.replicate (B + 1) 97,
    DurationNano := 2000000000, StatusCode := [] }

/-- A client with one service, no error logs, and the one slow span. -/
def c6client (B : Nat) : SignozClient :=
  { listServices := Except.ok [c6svc],
    queryLogs := fun _ => Except.ok [],
    queryTraces := fun _ => Except.ok [c6trace B] }

/-- Plain options for the unbounded-summary counterexample. -/
def c6opts : Options :=
  { Duration := 30, Service := [], BucketSize := 60, MinEvents := 3, AnthropicKey := [] }

theorem c6_isSlow (B : Nat) : isSlowTrace (c6trace B) = true := by
  simp [isSlowTrace, TraceEntry.DurationMs, c6trace]
  norm_num

theorem c6_isErr (B : Nat) : isErrorTrace (c6trace B) = false := by
  simp [isErrorTrace, c6trace]

theorem goSortSlice_singleton {β : Type} [Inhabited β] (less : β → β → Bool) (x : β) :
    gosort.goSortSlice less [x] = [x] := rfl

/-- The result of `Run` on the counterexample client. -/
def c6result (B : Nat) : Result :=
  { TimeRange := 30 * 60000000000, Services := [c6svc],
    Signals := [traceSignal (c6trace B)],
    Clusters := findClusters [traceSignal (c6trace B)] 60 3,
    Propagation := detectPropagation [traceSignal (c6trace B)] 60,
    CollectedAt := 0 }

theorem c6run (B : Nat) :
    Run (c6client B) c6opts 0 =
      (Except.ok (c6result B),
        [Call.listServices, Call.queryLogs [97], Call.queryTraces [97]]) := by
  simp only [Run, defaultOpts, c6client, c6opts, c6svc, c6result]
  norm_num [collectService, c6_isErr, c6_isSlow, List.filter_cons, goSortSlice_singleton]

/-- C6 (counterexample): no fixed length bound covers every Signal summary
a `Run` stores: trace-derived summaries contain the whole operation name
untruncated, so for every candidate bound some accepted span produces a
longer summary. -/
theorem claim_C6_counterexample :
    ¬ ∃ B : Nat, ∀ (client : SignozClient) (opts : Options) (now : Int)
        (r : Result) (calls : List Call) (sig : Signal),
        Run client opts now = (Except.ok r, calls) → sig ∈ r.Signals →
        sig.Summary.length ≤ B := by
  rintro ⟨B, hB⟩
  have hmem : traceSignal (c6trace B) ∈ (c6result B).Signals := by simp [c6result]
  have hlen := hB (c6client B) c6opts 0 (c6result B) _ (traceSignal (c6trace B))
    (c6run B) hmem
  have hsum : (traceSignal (c6trace B)).Summary =
      (c6trace B).OperationName ++
        (strSpaceLBrack ++ fmtF0 (c6trace B).DurationMs ++ strMsRBrack) := by
    simp [traceSignal, traceSummary, c6_isErr, c6_isSlow]
  have hop : (c6trace B).OperationName = List.replicate (B + 1) 97 := rfl
  rw [hsum, hop] at hlen
  simp only [List.length_append, List.length_replicate] at hlen
  omega

/-! ### Concrete witnesses for the claim theorems -/

/-- A client with one service and no signals, used to witness the
service-filter and defaulting claims. -/
def c7client : SignozClient :=
  { listServices := Except.ok [c6svc],
    queryLogs := fun _ => Except.ok [],
    queryTraces := fun _ => Except.ok [] }

/-- Options naming a service the client does not have. -/
def c7opts : Options :=
  { Duration := 30, Service := [98], BucketSize := 60, MinEvents := 3, AnthropicKey := [] }

/-- Options with non-positive bucket size and minimum event count. -/
def c8opts : Options :=
  { Duration := 30, Service := [], BucketSize := 0, MinEvents := 0, AnthropicKey := [] }

section witnessEval

attribute [local semireducible] Rat.add Rat.mul Rat.sub Rat.inv

theorem claim_C1_witness :
    c4sigs.Pairwise (fun s1 s2 => s1.Timestamp ≤ s2.Timestamp) ∧
    (0 : Int) < 60 ∧
    (aggregates c4sigs (60 * 1000000000)).Perm (aggregates c4sigs (60 * 1000000000)) ∧
    (detectPropagationWith c4sigs 60 (aggregates c4sigs (60 * 1000000000))).Perm
      (specEmittedEdges c4sigs 60) :=
  ⟨by decide, by decide, List.Perm.refl _,
    claim_C1 c4sigs 60 (aggregates c4sigs (60 * 1000000000)) (by decide) (by decide)
      (List.Perm.refl _)⟩

theorem claim_C2_witness :
    c4sigs.Pairwise (fun s1 s2 => s1.Timestamp ≤ s2.Timestamp) ∧
    (findBuckets c4sigs 60 3 = specBuckets c4sigs 60 3 ∧
      (∀ bkt ∈ findBuckets c4sigs 60 3,
        ∃ a0 tl, bkt = a0 :: tl ∧
          (∀ s ∈ tl, s.Timestamp - a0.Timestamp < 60 * 1000000000) ∧
          (3 : Int) ≤ (bkt.length : Int)) ∧
      (specBucketGroups (60 * 1000000000) c4sigs).flatten = c4sigs ∧
      List.Chain'
        (fun g1 g2 => (60 : Int) * 1000000000 ≤
          (g2.headD default).Timestamp - (g1.headD default).Timestamp)
        (specBucketGroups (60 * 1000000000) c4sigs)) :=
  ⟨by decide, claim_C2 c4sigs 60 3 (by decide)⟩

/-- The one cluster of `c4sigs`, formed from its single bucket. -/
def c3clu : Cluster := mkCluster c4sigs

set_option maxRecDepth 10000 in
theorem claim_C3_witness :
    c3clu ∈ findClusters c4sigs 60 3 ∧
    (c3clu.Score =
      gomin ((c3clu.Services.length : Rat) / 3) 1 * 40 +
      gomin ((c3clu.Errors : Rat) / (c3clu.Signals.length : Rat)) 1 * 40 +
      gomin ((c3clu.Signals.length : Rat) / 20) 1 * 20 ∧
      0 ≤ c3clu.Score ∧ c3clu.Score ≤ 100) :=
  ⟨by decide, claim_C3 c4sigs 60 3 c3clu (by decide)⟩

theorem claim_C4_amended_witness :
    ([c4AggAB, c4AggBA].Perm (aggregates c4sigs (60 * 1000000000))) ∧
    ([c4AggBA, c4AggAB].Perm (aggregates c4sigs (60 * 1000000000))) ∧
    (detectPropagationWith c4sigs 60 [c4AggAB, c4AggBA]).Perm
      (detectPropagationWith c4sigs 60 [c4AggBA, c4AggAB]) :=
  ⟨by decide, by decide,
    claim_C4_amended c4sigs 60 [c4AggAB, c4AggBA] [c4AggBA, c4AggAB]
      (by decide) (by decide)⟩

set_option maxRecDepth 10000 in
theorem claim_C5_amended_witness :
    (findClusters c4sigs 60 3).Pairwise (fun c d => d.Score ≤ c.Score) ∧
    (clustersPreSort c4sigs 60 3).length ≤ 12 ∧
    ∀ q : Rat,
      (findClusters c4sigs 60 3).filter (fun c => decide (c.Score = q)) =
        (clustersPreSort c4sigs 60 3).filter (fun c => decide (c.Score = q)) :=
  ⟨(claim_C5_amended c4sigs 60 3).1, by decide,
    fun q => (claim_C5_amended c4sigs 60 3).2 (by decide) q⟩

end witnessEval

theorem claim_C6_amended_witness :
    Run (c6client 0) c6opts 0 =
      (Except.ok (c6result 0),
        [Call.listServices, Call.queryLogs [97], Call.queryTraces [97]]) ∧
    traceSignal (c6trace 0) ∈ (c6result 0).Signals ∧
    (((traceSignal (c6trace 0)).Source = strLogs →
        (traceSignal (c6trace 0)).Summary.length ≤ 123) ∧
      ((traceSignal (c6trace 0)).Source = strTraces →
        ∃ (svc : Service) (traces : List TraceEntry) (t : TraceEntry),
          (c6client 0).queryTraces svc.Name = Except.ok traces ∧ t ∈ traces ∧
          (isErrorTrace t || isSlowTrace t) = true ∧
          traceSignal (c6trace 0) = traceSignal t ∧
          ∃ rest, (traceSignal (c6trace 0)).Summary = t.OperationName ++ rest)) :=
  ⟨c6run 0, by simp [c6result],
    claim_C6_amended (c6client 0) c6opts 0 (c6result 0) _ (traceSignal (c6trace 0))
      (c6run 0) (by simp [c6result])⟩

theorem claim_C7_witness :
    c7client.listServices = Except.ok [c6svc] ∧
    c7opts.Service ≠ [] ∧
    (∀ s ∈ [c6svc], s.Name ≠ c7opts.Service) ∧
    Run c7client c7opts 0 =
      (Except.error (RunError.serviceNotFound c7opts.Service), [Call.listServices]) :=
  ⟨rfl, by decide, by decide,
    claim_C7 c7client c7opts 0 [c6svc] rfl (by decide) (by decide)⟩

theorem claim_C8_witness :
    (c8opts.BucketSize ≤ 0 ∧
      Run c7client c8opts 0 = Run c7client { c8opts with BucketSize := 60 } 0) ∧
    (c8opts.MinEvents ≤ 0 ∧
      Run c7client c8opts 0 = Run c7client { c8opts with MinEvents := 3 } 0) :=
  ⟨⟨by decide, (claim_C8 c7client c8opts 0).1 (by decide)⟩,
    ⟨by decide, (claim_C8 c7client c8opts 0).2 (by decide)⟩⟩

theorem claim_C9_witness :
    Run (c6client 0) c6opts 0 =
      (Except.ok (c6result 0),
        [Call.listServices, Call.queryLogs [97], Call.queryTraces [97]]) ∧
    ((c6result 0).Clusters = findClusters (c6result 0).Signals
        (if c6opts.BucketSize ≤ 0 then 60 else c6opts.BucketSize)
        (if c6opts.MinEvents ≤ 0 then 3 else c6opts.MinEvents) ∧
      (c6result 0).Propagation = detectPropagation (c6result 0).Signals
        (if c6opts.BucketSize ≤ 0 then 60 else c6opts.BucketSize)) :=
  ⟨c6run 0, claim_C9 (c6client 0) c6opts 0 (c6result 0) _ (c6run 0)⟩

theorem claim_C10_witness :
    (∀ bkt ∈ findBuckets c4sigs 60 3, 0 < bkt.length) ∧
    (∀ c ∈ findClusters c4sigs 60 3,
      0 < c.Signals.length ∧ ((c.Signals.length : Rat) ≠ 0)) :=
  claim_C10 c4sigs 60 3

end correlate
